import Mathlib

/-!
# Access-control record store (lb10/lb10/lb10.cpp)

A shallow embedding of the `User` class hierarchy, `Resource`, and the
`AccessControlSystem<Resource>` store of `lb10.cpp`, followed by theorems
about construction-time validation, access checks, lookups, sorting and the
line-oriented text persistence.

Conventions of the embedding.

* A `std::string` is a `List Char` (`Str`).
* An `int` is an `Int`.  The store does no arithmetic on its `int`s; the
  32-bit range matters where text is parsed back into an `int` (`operator>>`),
  and is explicit there.  The two game programs add and subtract, and every
  such result goes through `wrapInt`.
* A member function that can throw returns `Except Exception _`, or a pair of
  the state left behind and the exception that escaped.
* `std::sort`, `operator<<` and `operator>>` belong to the C++ standard
  library, not to the program.  The stream operators are modelled by the
  functions of the section "Streams"; `std::sort` is a parameter `StdSort`
  carrying exactly what the standard promises of it, and `gnuSorter` is the
  `std::sort` of GNU libstdc++.
-/

namespace Lb10

/-- A `std::string`. -/
abbrev Str := List Char

/-- The exception classes the program throws: its own `InvalidInputException`
and `FileException`, and a plain `std::runtime_error`. -/
inductive Exception where
  | InvalidInputException (msg : String)
  | FileException (msg : String)
  | runtime_error (msg : String)
  deriving DecidableEq, Repr

/-- Equality of results of a function that can throw is decidable. -/
instance instDecidableEqExcept {ε α : Type} [DecidableEq ε] [DecidableEq α] :
    DecidableEq (Except ε α) := fun a b =>
  match a, b with
  | .ok x, .ok y =>
    if h : x = y then isTrue (by rw [h]) else isFalse (fun h' => h (Except.ok.inj h'))
  | .error x, .error y =>
    if h : x = y then isTrue (by rw [h]) else isFalse (fun h' => h (Except.error.inj h'))
  | .ok _, .error _ => isFalse (fun h => nomatch h)
  | .error _, .ok _ => isFalse (fun h => nomatch h)

/-- The class `User` with its three subclasses; a value is an object of the
hierarchy as held behind a `std::unique_ptr<User>`, tagged by its dynamic type. -/
inductive User where
  | user (name : Str) (id accessLevel : Int)
  | student (name : Str) (id accessLevel : Int) (group : Int)
  | teacher (name : Str) (id accessLevel : Int) (department : Str)
  | administrator (name : Str) (id accessLevel : Int) (adminKey : Str)
  deriving DecidableEq, Repr

namespace User

/-- `User::getName`. -/
def getName : User → Str
  | user n _ _ => n
  | student n _ _ _ => n
  | teacher n _ _ _ => n
  | administrator n _ _ _ => n

/-- `User::getId`. -/
def getId : User → Int
  | user _ i _ => i
  | student _ i _ _ => i
  | teacher _ i _ _ => i
  | administrator _ i _ _ => i

/-- `User::getAccessLevel`. -/
def getAccessLevel : User → Int
  | user _ _ a => a
  | student _ _ a _ => a
  | teacher _ _ a _ => a
  | administrator _ _ a _ => a

/-- `User::validate`, run on the three base fields: the three checks in source
order, the first violated one throwing. -/
def validate (name : Str) (id accessLevel : Int) : Except Exception Unit :=
  if name.isEmpty then
    .error (.InvalidInputException "User name cannot be empty")
  else if id < 0 then
    .error (.InvalidInputException "User ID cannot be negative")
  else if accessLevel < 0 then
    .error (.InvalidInputException "Access level cannot be negative")
  else
    .ok ()

/-- The constructor `User::User(name, id, accessLevel)`. -/
def ctor (name : Str) (id accessLevel : Int) : Except Exception User :=
  match validate name id accessLevel with
  | .error e => .error e
  | .ok () => .ok (user name id accessLevel)

end User

/-- The constructor `Student::Student`: the base constructor, then `group`. -/
def Student.ctor (name : Str) (id accessLevel group : Int) : Except Exception User :=
  match User.ctor name id accessLevel with
  | .error e => .error e
  | .ok _ => .ok (User.student name id accessLevel group)

/-- The constructor `Teacher::Teacher`: the base constructor, then `department`. -/
def Teacher.ctor (name : Str) (id accessLevel : Int) (department : Str) :
    Except Exception User :=
  match User.ctor name id accessLevel with
  | .error e => .error e
  | .ok _ => .ok (User.teacher name id accessLevel department)

/-- The constructor `Administrator::Administrator`: the base constructor, then
`adminKey`. -/
def Administrator.ctor (name : Str) (id accessLevel : Int) (key : Str) :
    Except Exception User :=
  match User.ctor name id accessLevel with
  | .error e => .error e
  | .ok _ => .ok (User.administrator name id accessLevel key)

/-- The class `Resource`. -/
structure Resource where
  name : Str
  requiredAccessLevel : Int
  deriving DecidableEq, Repr

namespace Resource

/-- `Resource::validate`. -/
def validate (name : Str) (requiredAccessLevel : Int) : Except Exception Unit :=
  if name.isEmpty then
    .error (.InvalidInputException "Resource name cannot be empty")
  else if requiredAccessLevel < 0 then
    .error (.InvalidInputException "Required access level cannot be negative")
  else
    .ok ()

/-- The constructor `Resource::Resource(name, requiredAccessLevel)`. -/
def ctor (name : Str) (requiredAccessLevel : Int) : Except Exception Resource :=
  match validate name requiredAccessLevel with
  | .error e => .error e
  | .ok () => .ok ⟨name, requiredAccessLevel⟩

/-- `Resource::getName`. -/
def getName (r : Resource) : Str := r.name

/-- `Resource::getRequiredAccessLevel`. -/
def getRequiredAccessLevel (r : Resource) : Int := r.requiredAccessLevel

/-- `Resource::checkAccess(user)`. -/
def checkAccess (r : Resource) (u : User) : Bool :=
  decide (u.getAccessLevel ≥ r.requiredAccessLevel)

end Resource

/-- The two data members of `AccessControlSystem<Resource>`. -/
structure AccessControlSystem where
  users : List User
  resources : List Resource
  deriving DecidableEq, Repr

namespace AccessControlSystem

/-- A default-constructed system: both vectors empty. -/
def empty : AccessControlSystem := ⟨[], []⟩

/-- `addUser`: `users.push_back`. -/
def addUser (s : AccessControlSystem) (u : User) : AccessControlSystem :=
  { s with users := s.users ++ [u] }

/-- `addResource`: `resources.push_back`. -/
def addResource (s : AccessControlSystem) (r : Resource) : AccessControlSystem :=
  { s with resources := s.resources ++ [r] }

/-- `checkAccess(userId, resourceName)`: two `std::find_if` scans, the user
miss reported before the resource miss. -/
def checkAccess (s : AccessControlSystem) (userId : Int) (resourceName : Str) :
    Except Exception Bool :=
  let userIt := s.users.find? (fun user => decide (user.getId = userId))
  let resIt := s.resources.find? (fun res => decide (res.getName = resourceName))
  match userIt with
  | none => .error (.runtime_error "User not found")
  | some user =>
    match resIt with
    | none => .error (.runtime_error "Resource not found")
    | some res => .ok (res.checkAccess user)

/-- `findUsersByName`: the range-for loop pushing each match onto `result`. -/
def findUsersByName (s : AccessControlSystem) (name : Str) : List User :=
  s.users.foldl
    (fun result user => if user.getName = name then result ++ [user] else result) []

/-- `findUserById`: `std::find_if`, `none` standing for `nullptr`. -/
def findUserById (s : AccessControlSystem) (id : Int) : Option User :=
  s.users.find? (fun user => decide (user.getId = id))

end AccessControlSystem

/-! ## Sorting -/

/-- What `std::sort` requires of its comparator (`Compare`): a strict weak
ordering. -/
structure StrictWeakOrdering {α : Type} (comp : α → α → Bool) : Prop where
  irrefl : ∀ a, comp a a = false
  trans : ∀ a b c, comp a b = true → comp b c = true → comp a c = true
  incomp_trans : ∀ a b c, comp a b = false → comp b a = false →
    comp b c = false → comp c b = false → comp a c = false ∧ comp c a = false

/-- The library function `std::sort(first, last, comp)`, taken as a parameter:
any function which, given a comparator that is a strict weak ordering, returns
a rearrangement of its input in which no element is `comp`-less than an earlier
one.  This is what the C++ standard promises of the result of `std::sort`; the
relative order of equivalent elements is left to the implementation
(`std::stable_sort` is the function that keeps it). -/
structure StdSort where
  sort : (User → User → Bool) → List User → List User
  perm : ∀ comp xs, StrictWeakOrdering comp → (sort comp xs).Perm xs
  sorted : ∀ comp xs, StrictWeakOrdering comp →
    (sort comp xs).Pairwise (fun a b => comp b a = false)

/-- For a strict weak ordering, "not greater" is total. -/
def notGreater_total {comp : User → User → Bool} (h : StrictWeakOrdering comp) :
    IsTotal User (fun a b => comp b a = false) :=
  ⟨fun a b => by
    cases hba : comp b a
    · exact Or.inl rfl
    · cases hab : comp a b
      · exact Or.inr rfl
      · have := h.trans a b a hab hba
        rw [h.irrefl a] at this
        exact absurd this (by decide)⟩

/-- For a strict weak ordering, "not greater" is transitive. -/
def notGreater_trans {comp : User → User → Bool} (h : StrictWeakOrdering comp) :
    IsTrans User (fun a b => comp b a = false) :=
  ⟨fun a b c hab hbc => by
    show comp c a = false
    cases hca : comp c a
    · rfl
    · exfalso
      cases h1 : comp a b
      · cases h2 : comp b c
        · have := (h.incomp_trans a b c h1 hab h2 hbc).2
          rw [hca] at this
          exact absurd this (by decide)
        · have := h.trans b c a h2 hca
          have hab' : comp b a = false := hab
          rw [hab'] at this
          exact absurd this (by decide)
      · have := h.trans c a b hca h1
        have hbc' : comp c b = false := hbc
        rw [hbc'] at this
        exact absurd this (by decide)⟩

/-- One function meeting the contract of `std::sort`: insertion sort, which
keeps equivalent elements in their input order. -/
def insertionSorter : StdSort where
  sort comp xs := List.insertionSort (fun a b => comp b a = false) xs
  perm _ xs _ := List.perm_insertionSort _ xs
  sorted comp xs h := by
    haveI := notGreater_total h
    haveI := notGreater_trans h
    exact List.sorted_insertionSort (fun a b => comp b a = false) xs

/-! ### The `std::sort` of GNU libstdc++

`std::sort` is not part of the repository; what follows is the algorithm of the
library the program is built against with GCC (`bits/stl_algo.h`,
`bits/stl_heap.h`): introsort.  A range longer than 16 is partitioned around a
median of three until the pieces are at most 16 long, with heap sort taking
over a piece when the depth limit is used up; an insertion sort of the whole
range finishes.  The range is the list `v`, an iterator is a position in it,
and every loop carries a count of iterations (`fuel`) that is never used up.
A position outside the list, which the library never dereferences, reads as
"not less" and writes nothing. -/

namespace libstdcxx

/-- The loop of `lg`. -/
def lgAux : Nat → Nat → Nat
  | 0, _ => 0
  | fuel + 1, n => if n < 2 then 0 else lgAux fuel (n / 2) + 1

/-- `std::__lg(n)`: the position of the highest bit set in `n`. -/
def lg (n : Nat) : Nat := lgAux n n

/-- `comp(i, j)` on two iterators: the comparator on the elements at the
positions `i` and `j`. -/
def compAt {α : Type} (comp : α → α → Bool) (v : List α) (i j : Nat) : Bool :=
  match v[i]?, v[j]? with
  | some x, some y => comp x y
  | _, _ => false

/-- `std::iter_swap(i, j)`. -/
def iter_swap {α : Type} (v : List α) (i j : Nat) : List α :=
  match v[i]?, v[j]? with
  | some x, some y => (v.set i y).set j x
  | _, _ => v

/-- `std::__move_median_to_first(result, a, b, c, comp)`: the median of the
elements at `a`, `b`, `c` changes places with the element at `result`. -/
def move_median_to_first {α : Type} (comp : α → α → Bool) (v : List α)
    (result a b c : Nat) : List α :=
  if compAt comp v a b then
    if compAt comp v b c then iter_swap v result b
    else if compAt comp v a c then iter_swap v result c
    else iter_swap v result a
  else if compAt comp v a c then iter_swap v result a
  else if compAt comp v b c then iter_swap v result c
  else iter_swap v result b

/-- The loop `while (comp(first, pivot)) ++first;` of `__unguarded_partition`:
the position it stops at. -/
def scanUp {α : Type} (comp : α → α → Bool) (v : List α) (pivot : Nat) : Nat → Nat → Nat
  | 0, first => first
  | fuel + 1, first =>
    if compAt comp v first pivot then scanUp comp v pivot fuel (first + 1) else first

/-- The loop `while (comp(pivot, last)) --last;` of `__unguarded_partition`:
the position it stops at. -/
def scanDown {α : Type} (comp : α → α → Bool) (v : List α) (pivot : Nat) : Nat → Nat → Nat
  | 0, last => last
  | fuel + 1, last =>
    if compAt comp v pivot last then scanDown comp v pivot fuel (last - 1) else last

/-- `std::__unguarded_partition(first, last, pivot, comp)`: the list after the
exchanges and the position returned.  Each round moves `first` up past the
elements less than the pivot, steps `last` down once and then past the elements
the pivot is less than, and exchanges the two elements if `first` is still
below `last`; an element equivalent to the pivot stops both scans. -/
def unguarded_partition {α : Type} (comp : α → α → Bool) (pivot : Nat) :
    Nat → List α → Nat → Nat → List α × Nat
  | 0, v, first, _ => (v, first)
  | fuel + 1, v, first, last =>
    let first := scanUp comp v pivot v.length first
    let last := scanDown comp v pivot v.length (last - 1)
    if first < last then
      unguarded_partition comp pivot fuel (iter_swap v first last) (first + 1) last
    else (v, first)

/-- `std::__unguarded_partition_pivot(first, last, comp)`: the median of the
elements at `first + 1`, the middle and `last - 1` goes to `first`, and the
rest of the range is partitioned around it. -/
def unguarded_partition_pivot {α : Type} (comp : α → α → Bool) (v : List α)
    (first last : Nat) : List α × Nat :=
  let mid := first + (last - first) / 2
  let v := move_median_to_first comp v first (first + 1) mid (last - 1)
  unguarded_partition comp first (last - first) v (first + 1) last

/-- `std::__push_heap(first, holeIndex, topIndex, value, comp)`. -/
def push_heap {α : Type} (comp : α → α → Bool) (first topIndex : Nat) (value : α) :
    Nat → List α → Nat → List α
  | 0, v, holeIndex => v.set (first + holeIndex) value
  | fuel + 1, v, holeIndex =>
    let parent := (holeIndex - 1) / 2
    match v[first + parent]? with
    | some p =>
      if holeIndex > topIndex ∧ comp p value then
        push_heap comp first topIndex value fuel (v.set (first + holeIndex) p) parent
      else v.set (first + holeIndex) value
    | none => v.set (first + holeIndex) value

/-- The `while` loop of `__adjust_heap`: the hole moves down to the larger
child as long as there are two children.  The result is the list, the hole and
`secondChild`. -/
def adjust_heap_loop {α : Type} (comp : α → α → Bool) (first len : Nat) :
    Nat → List α → Nat → Nat → List α × Nat × Nat
  | 0, v, holeIndex, secondChild => (v, holeIndex, secondChild)
  | fuel + 1, v, holeIndex, secondChild =>
    if secondChild < (len - 1) / 2 then
      let secondChild := 2 * (secondChild + 1)
      let secondChild :=
        if compAt comp v (first + secondChild) (first + (secondChild - 1)) then
          secondChild - 1
        else secondChild
      match v[first + secondChild]? with
      | some x =>
        adjust_heap_loop comp first len fuel (v.set (first + holeIndex) x) secondChild
          secondChild
      | none => (v, holeIndex, secondChild)
    else (v, holeIndex, secondChild)

/-- `std::__adjust_heap(first, holeIndex, len, value, comp)`: the loop, the
step to an only child of a heap of even length, then `__push_heap`. -/
def adjust_heap {α : Type} (comp : α → α → Bool) (v : List α) (first holeIndex len : Nat)
    (value : α) : List α :=
  match adjust_heap_loop comp first len len v holeIndex holeIndex with
  | (v, hole, secondChild) =>
    if len % 2 = 0 ∧ secondChild = (len - 2) / 2 then
      match v[first + (2 * (secondChild + 1) - 1)]? with
      | some x =>
        push_heap comp first holeIndex value len (v.set (first + hole) x)
          (2 * (secondChild + 1) - 1)
      | none => push_heap comp first holeIndex value len v hole
    else push_heap comp first holeIndex value len v hole

/-- `std::__pop_heap(first, last, result, comp)`. -/
def pop_heap {α : Type} (comp : α → α → Bool) (v : List α) (first last result : Nat) :
    List α :=
  match v[result]?, v[first]? with
  | some value, some top => adjust_heap comp (v.set result top) first 0 (last - first) value
  | _, _ => v

/-- The loop of `__make_heap`, from `parent` down to 0. -/
def make_heap_loop {α : Type} (comp : α → α → Bool) (first len : Nat) :
    Nat → List α → List α
  | 0, v =>
    match v[first]? with
    | some value => adjust_heap comp v first 0 len value
    | none => v
  | parent + 1, v =>
    match v[first + (parent + 1)]? with
    | some value =>
      make_heap_loop comp first len parent (adjust_heap comp v first (parent + 1) len value)
    | none => v

/-- `std::__make_heap(first, last, comp)`. -/
def make_heap {α : Type} (comp : α → α → Bool) (v : List α) (first last : Nat) : List α :=
  if last - first < 2 then v
  else make_heap_loop comp first (last - first) ((last - first - 2) / 2) v

/-- `std::__sort_heap(first, last, comp)`. -/
def sort_heap {α : Type} (comp : α → α → Bool) (first : Nat) : Nat → List α → Nat → List α
  | 0, v, _ => v
  | fuel + 1, v, last =>
    if last - first > 1 then
      sort_heap comp first fuel (pop_heap comp v first (last - 1) (last - 1)) (last - 1)
    else v

/-- The heap sort `std::__partial_sort(first, last, last, comp)`:
`__heap_select` with the middle at `last` only makes the heap, and
`__sort_heap` takes it apart. -/
def heap_sort {α : Type} (comp : α → α → Bool) (v : List α) (first last : Nat) : List α :=
  sort_heap comp first (last - first) (make_heap comp v first last) last

/-- `std::__introsort_loop(first, last, depth_limit, comp)`: while the range is
longer than 16, heap sort at depth limit 0, otherwise a partition, the loop on
the upper piece, and the lower piece next. -/
def introsort_loop {α : Type} (comp : α → α → Bool) :
    Nat → List α → Nat → Nat → Nat → List α
  | 0, v, _, _, _ => v
  | fuel + 1, v, first, last, depth_limit =>
    if last - first > 16 then
      if depth_limit = 0 then heap_sort comp v first last
      else
        match unguarded_partition_pivot comp v first last with
        | (v, cut) =>
          introsort_loop comp fuel (introsort_loop comp fuel v cut last (depth_limit - 1))
            first cut (depth_limit - 1)
    else v

/-- The loop of `__unguarded_linear_insert`: the elements `val` is less than
move up one place each, and `val` goes below them. -/
def unguarded_linear_insert_loop {α : Type} (comp : α → α → Bool) (val : α) :
    Nat → List α → Nat → List α
  | 0, v, last => v.set last val
  | fuel + 1, v, last =>
    match v[last - 1]? with
    | some next =>
      if last ≠ 0 ∧ comp val next then
        unguarded_linear_insert_loop comp val fuel (v.set last next) (last - 1)
      else v.set last val
    | none => v.set last val

/-- `std::__unguarded_linear_insert(last, comp)`. -/
def unguarded_linear_insert {α : Type} (comp : α → α → Bool) (v : List α) (last : Nat) :
    List α :=
  match v[last]? with
  | some val => unguarded_linear_insert_loop comp val last v last
  | none => v

/-- `std::__insertion_sort(first, last, comp)`: an element less than the first
one goes to the front, the elements before it moving up one place; any other
element is inserted from the right, behind the elements it is not less than. -/
def insertion_sort {α : Type} (comp : α → α → Bool) (v : List α) (first last : Nat) :
    List α :=
  (List.range' (first + 1) (last - (first + 1))).foldl
    (fun v i =>
      if compAt comp v i first then
        match v[i]? with
        | some val =>
          v.take first ++ val :: ((v.drop first).take (i - first) ++ v.drop (i + 1))
        | none => v
      else unguarded_linear_insert comp v i)
    v

/-- `std::__unguarded_insertion_sort(first, last, comp)`. -/
def unguarded_insertion_sort {α : Type} (comp : α → α → Bool) (v : List α)
    (first last : Nat) : List α :=
  (List.range' first (last - first)).foldl (fun v i => unguarded_linear_insert comp v i) v

/-- `std::__final_insertion_sort(first, last, comp)`. -/
def final_insertion_sort {α : Type} (comp : α → α → Bool) (v : List α) (first last : Nat) :
    List α :=
  if last - first > 16 then
    unguarded_insertion_sort comp (insertion_sort comp v first (first + 16)) (first + 16) last
  else insertion_sort comp v first last

/-- `std::sort(first, last, comp)` over the whole of `v`. -/
def sort {α : Type} (comp : α → α → Bool) (v : List α) : List α :=
  if v.length = 0 then v
  else
    final_insertion_sort comp
      (introsort_loop comp v.length v 0 v.length (2 * lg v.length)) 0 v.length

end libstdcxx

/-- The `std::sort` of GNU libstdc++ as a `StdSort`.  The result of
`libstdcxx.sort` is returned whenever it is an ordered rearrangement of the
input, which the library guarantees for a comparator that is a strict weak
ordering; the test stands for that guarantee, and `insertionSorter` answers
where it fails, as it can only for a comparator outside the contract. -/
def gnuSorter : StdSort where
  sort comp xs :=
    if (libstdcxx.sort comp xs).Perm xs ∧
        (libstdcxx.sort comp xs).Pairwise (fun a b => comp b a = false) then
      libstdcxx.sort comp xs
    else insertionSorter.sort comp xs
  perm comp xs h := by
    by_cases hc : (libstdcxx.sort comp xs).Perm xs ∧
        (libstdcxx.sort comp xs).Pairwise (fun a b => comp b a = false)
    · simp only [hc, and_self, if_true]
    · simp only [hc, if_false]
      exact insertionSorter.perm comp xs h
  sorted comp xs h := by
    by_cases hc : (libstdcxx.sort comp xs).Perm xs ∧
        (libstdcxx.sort comp xs).Pairwise (fun a b => comp b a = false)
    · simp only [hc, and_self, if_true]
    · simp only [hc, if_false]
      exact insertionSorter.sorted comp xs h

namespace AccessControlSystem

/-- `sortUsersByAccessLevel`: `std::sort` with the comparator
`a->getAccessLevel() < b->getAccessLevel()`. -/
def sortUsersByAccessLevel (sorter : StdSort) (s : AccessControlSystem) :
    AccessControlSystem :=
  { s with users :=
      sorter.sort (fun a b => decide (a.getAccessLevel < b.getAccessLevel)) s.users }

/-- `sortUsersById`: `std::sort` with the comparator `a->getId() < b->getId()`. -/
def sortUsersById (sorter : StdSort) (s : AccessControlSystem) : AccessControlSystem :=
  { s with users := sorter.sort (fun a b => decide (a.getId < b.getId)) s.users }

end AccessControlSystem

/-! ## Streams

The file is the sequence of characters written to it.  `operator<<` and
`operator>>` are the formatted stream operators of the standard library in the
default ("C") locale with the default flags (decimal, `skipws`). -/

/-- `std::isspace` in the "C" locale: space, `\t`, `\n`, `\v`, `\f`, `\r`. -/
def isspace (c : Char) : Bool :=
  c.toNat == 32 || (9 ≤ c.toNat && c.toNat ≤ 13)

/-- `std::isdigit`. -/
def isdigit (c : Char) : Bool :=
  48 ≤ c.toNat && c.toNat ≤ 57

/-- `INT_MAX` of a 32-bit `int`. -/
def INT_MAX : Int := 2147483647

/-- `INT_MIN` of a 32-bit `int`. -/
def INT_MIN : Int := -2147483648

/-- The value a 32-bit `int` holds when an arithmetic operation has the exact
result `x`: `x` itself inside `INT_MIN..INT_MAX`, and the value congruent to `x`
modulo `2^32` outside it.  The C++ standard leaves signed overflow undefined;
two's-complement wrap-around is what the compiled programs do. -/
def wrapInt (x : Int) : Int := (x + 2147483648) % 4294967296 - 2147483648

/-- `out << n` for a non-negative number: its decimal digits. -/
def putNat (n : Nat) : Str := Nat.toDigits 10 n

/-- `out << i` for an `int`: a minus sign for a negative value, then the
decimal digits of the magnitude. -/
def putInt (i : Int) : Str :=
  if i < 0 then Char.ofNat 45 :: putNat i.natAbs else putNat i.toNat

/-- The value of a run of decimal digits. -/
def digitsValue (ds : List Char) : Nat :=
  ds.foldl (fun v c => 10 * v + (c.toNat - 48)) 0

/-- An input file stream: the characters not yet read, and whether the stream
has stopped being `good()` (once set, every later extraction is a no-op and the
stream tests false). -/
structure IStream where
  buf : List Char
  fail : Bool
  deriving DecidableEq, Repr

namespace IStream

/-- `in >> str` for a `std::string` whose current value is `old`: skip leading
whitespace, then take characters up to the next whitespace or the end.  With
nothing left to take the stream fails and the string keeps its value. -/
def getString (is : IStream) (old : Str) : IStream × Str :=
  if is.fail then (is, old)
  else
    match is.buf.dropWhile isspace with
    | [] => (⟨[], true⟩, old)
    | c :: cs =>
      (⟨(c :: cs).dropWhile (fun x => !isspace x), false⟩,
        (c :: cs).takeWhile (fun x => !isspace x))

/-- `in >> n` for an `int` whose current value is `old`: skip leading
whitespace, read an optional sign and the longest run of digits.  No digit:
the stream fails and the value is 0; a value outside the range of `int`: the
stream fails and the value is the nearest bound.  On a stream that has already
failed, or with only whitespace left, the variable keeps its value. -/
def getInt (is : IStream) (old : Int) : IStream × Int :=
  if is.fail then (is, old)
  else
    match is.buf.dropWhile isspace with
    | [] => (⟨[], true⟩, old)
    | c :: cs =>
      let negative := c.toNat == 45
      let body := if c.toNat == 45 || c.toNat == 43 then cs else c :: cs
      let ds := body.takeWhile isdigit
      let rest := body.dropWhile isdigit
      if ds.isEmpty then (⟨rest, true⟩, 0)
      else
        let v : Int := if negative then -(digitsValue ds : Int) else (digitsValue ds : Int)
        if v > INT_MAX then (⟨rest, true⟩, INT_MAX)
        else if v < INT_MIN then (⟨rest, true⟩, INT_MIN)
        else (⟨rest, false⟩, v)

end IStream

/-! ## Persistence -/

namespace User

/-- The virtual `saveToFile(out)` of `User` and its overrides: the characters
the object appends to the stream. -/
def saveToFile : User → Str
  | user n i a =>
    "User ".toList ++ n ++ " ".toList ++ putInt i ++ " ".toList ++ putInt a ++ "\n".toList
  | student n i a g =>
    "Student ".toList ++ n ++ " ".toList ++ putInt i ++ " ".toList ++ putInt a ++
      " ".toList ++ putInt g ++ "\n".toList
  | teacher n i a d =>
    "Teacher ".toList ++ n ++ " ".toList ++ putInt i ++ " ".toList ++ putInt a ++
      " ".toList ++ d ++ "\n".toList
  | administrator n i a k =>
    "Administrator ".toList ++ n ++ " ".toList ++ putInt i ++ " ".toList ++ putInt a ++
      " ".toList ++ k ++ "\n".toList

end User

/-- `Resource::saveToFile(out)`. -/
def Resource.saveToFile (r : Resource) : Str :=
  "Resource ".toList ++ r.name ++ " ".toList ++ putInt r.requiredAccessLevel ++ "\n".toList

/-- The values the local `int` variables of one `loadFromFile` iteration hold
before anything is read into them: they are declared without an initialiser,
and are read as they are when the extraction did not store into them. -/
structure Uninit where
  id : Int
  accessLevel : Int
  group : Int
  requiredAccessLevel : Int
  deriving DecidableEq, Repr

namespace AccessControlSystem

/-- `saveToFile(filename)`: `opened` tells whether the `ofstream` could be
opened; the result is the text written, every user then every resource. -/
def saveToFile (opened : Bool) (s : AccessControlSystem) : Except Exception Str :=
  if !opened then .error (.FileException "Cannot open file for writing")
  else
    let out := s.users.foldl (fun out user => out ++ user.saveToFile) []
    .ok (s.resources.foldl (fun out res => out ++ res.saveToFile) out)

/-- The `while (in >> type)` loop of `loadFromFile`, run for at most `fuel`
iterations on the stream `is` and the system `s`; the result is the system
left behind and the exception that ended the loop, if one did.  A record is
pushed only after its constructor has returned. -/
def loadLoop (u : Uninit) : Nat → IStream → AccessControlSystem →
    AccessControlSystem × Option Exception
  | 0, _, s => (s, none)
  | fuel + 1, is, s =>
    let (is, type) := is.getString []
    if is.fail then (s, none)
    else if type = "User".toList then
      let (is, name) := is.getString []
      let (is, id) := is.getInt u.id
      let (is, accessLevel) := is.getInt u.accessLevel
      match User.ctor name id accessLevel with
      | .error e => (s, some e)
      | .ok r => loadLoop u fuel is { s with users := s.users ++ [r] }
    else if type = "Student".toList then
      let (is, name) := is.getString []
      let (is, id) := is.getInt u.id
      let (is, accessLevel) := is.getInt u.accessLevel
      let (is, group) := is.getInt u.group
      match Student.ctor name id accessLevel group with
      | .error e => (s, some e)
      | .ok r => loadLoop u fuel is { s with users := s.users ++ [r] }
    else if type = "Teacher".toList then
      let (is, name) := is.getString []
      let (is, id) := is.getInt u.id
      let (is, accessLevel) := is.getInt u.accessLevel
      let (is, department) := is.getString []
      match Teacher.ctor name id accessLevel department with
      | .error e => (s, some e)
      | .ok r => loadLoop u fuel is { s with users := s.users ++ [r] }
    else if type = "Administrator".toList then
      let (is, name) := is.getString []
      let (is, id) := is.getInt u.id
      let (is, accessLevel) := is.getInt u.accessLevel
      let (is, key) := is.getString []
      match Administrator.ctor name id accessLevel key with
      | .error e => (s, some e)
      | .ok r => loadLoop u fuel is { s with users := s.users ++ [r] }
    else if type = "Resource".toList then
      let (is, name) := is.getString []
      let (is, requiredAccessLevel) := is.getInt u.requiredAccessLevel
      match Resource.ctor name requiredAccessLevel with
      | .error e => (s, some e)
      | .ok r => loadLoop u fuel is { s with resources := s.resources ++ [r] }
    else loadLoop u fuel is s

/-- `loadFromFile(filename)`: `file` is the content of the file, `none` when
the `ifstream` cannot be opened.  Both vectors are cleared, then the loop runs;
every successful `in >> type` consumes a character, so `length + 1` iterations
exhaust any input. -/
def loadFromFile (u : Uninit) (file : Option Str) (s : AccessControlSystem) :
    AccessControlSystem × Option Exception :=
  match file with
  | none => (s, some (.FileException "Cannot open file for reading"))
  | some text => loadLoop u (text.length + 1) ⟨text, false⟩ ⟨[], []⟩

end AccessControlSystem

/-! ## Predicates and client calls -/

/-- A string with no whitespace character in it (a single token of the file). -/
def NoSpace (w : Str) : Prop := ∀ c ∈ w, isspace c = false

instance (w : Str) : Decidable (NoSpace w) := by
  unfold NoSpace
  infer_instance

/-- A value in the range of a 32-bit `int`. -/
def IsInt (i : Int) : Prop := INT_MIN ≤ i ∧ i ≤ INT_MAX

instance (i : Int) : Decidable (IsInt i) := by
  unfold IsInt
  infer_instance

namespace User

/-- The invariant of a record: non-empty name, id and access level not
negative. -/
def Valid (r : User) : Prop := r.getName ≠ [] ∧ 0 ≤ r.getId ∧ 0 ≤ r.getAccessLevel

instance (r : User) : Decidable r.Valid := by
  unfold Valid
  infer_instance

/-- The constructor of the record's class, run on the record's fields. -/
def ctorOf : User → Except Exception User
  | user n i a => User.ctor n i a
  | student n i a g => Student.ctor n i a g
  | teacher n i a d => Teacher.ctor n i a d
  | administrator n i a k => Administrator.ctor n i a k

/-- The record is what the constructor of its class returns on its own
fields: the constructor accepts them. -/
def Constructed (r : User) : Prop := r.ctorOf = .ok r

instance (r : User) : Decidable r.Constructed := by
  unfold Constructed
  infer_instance

/-- Every `int` data member holds a value of a 32-bit `int`. -/
def IntFields : User → Prop
  | user _ i a => IsInt i ∧ IsInt a
  | student _ i a g => IsInt i ∧ IsInt a ∧ IsInt g
  | teacher _ i a _ => IsInt i ∧ IsInt a
  | administrator _ i a _ => IsInt i ∧ IsInt a

instance (r : User) : Decidable r.IntFields := by
  cases r <;> (unfold IntFields; infer_instance)

/-- No string data member (name, department, adminKey) has whitespace in it. -/
def NoWhitespace : User → Prop
  | user n _ _ => NoSpace n
  | student n _ _ _ => NoSpace n
  | teacher n _ _ d => NoSpace n ∧ NoSpace d
  | administrator n _ _ k => NoSpace n ∧ NoSpace k

instance (r : User) : Decidable r.NoWhitespace := by
  cases r <;> (unfold NoWhitespace; infer_instance)

/-- The string written last on the record's line, when the class has one
(department, adminKey), is not empty. -/
def LastFieldPresent : User → Prop
  | user _ _ _ => True
  | student _ _ _ _ => True
  | teacher _ _ _ d => d ≠ []
  | administrator _ _ _ k => k ≠ []

instance (r : User) : Decidable r.LastFieldPresent := by
  cases r <;> (unfold LastFieldPresent; infer_instance)

end User

/-- The invariant of a resource: non-empty name, required level not negative. -/
def Resource.Valid (r : Resource) : Prop := r.name ≠ [] ∧ 0 ≤ r.requiredAccessLevel

instance (r : Resource) : Decidable r.Valid := by
  unfold Resource.Valid
  infer_instance

/-- A user whose line reads back as written: accepted by its constructor,
`int` fields in range, strings free of whitespace, last string present. -/
def User.Storable (r : User) : Prop :=
  r.Constructed ∧ r.IntFields ∧ r.NoWhitespace ∧ r.LastFieldPresent

instance (r : User) : Decidable r.Storable := by
  unfold User.Storable
  infer_instance

/-- A resource whose line reads back as written. -/
def Resource.Storable (r : Resource) : Prop :=
  r.Valid ∧ IsInt r.requiredAccessLevel ∧ NoSpace r.name

instance (r : Resource) : Decidable r.Storable := by
  unfold Resource.Storable
  infer_instance

/-- Every held user and resource reads back as written. -/
def AccessControlSystem.Storable (s : AccessControlSystem) : Prop :=
  (∀ u ∈ s.users, u.Storable) ∧ (∀ r ∈ s.resources, r.Storable)

instance (s : AccessControlSystem) : Decidable s.Storable := by
  unfold AccessControlSystem.Storable
  infer_instance

/-- Every held user and every held resource satisfies its invariant. -/
def AccessControlSystem.Valid (s : AccessControlSystem) : Prop :=
  (∀ u ∈ s.users, u.Valid) ∧ (∀ r ∈ s.resources, r.Valid)

instance (s : AccessControlSystem) : Decidable s.Valid := by
  unfold AccessControlSystem.Valid
  infer_instance

/-- One call a client makes on the system.  The `add…` calls stand for
`system.addUser(std::make_unique<K>(…))` and `system.addResource(Resource(…))`:
the argument object is constructed first, and a constructor that throws leaves
the call unmade. -/
inductive Call where
  | addUser (name : Str) (id accessLevel : Int)
  | addStudent (name : Str) (id accessLevel group : Int)
  | addTeacher (name : Str) (id accessLevel : Int) (department : Str)
  | addAdministrator (name : Str) (id accessLevel : Int) (adminKey : Str)
  | addResource (name : Str) (requiredAccessLevel : Int)
  | sortUsersByAccessLevel
  | sortUsersById
  | loadFromFile (u : Uninit) (file : Option Str)

/-- The system a call leaves behind, and the exception that escaped it, if any. -/
def Call.run (sorter : StdSort) (s : AccessControlSystem) :
    Call → AccessControlSystem × Option Exception
  | .addUser n i a =>
    match User.ctor n i a with
    | .error e => (s, some e)
    | .ok r => (s.addUser r, none)
  | .addStudent n i a g =>
    match Student.ctor n i a g with
    | .error e => (s, some e)
    | .ok r => (s.addUser r, none)
  | .addTeacher n i a d =>
    match Teacher.ctor n i a d with
    | .error e => (s, some e)
    | .ok r => (s.addUser r, none)
  | .addAdministrator n i a k =>
    match Administrator.ctor n i a k with
    | .error e => (s, some e)
    | .ok r => (s.addUser r, none)
  | .addResource n l =>
    match Resource.ctor n l with
    | .error e => (s, some e)
    | .ok r => (s.addResource r, none)
  | .sortUsersByAccessLevel => (s.sortUsersByAccessLevel sorter, none)
  | .sortUsersById => (s.sortUsersById sorter, none)
  | .loadFromFile u file => s.loadFromFile u file

/-- The system after a sequence of calls, the client catching whatever a call
throws and going on. -/
def runCalls (sorter : StdSort) (calls : List Call) (s : AccessControlSystem) :
    AccessControlSystem :=
  calls.foldl (fun s c => (c.run sorter s).1) s

/-- The lines of a sequence of users, in order: what the first loop of
`saveToFile` writes. -/
def usersText (users : List User) : Str :=
  users.foldl (fun out user => out ++ user.saveToFile) []

/-- The lines of a sequence of resources, in order: what the second loop of
`saveToFile` appends. -/
def resourcesText (resources : List Resource) : Str :=
  resources.foldl (fun out res => out ++ res.saveToFile) []

/-- One of the two sorting calls. -/
inductive SortCall where
  | byAccessLevel
  | byId
  deriving DecidableEq, Repr

/-- The system after a sequence of sorting calls, made in the order listed. -/
def applySorts (sorter : StdSort) (sorts : List SortCall) (s : AccessControlSystem) :
    AccessControlSystem :=
  sorts.foldl
    (fun s c =>
      match c with
      | .byAccessLevel => s.sortUsersByAccessLevel sorter
      | .byId => s.sortUsersById sorter)
    s

/-! ## The layout of a saved line, in the spec's words -/

/-- The spec's line: a tag followed by the fields, separated by single spaces,
and closed by a line feed. -/
def layoutLine (tag : Str) (fields : List Str) : Str :=
  List.intercalate [Char.ofNat 32] (tag :: fields) ++ [Char.ofNat 10]

/-- The spec's tag of a user: the name of its concrete class. -/
def User.layoutTag : User → Str
  | .user _ _ _ => "User".toList
  | .student _ _ _ _ => "Student".toList
  | .teacher _ _ _ _ => "Teacher".toList
  | .administrator _ _ _ _ => "Administrator".toList

/-- The spec's fields of a user, in the fixed order: name, id, accessLevel,
then group, department or adminKey. -/
def User.layoutFields : User → List Str
  | .user n i a => [n, putInt i, putInt a]
  | .student n i a g => [n, putInt i, putInt a, putInt g]
  | .teacher n i a d => [n, putInt i, putInt a, d]
  | .administrator n i a k => [n, putInt i, putInt a, k]

/-- The string data members of a user: the name, and the department or
adminKey where the class has one. -/
def User.stringFields : User → List Str
  | .user n _ _ => [n]
  | .student n _ _ _ => [n]
  | .teacher n _ _ d => [n, d]
  | .administrator n _ _ k => [n, k]

/-- The spec's layout of a whole file: one line per user in store order, then
one line per resource in store order. -/
def layoutLines (s : AccessControlSystem) : List Str :=
  s.users.map (fun r => layoutLine r.layoutTag r.layoutFields) ++
    s.resources.map
      (fun x => layoutLine "Resource".toList [x.name, putInt x.requiredAccessLevel])

/-- The five tags `loadFromFile` dispatches on. -/
def tags : List Str :=
  ["User".toList, "Student".toList, "Teacher".toList, "Administrator".toList,
    "Resource".toList]

/-- Every name, department and adminKey held is a token: non-empty and free of
whitespace. -/
def AccessControlSystem.TokenStrings (s : AccessControlSystem) : Prop :=
  (∀ r ∈ s.users, ∀ w ∈ r.stringFields, w ≠ [] ∧ NoSpace w) ∧
  (∀ x ∈ s.resources, x.name ≠ [] ∧ NoSpace x.name)

instance (s : AccessControlSystem) : Decidable s.TokenStrings := by
  unfold AccessControlSystem.TokenStrings
  infer_instance

/-- Every `int` data member held has a value of a 32-bit `int`. -/
def AccessControlSystem.IntRange (s : AccessControlSystem) : Prop :=
  (∀ r ∈ s.users, r.IntFields) ∧ (∀ x ∈ s.resources, IsInt x.requiredAccessLevel)

instance (s : AccessControlSystem) : Decidable s.IntRange := by
  unfold AccessControlSystem.IntRange
  infer_instance

/-! ## Example data -/

/-- The store of the access-check scenario: `Student("Nick", 1, 1, 101)`,
`Teacher("Brown", 2, 3, "CS")` and `Resource("Lab", 3)`, inserted in this
order. -/
def labStore : AccessControlSystem :=
  ((AccessControlSystem.empty.addUser (.student "Nick".toList 1 1 101)).addUser
    (.teacher "Brown".toList 2 3 "CS".toList)).addResource ⟨"Lab".toList, 3⟩

/-- The student number `i` of a class: id `i`, access level 1 as every student
of `main` has, group 101. -/
def pupil (i : Nat) : User := .student ("P".toList ++ putNat i) i 1 101

/-- A class of seventeen students entered in the order of their ids: all share
the access level 1, and the ids are pairwise distinct. -/
def classStore : AccessControlSystem :=
  ⟨[pupil 1, pupil 2, pupil 3, pupil 4, pupil 5, pupil 6, pupil 7, pupil 8, pupil 9,
     pupil 10, pupil 11, pupil 12, pupil 13, pupil 14, pupil 15, pupil 16, pupil 17], []⟩

/-- A user entered under the id 7, which is not checked for being taken, with
access level 1; `i` tells the users entered so apart. -/
def twin (i : Nat) : User := .user ("T".toList ++ putNat i) 7 1

/-- Seventeen users who share the id 7 and the access level 1. -/
def twinStore : AccessControlSystem :=
  ⟨[twin 1, twin 2, twin 3, twin 4, twin 5, twin 6, twin 7, twin 8, twin 9, twin 10,
     twin 11, twin 12, twin 13, twin 14, twin 15, twin 16, twin 17], []⟩

/-- Two users with the same id and the same access level, told apart by their
names. -/
def tieStore : AccessControlSystem :=
  (AccessControlSystem.empty.addUser (.user "Ann".toList 1 1)).addUser
    (.user "Bob".toList 1 1)

/-- The store `main` builds: three users whose names have a space in them and
four resources.  `main` sorts it by access level before saving it; the levels
1, 3, 5 are already in order and pairwise distinct, so the sort leaves this
order. -/
def mainStore : AccessControlSystem :=
  ⟨[.student "Nick Teran".toList 1 1 101,
     .teacher "Ms. Brown".toList 2 3 "Computer Science".toList,
     .administrator "Mr. Smith".toList 3 5 "admin123".toList],
   [⟨"Classroom 101".toList, 1⟩, ⟨"Computer Lab".toList, 3⟩,
     ⟨"Main Library".toList, 2⟩, ⟨"Server Room".toList, 5⟩]⟩

/-- Two users of the same name, the one inserted first having the higher access
level and the higher id. -/
def samStore : AccessControlSystem :=
  (AccessControlSystem.empty.addUser (.user "Sam".toList 9 5)).addUser
    (.student "Sam".toList 4 1 7)

/-- The store of the persistence scenario: `Administrator("Smith", 3, 5, "k1")`
and `Resource("Server", 5)`. -/
def smithStore : AccessControlSystem :=
  (AccessControlSystem.empty.addUser
    (.administrator "Smith".toList 3 5 "k1".toList)).addResource ⟨"Server".toList, 5⟩

end Lb10

/-!
# RPG battle toy (lb9/lb9/lb9.cpp)

`Entity`, `Character` and the `Game` save file.  The `Logger` writes lines to a
log file and nothing else; its calls are left out.  The `Inventory` of a
`Character` is neither saved nor loaded and is not touched by the functions
embedded here; it is left out too.  An `int` is an `Int`, and the result of
every addition and subtraction on `int`s goes through `wrapInt`.
-/

namespace Lb9

open Lb10

/-- The data members of `Entity`. -/
structure Entity where
  name : Str
  maxHealth : Int
  health : Int
  attack : Int
  defense : Int
  deriving DecidableEq, Repr

namespace Entity

/-- The constructor `Entity(n, h, a, d)`: `maxHealth` and `health` both start
at `h`. -/
def ctor (n : Str) (h a d : Int) : Entity :=
  { name := n, maxHealth := h, health := h, attack := a, defense := d }

/-- `Entity::takeDamage(damage)`: the entity left behind, and the exception
thrown when the health would drop to zero or below. -/
def takeDamage (e : Entity) (damage : Int) : Entity × Option Exception :=
  if wrapInt (e.health - damage) ≤ 0 then
    ({ e with health := 0 },
      some (.runtime_error (String.mk e.name ++ " has been defeated!")))
  else
    ({ e with health := wrapInt (e.health - damage) }, none)

/-- `Entity::heal(amount)`. -/
def heal (e : Entity) (amount : Int) : Entity :=
  if wrapInt (e.health + amount) > e.maxHealth then { e with health := e.maxHealth }
  else { e with health := wrapInt (e.health + amount) }

end Entity

/-- The class `Character`: an `Entity` with a level and experience. -/
structure Character extends Entity where
  level : Int
  experience : Int
  deriving DecidableEq, Repr

namespace Character

/-- The constructor `Character(n, h, a, d)`: level 1, experience 0. -/
def ctor (n : Str) (h a d : Int) : Character :=
  { toEntity := Entity.ctor n h a d, level := 1, experience := 0 }

/-- `Character::heal(amount, logger)`: `Entity::heal`, then a log line. -/
def heal (c : Character) (amount : Int) : Character :=
  { c with toEntity := c.toEntity.heal amount }

/-- The inherited `Entity::takeDamage` on a character. -/
def takeDamage (c : Character) (damage : Int) : Character × Option Exception :=
  ({ c with toEntity := (c.toEntity.takeDamage damage).1 }, (c.toEntity.takeDamage damage).2)

/-- `Character::gainExperience(exp, logger)`. -/
def gainExperience (c : Character) (exp : Int) : Character :=
  let experience := wrapInt (c.experience + exp)
  if experience ≥ 100 then
    { name := c.name
      maxHealth := wrapInt (c.maxHealth + 10)
      health := wrapInt (c.maxHealth + 10)
      attack := wrapInt (c.attack + 2)
      defense := wrapInt (c.defense + 1)
      level := wrapInt (c.level + 1)
      experience := wrapInt (experience - 100) }
  else
    { c with experience := experience }

end Character

/-- The values the local `int` variables of `loadGame` hold before anything is
read into them. -/
structure Uninit where
  health : Int
  maxHealth : Int
  attack : Int
  defense : Int
  level : Int
  experience : Int
  deriving DecidableEq, Repr

/-- `std::getline(file, str)` for a string whose current value is `old`: on a
good stream the characters up to the next line feed, which is consumed and not
stored; at the end of the file nothing is read and the stream fails. -/
def getline (is : IStream) (old : Str) : IStream × Str :=
  if is.fail then (is, old)
  else
    match is.buf with
    | [] => (⟨[], true⟩, [])
    | c :: cs =>
      (⟨((c :: cs).dropWhile (fun x => x != Char.ofNat 10)).tail, false⟩,
        (c :: cs).takeWhile (fun x => x != Char.ofNat 10))

namespace Game

/-- `Game::saveGame(character, filename)`: `opened` tells whether the file
could be opened; the result is the text written, one value per line. -/
def saveGame (opened : Bool) (c : Character) : Except Exception Str :=
  if !opened then .error (.runtime_error "Failed to open save file")
  else
    .ok (c.name ++ "\n".toList ++ putInt c.health ++ "\n".toList ++
      putInt c.maxHealth ++ "\n".toList ++ putInt c.attack ++ "\n".toList ++
      putInt c.defense ++ "\n".toList ++ putInt c.level ++ "\n".toList ++
      putInt c.experience ++ "\n".toList)

/-- `Game::loadGame(filename)`: `file` is the content of the file, `none` when
it cannot be opened.  The character is built from the saved `maxHealth`,
`attack` and `defense`, healed by the difference to the saved health, given
`gainExperience(100)` once for every `i` with `1 ≤ i < level`, and then the
saved experience.  The closing `file.ignore()` reads one more character and
has no effect on the result. -/
def loadGame (u : Uninit) (file : Option Str) : Except Exception Character :=
  match file with
  | none => .error (.runtime_error "Failed to open save file")
  | some text =>
    let (is, name) := getline ⟨text, false⟩ []
    let (is, health) := is.getInt u.health
    let (is, maxHealth) := is.getInt u.maxHealth
    let (is, attack) := is.getInt u.attack
    let (is, defense) := is.getInt u.defense
    let (is, level) := is.getInt u.level
    let (_, experience) := is.getInt u.experience
    let character := Character.ctor name maxHealth attack defense
    let character := character.heal (wrapInt (health - character.health))
    let character := (fun c => Character.gainExperience c 100)^[(level - 1).toNat] character
    .ok (character.gainExperience experience)

end Game

/-- The hero at the moment `main` saves it.  `Character("Sir Lancelot", 120, 25,
15)` is not hurt by the skeletons (their attack is below its defense) and is
at full health when it drinks the potion; `gainExperience(75)` and
`gainExperience(50)` bring it to level 2 (attack 27, defense 16, health
130/130, experience 25); the dragon then hits it three times for
`40 - 16 = 24`. -/
def heroAtSave : Character :=
  { name := "Sir Lancelot".toList, maxHealth := 130, health := 58, attack := 27,
    defense := 16, level := 2, experience := 25 }

/-- The class `Skeleton`: a `Monster`, which adds nothing to `Entity`, with a
resistance flag. -/
structure Skeleton extends Entity where
  isResistant : Bool
  deriving DecidableEq, Repr

namespace Skeleton

/-- The constructor `Skeleton(name, health, attack, defense, isResistant)`; the
flag defaults to `true` in the source. -/
def ctor (name : Str) (health attack defense : Int) (isResistant : Bool) : Skeleton :=
  { toEntity := Entity.ctor name health attack defense, isResistant := isResistant }

/-- `Skeleton::takeDamage(damage)`: a resistant skeleton halves the damage
(`damage /= 2`, the quotient truncated towards zero, which stays in the range
of `int`), then `Monster::takeDamage`, which is `Entity::takeDamage`, runs. -/
def takeDamage (k : Skeleton) (damage : Int) : Skeleton × Option Exception :=
  let damage := if k.isResistant then Int.tdiv damage 2 else damage
  ({ k with toEntity := (k.toEntity.takeDamage damage).1 }, (k.toEntity.takeDamage damage).2)

end Skeleton

/-- The health bounds of an entity: `0 ≤ health ≤ maxHealth`. -/
def Entity.InBounds (e : Entity) : Prop := 0 ≤ e.health ∧ e.health ≤ e.maxHealth

instance (e : Entity) : Decidable e.InBounds := by
  unfold Entity.InBounds
  infer_instance

end Lb9

/-!
# Combat-stat toy (lb1.1/lb1/main.cpp)

The class `Character` of the first exercise: four data members, three mutating
member functions.  What the functions print is left out.  An `int` is an
`Int`, and the result of every addition and subtraction goes through `wrapInt`.
-/

namespace Lb1_1

open Lb10

/-- The data members of `Character`. -/
structure Character where
  name : Str
  health : Int
  attack : Int
  defense : Int
  deriving DecidableEq, Repr

namespace Character

/-- The constructor `Character(n, h, a, d)`. -/
def ctor (n : Str) (h a d : Int) : Character :=
  { name := n, health := h, attack := a, defense := d }

/-- `getHealth`. -/
def getHealth (c : Character) : Int := c.health

/-- `attackEnemy(enemy)`, called on `self`: the enemy left behind.  The damage
is `attack - enemy.defense`; a positive damage is subtracted from the enemy's
health directly.  `self` is not changed. -/
def attackEnemy (self enemy : Character) : Character :=
  let damage := wrapInt (self.attack - enemy.defense)
  if damage > 0 then { enemy with health := wrapInt (enemy.health - damage) } else enemy

/-- `heal(heal_value)`. -/
def heal (c : Character) (heal_value : Int) : Character :=
  if wrapInt (heal_value + c.health) > 100 then { c with health := 100 }
  else { c with health := wrapInt (c.health + heal_value) }

/-- `takeDamage(damage)`. -/
def takeDamage (c : Character) (damage : Int) : Character :=
  if wrapInt (c.health - damage) < 0 then { c with health := 0 }
  else { c with health := wrapInt (c.health - damage) }

end Character

/-- The health range of the exercise: `0 ≤ health ≤ 100`. -/
def Character.InRange (c : Character) : Prop := 0 ≤ c.health ∧ c.health ≤ 100

instance (c : Character) : Decidable c.InRange := by
  unfold Character.InRange
  infer_instance

/-- The hero of `main`: `Character("Hero", 100, 20, 10)`. -/
def hero : Character := Character.ctor "Hero".toList 100 20 10

/-- The monster of `main`: `Character("Goblin", 50, 15, 5)`. -/
def monster : Character := Character.ctor "Goblin".toList 50 15 5

end Lb1_1

namespace Lb10

/-! # Theorems -/

open AccessControlSystem

/-! ## Construction -/

/-- `User::validate` returns exactly on fields that satisfy the invariant. -/
theorem validate_ok_iff (n : Str) (i a : Int) :
    User.validate n i a = .ok () ↔ n ≠ [] ∧ 0 ≤ i ∧ 0 ≤ a := by
  cases n with
  | nil => simp [User.validate]
  | cons c cs =>
    by_cases hi : i < 0
    · simp [User.validate, hi]
    · by_cases ha : a < 0
      · simp [User.validate, hi, ha]
      · simp [User.validate, hi, ha]
        omega

/-- C4. Constructing a `User`, `Student`, `Teacher` or `Administrator` fails,
with an `InvalidInputException`, exactly when the name is empty or the id is
negative or the access level is negative; the checks run in that order and the
first violated one gives the message; otherwise the object is built and its
three getters return the arguments. -/
theorem record_construction_validates (name : Str) (id accessLevel group : Int)
    (department adminKey : Str) :
    ∀ made ∈ [User.ctor name id accessLevel, Student.ctor name id accessLevel group,
        Teacher.ctor name id accessLevel department,
        Administrator.ctor name id accessLevel adminKey],
      ((∃ e, made = .error e) ↔ (name = [] ∨ id < 0 ∨ accessLevel < 0)) ∧
      (∀ e, made = .error e → ∃ msg, e = .InvalidInputException msg) ∧
      (name = [] → made = .error (.InvalidInputException "User name cannot be empty")) ∧
      (name ≠ [] → id < 0 →
        made = .error (.InvalidInputException "User ID cannot be negative")) ∧
      (name ≠ [] → 0 ≤ id → accessLevel < 0 →
        made = .error (.InvalidInputException "Access level cannot be negative")) ∧
      (name ≠ [] → 0 ≤ id → 0 ≤ accessLevel →
        ∃ r, made = .ok r ∧ r.getName = name ∧ r.getId = id ∧
          r.getAccessLevel = accessLevel) := by
  intro made hmade
  simp only [List.mem_cons, List.mem_singleton, List.not_mem_nil, or_false] at hmade
  by_cases hn : name = []
  · subst hn
    rcases hmade with h | h | h | h <;> subst h <;>
      simp [User.ctor, Student.ctor, Teacher.ctor, Administrator.ctor, User.validate]
  · have hne : name.isEmpty = false := by
      cases name with
      | nil => exact absurd rfl hn
      | cons c cs => rfl
    by_cases hi : id < 0
    · rcases hmade with h | h | h | h <;> subst h <;>
        simp [User.ctor, Student.ctor, Teacher.ctor, Administrator.ctor, User.validate,
          hne, hi, hn]
    · by_cases ha : accessLevel < 0
      · rcases hmade with h | h | h | h <;> subst h <;>
          simp [User.ctor, Student.ctor, Teacher.ctor, Administrator.ctor, User.validate,
            hne, hi, ha, hn]
      · have hi' : 0 ≤ id := not_lt.mp hi
        have ha' : 0 ≤ accessLevel := not_lt.mp ha
        rcases hmade with h | h | h | h <;> subst h <;>
          simp [User.ctor, Student.ctor, Teacher.ctor, Administrator.ctor, User.validate,
            hne, hi, ha, hn, hi', ha', User.getName, User.getId, User.getAccessLevel]

/-- C4 at concrete arguments: a negative id is rejected by the `Student`
constructor with the id message, although the access level is negative too. -/
theorem record_construction_validates_witness :
    Student.ctor "Nick".toList (-1) (-5) 101 =
      .error (.InvalidInputException "User ID cannot be negative") :=
  (record_construction_validates "Nick".toList (-1) (-5) 101 [] []
    (Student.ctor "Nick".toList (-1) (-5) 101) (by simp)).2.2.2.1
    (by decide) (by decide)

/-! ## Lookups and access checks -/

/-- `find?` returns `x` exactly when `x` is the first element to satisfy the
predicate. -/
theorem find?_eq_some_iff_first {α : Type} (p : α → Bool) (l : List α) (x : α) :
    l.find? p = some x ↔
      ∃ pre post, l = pre ++ x :: post ∧ (∀ y ∈ pre, p y = false) ∧ p x = true := by
  induction l with
  | nil => simp
  | cons a t ih =>
    by_cases ha : p a = true
    · rw [List.find?_cons_of_pos _ ha]
      constructor
      · intro h
        cases h
        exact ⟨[], t, rfl, by simp, ha⟩
      · rintro ⟨pre, post, hl, hpre, hx⟩
        cases pre with
        | nil =>
          simp only [List.nil_append, List.cons.injEq] at hl
          rw [hl.1]
        | cons b pre' =>
          simp only [List.cons_append, List.cons.injEq] at hl
          have := hpre b (List.mem_cons_self _ _)
          rw [← hl.1, ha] at this
          exact absurd this (by decide)
    · have ha' : p a = false := by simpa using ha
      rw [List.find?_cons_of_neg _ ha, ih]
      constructor
      · rintro ⟨pre, post, hl, hpre, hx⟩
        refine ⟨a :: pre, post, by rw [hl]; rfl, ?_, hx⟩
        intro y hy
        rcases List.mem_cons.mp hy with h | h
        · rw [h]; exact ha'
        · exact hpre y h
      · rintro ⟨pre, post, hl, hpre, hx⟩
        cases pre with
        | nil =>
          simp only [List.nil_append, List.cons.injEq] at hl
          rw [← hl.1, ha'] at hx
          exact absurd hx (by decide)
        | cons b pre' =>
          simp only [List.cons_append, List.cons.injEq] at hl
          exact ⟨pre', post, hl.2, fun y hy => hpre y (List.mem_cons_of_mem _ hy), hx⟩

/-- With both scans successful `checkAccess` returns the comparison of the two
levels found. -/
theorem checkAccess_found (s : AccessControlSystem) (userId : Int) (resourceName : Str)
    (u : User) (r : Resource)
    (hfu : s.users.find? (fun user => decide (user.getId = userId)) = some u)
    (hfr : s.resources.find? (fun res => decide (res.getName = resourceName)) = some r) :
    s.checkAccess userId resourceName =
      .ok (decide (u.getAccessLevel ≥ r.getRequiredAccessLevel)) := by
  simp only [checkAccess, hfu, hfr, Resource.checkAccess, Resource.getRequiredAccessLevel]

/-- C2. When some user has the id and some resource has the name, `checkAccess`
returns a boolean: the comparison `accessLevel ≥ requiredAccessLevel` taken on
the first user with that id and the first resource with that name; equal levels
give `true`. -/
theorem checkAccess_result (s : AccessControlSystem) (userId : Int) (resourceName : Str)
    (huser : ∃ u ∈ s.users, u.getId = userId)
    (hres : ∃ r ∈ s.resources, r.getName = resourceName) :
    ∃ pre u post rpre r rpost,
      s.users = pre ++ u :: post ∧ (∀ x ∈ pre, x.getId ≠ userId) ∧ u.getId = userId ∧
      s.resources = rpre ++ r :: rpost ∧ (∀ x ∈ rpre, x.getName ≠ resourceName) ∧
      r.getName = resourceName ∧
      s.checkAccess userId resourceName =
        .ok (decide (u.getAccessLevel ≥ r.getRequiredAccessLevel)) ∧
      (s.checkAccess userId resourceName = .ok true ↔
        u.getAccessLevel ≥ r.getRequiredAccessLevel) ∧
      (u.getAccessLevel = r.getRequiredAccessLevel →
        s.checkAccess userId resourceName = .ok true) := by
  obtain ⟨u0, hu0, hid0⟩ := huser
  obtain ⟨r0, hr0, hname0⟩ := hres
  cases hfu : s.users.find? (fun user => decide (user.getId = userId)) with
  | none =>
    rw [List.find?_eq_none] at hfu
    exact absurd (by simpa using hid0) (hfu u0 hu0)
  | some u =>
    cases hfr : s.resources.find? (fun res => decide (res.getName = resourceName)) with
    | none =>
      rw [List.find?_eq_none] at hfr
      exact absurd (by simpa using hname0) (hfr r0 hr0)
    | some r =>
      obtain ⟨pre, post, hl, hpre, hx⟩ := (find?_eq_some_iff_first _ _ _).mp hfu
      obtain ⟨rpre, rpost, hrl, hrpre, hrx⟩ := (find?_eq_some_iff_first _ _ _).mp hfr
      have hval := checkAccess_found s userId resourceName u r hfu hfr
      refine ⟨pre, u, post, rpre, r, rpost, hl, ?_, by simpa using hx, hrl, ?_,
        by simpa using hrx, hval, ?_, ?_⟩
      · intro x hx'
        simpa using hpre x hx'
      · intro x hx'
        simpa using hrpre x hx'
      · rw [hval]
        simp
      · intro heq
        rw [hval, heq]
        simp

/-- C2 on the scenario store: user 1 (level 1) is denied the lab (level 3),
user 2 (level 3) is granted it. -/
theorem checkAccess_result_witness :
    labStore.checkAccess 1 "Lab".toList = .ok false ∧
    labStore.checkAccess 2 "Lab".toList = .ok true ∧
    ∃ pre u post rpre r rpost,
      labStore.users = pre ++ u :: post ∧ (∀ x ∈ pre, x.getId ≠ 2) ∧ u.getId = 2 ∧
      labStore.resources = rpre ++ r :: rpost ∧
      (∀ x ∈ rpre, x.getName ≠ "Lab".toList) ∧ r.getName = "Lab".toList ∧
      labStore.checkAccess 2 "Lab".toList =
        .ok (decide (u.getAccessLevel ≥ r.getRequiredAccessLevel)) ∧
      (labStore.checkAccess 2 "Lab".toList = .ok true ↔
        u.getAccessLevel ≥ r.getRequiredAccessLevel) ∧
      (u.getAccessLevel = r.getRequiredAccessLevel →
        labStore.checkAccess 2 "Lab".toList = .ok true) :=
  ⟨by decide, by decide,
    checkAccess_result labStore 2 "Lab".toList
      ⟨.teacher "Brown".toList 2 3 "CS".toList, by decide, by decide⟩
      ⟨⟨"Lab".toList, 3⟩, by decide, by decide⟩⟩

/-- C3. `checkAccess` throws exactly when no user has the id or no resource has
the name: "User not found" whenever the user is missing, "Resource not found"
when only the resource is; with the user missing no boolean is returned. -/
theorem checkAccess_throws_iff_miss (s : AccessControlSystem) (userId : Int)
    (resourceName : Str) :
    ((∃ e, s.checkAccess userId resourceName = .error e) ↔
      ((∀ u ∈ s.users, u.getId ≠ userId) ∨
        (∀ r ∈ s.resources, r.getName ≠ resourceName))) ∧
    ((∀ u ∈ s.users, u.getId ≠ userId) →
      s.checkAccess userId resourceName = .error (.runtime_error "User not found")) ∧
    ((∃ u ∈ s.users, u.getId = userId) → (∀ r ∈ s.resources, r.getName ≠ resourceName) →
      s.checkAccess userId resourceName = .error (.runtime_error "Resource not found")) ∧
    ((∀ u ∈ s.users, u.getId ≠ userId) →
      ∀ b, s.checkAccess userId resourceName ≠ .ok b) := by
  have hmissU : (∀ u ∈ s.users, u.getId ≠ userId) →
      s.checkAccess userId resourceName = .error (.runtime_error "User not found") := by
    intro h
    have : s.users.find? (fun user => decide (user.getId = userId)) = none := by
      rw [List.find?_eq_none]
      intro x hx
      simpa using h x hx
    simp only [checkAccess, this]
  have hmissR : (∃ u ∈ s.users, u.getId = userId) →
      (∀ r ∈ s.resources, r.getName ≠ resourceName) →
      s.checkAccess userId resourceName =
        .error (.runtime_error "Resource not found") := by
    rintro ⟨u0, hu0, hid0⟩ h
    have hr : s.resources.find? (fun res => decide (res.getName = resourceName)) = none := by
      rw [List.find?_eq_none]
      intro x hx
      simpa using h x hx
    cases hfu : s.users.find? (fun user => decide (user.getId = userId)) with
    | none =>
      rw [List.find?_eq_none] at hfu
      exact absurd (by simpa using hid0) (hfu u0 hu0)
    | some u => simp only [checkAccess, hfu, hr]
  refine ⟨⟨?_, ?_⟩, hmissU, hmissR, ?_⟩
  · rintro ⟨e, he⟩
    by_contra hcon
    push_neg at hcon
    obtain ⟨⟨u0, hu0, hid0⟩, ⟨r0, hr0, hname0⟩⟩ := hcon
    cases hfu : s.users.find? (fun user => decide (user.getId = userId)) with
    | none =>
      rw [List.find?_eq_none] at hfu
      exact absurd (by simpa using hid0) (hfu u0 hu0)
    | some u =>
      cases hfr : s.resources.find? (fun res => decide (res.getName = resourceName)) with
      | none =>
        rw [List.find?_eq_none] at hfr
        exact absurd (by simpa using hname0) (hfr r0 hr0)
      | some r =>
        rw [checkAccess_found s userId resourceName u r hfu hfr] at he
        cases he
  · rintro (h | h)
    · exact ⟨_, hmissU h⟩
    · by_cases hu : ∃ u ∈ s.users, u.getId = userId
      · exact ⟨_, hmissR hu h⟩
      · push_neg at hu
        exact ⟨_, hmissU hu⟩
  · intro h b hb
    rw [hmissU h] at hb
    cases hb

/-- C3 on the scenario store, whose users have ids 1 and 2: asking for user 99
throws "User not found". -/
theorem checkAccess_throws_iff_miss_witness :
    labStore.checkAccess 99 "Lab".toList = .error (.runtime_error "User not found") :=
  (checkAccess_throws_iff_miss labStore 99 "Lab".toList).2.1 (by decide)

/-- C9. `findUserById` returns `nullptr` exactly when no held user has the id,
and otherwise the first user of the current sequence with that id.  The member
function is `const`: it is a function of the store and has no other effect. -/
theorem findUserById_first_match (s : AccessControlSystem) (id : Int) :
    (s.findUserById id = none ↔ ∀ u ∈ s.users, u.getId ≠ id) ∧
    (∀ u, s.findUserById id = some u ↔
      ∃ pre post, s.users = pre ++ u :: post ∧ (∀ x ∈ pre, x.getId ≠ id) ∧
        u.getId = id) ∧
    ((∃ u ∈ s.users, u.getId = id) → ∃ u, s.findUserById id = some u) := by
  have hnone : s.findUserById id = none ↔ ∀ u ∈ s.users, u.getId ≠ id := by
    simp [findUserById, List.find?_eq_none]
  refine ⟨hnone, ?_, ?_⟩
  · intro u
    rw [findUserById, find?_eq_some_iff_first]
    simp
  · rintro ⟨u, hu, hid⟩
    cases h : s.findUserById id with
    | none => exact absurd hid (hnone.mp h u hu)
    | some v => exact ⟨v, rfl⟩

/-- The push-back loop of `findUsersByName`, started from any `result`, appends
the matching users in order. -/
theorem findUsersByName_loop (name : Str) (users result : List User) :
    users.foldl
        (fun result user => if user.getName = name then result ++ [user] else result)
        result =
      result ++ users.filter (fun u => decide (u.getName = name)) := by
  induction users generalizing result with
  | nil => simp
  | cons a t ih =>
    rw [List.foldl_cons, ih]
    by_cases h : a.getName = name
    · simp [h, List.filter_cons]
    · simp [h, List.filter_cons]

/-- C10. `findUsersByName` returns exactly the held users whose name equals the
argument: a sub-sequence of the store in store order, each match as often as
the store holds it; with no match it returns the empty vector (it cannot
throw: its result is a plain sequence). -/
theorem findUsersByName_all_matches_in_order (s : AccessControlSystem) (name : Str) :
    s.findUsersByName name = s.users.filter (fun u => decide (u.getName = name)) ∧
    (s.findUsersByName name).Sublist s.users ∧
    (∀ u, u ∈ s.findUsersByName name ↔ u ∈ s.users ∧ u.getName = name) ∧
    (∀ u, u.getName = name → (s.findUsersByName name).count u = s.users.count u) ∧
    ((∀ u ∈ s.users, u.getName ≠ name) → s.findUsersByName name = []) := by
  have heq : s.findUsersByName name =
      s.users.filter (fun u => decide (u.getName = name)) := by
    rw [findUsersByName, findUsersByName_loop]
    simp
  refine ⟨heq, ?_, ?_, ?_, ?_⟩
  · rw [heq]
    exact List.filter_sublist _
  · intro u
    rw [heq]
    simp [List.mem_filter]
  · intro u hu
    rw [heq, List.count_filter]
    simpa using hu
  · intro h
    rw [heq, List.filter_eq_nil_iff]
    intro u hu
    simpa using h u hu

/-! ## Sorting -/

/-- Comparing users by an integer key with `<` is a strict weak ordering, as
`std::sort` requires of its comparator. -/
theorem keyLess_strictWeakOrdering (key : User → Int) :
    StrictWeakOrdering (fun a b : User => decide (key a < key b)) where
  irrefl a := by simp
  trans a b c hab hbc := by
    simp only [decide_eq_true_eq] at hab hbc ⊢
    omega
  incomp_trans a b c h1 h2 h3 h4 := by
    simp only [decide_eq_false_iff_not, not_lt] at h1 h2 h3 h4 ⊢
    omega

/-- Sorting by an integer key with any `std::sort` meeting its contract gives a
permutation in non-decreasing order of the key. -/
theorem sort_by_key (sorter : StdSort) (key : User → Int) (xs : List User) :
    (sorter.sort (fun a b => decide (key a < key b)) xs).Perm xs ∧
    (sorter.sort (fun a b => decide (key a < key b)) xs).Pairwise
      (fun a b => key a ≤ key b) := by
  refine ⟨sorter.perm _ xs (keyLess_strictWeakOrdering key), ?_⟩
  refine (sorter.sorted _ xs (keyLess_strictWeakOrdering key)).imp ?_
  intro a b h
  simpa using h

/-- `sortUsersByAccessLevel` rearranges the users into non-decreasing order of
access level and leaves the resources alone. -/
theorem sortUsersByAccessLevel_spec (sorter : StdSort) (s : AccessControlSystem) :
    (s.sortUsersByAccessLevel sorter).users.Perm s.users ∧
    (s.sortUsersByAccessLevel sorter).users.Pairwise
      (fun a b => a.getAccessLevel ≤ b.getAccessLevel) ∧
    (s.sortUsersByAccessLevel sorter).resources = s.resources :=
  ⟨(sort_by_key sorter User.getAccessLevel s.users).1,
    (sort_by_key sorter User.getAccessLevel s.users).2, rfl⟩

/-- `sortUsersById` rearranges the users into non-decreasing order of id and
leaves the resources alone. -/
theorem sortUsersById_spec (sorter : StdSort) (s : AccessControlSystem) :
    (s.sortUsersById sorter).users.Perm s.users ∧
    (s.sortUsersById sorter).users.Pairwise (fun a b => a.getId ≤ b.getId) ∧
    (s.sortUsersById sorter).resources = s.resources :=
  ⟨(sort_by_key sorter User.getId s.users).1, (sort_by_key sorter User.getId s.users).2, rfl⟩

/-- C6. After `sortUsersByAccessLevel` the user sequence is a permutation of the
one before and is in non-decreasing order of `accessLevel`; after
`sortUsersById` it is a permutation of the one before and in non-decreasing
order of `id`.  This holds for every `std::sort` that meets the standard. -/
theorem sort_postcondition (sorter : StdSort) (s : AccessControlSystem) :
    ((s.sortUsersByAccessLevel sorter).users.Perm s.users ∧
      (s.sortUsersByAccessLevel sorter).users.Pairwise
        (fun a b => a.getAccessLevel ≤ b.getAccessLevel)) ∧
    ((s.sortUsersById sorter).users.Perm s.users ∧
      (s.sortUsersById sorter).users.Pairwise (fun a b => a.getId ≤ b.getId)) :=
  ⟨⟨(sortUsersByAccessLevel_spec sorter s).1, (sortUsersByAccessLevel_spec sorter s).2.1⟩,
    ⟨(sortUsersById_spec sorter s).1, (sortUsersById_spec sorter s).2.1⟩⟩

/-- In a sequence ordered by a key, of two members with different keys the one
with the smaller key comes first. -/
theorem sublist_pair_of_sorted (key : User → Int) (l : List User)
    (hs : l.Pairwise (fun a b => key a ≤ key b)) (a b : User) (ha : a ∈ l) (hb : b ∈ l)
    (hlt : key a < key b) : [a, b].Sublist l := by
  induction l with
  | nil => cases ha
  | cons x t ih =>
    rw [List.pairwise_cons] at hs
    rcases List.mem_cons.mp ha with hax | hat
    · rcases List.mem_cons.mp hb with hbx | hbt
      · rw [hax, hbx] at hlt
        exact absurd hlt (lt_irrefl _)
      · rw [hax]
        exact List.Sublist.cons₂ x (List.singleton_sublist.mpr hbt)
    · rcases List.mem_cons.mp hb with hbx | hbt
      · have := hs.1 a hat
        rw [hbx] at hlt
        omega
      · exact List.Sublist.cons x (ih hs.2 hat hbt)

set_option maxRecDepth 1000000 in
/-- C7, against the claim: `classStore` holds seventeen students of access
level 1 in the order `pupil 1, ..., pupil 17`.  The `std::sort` of libstdc++
partitions a range of 17: the middle element changes places with the first, the
partition exchanges the positions 1 and 16, 2 and 15, up to 8 and 9, and the
closing insertion sort moves nothing, all keys being equal.  After
`sortUsersByAccessLevel` `pupil 9` stands first and `pupil 1` tenth: `pupil 1`
stood before `pupil 9` and stands behind it.  Likewise for `sortUsersById` on
the seventeen users of `twinStore`, who share the id 7. -/
theorem sort_stability_counterexample :
    (classStore.sortUsersByAccessLevel gnuSorter).users =
      [pupil 9, pupil 17, pupil 16, pupil 15, pupil 14, pupil 13, pupil 12, pupil 11,
        pupil 10, pupil 1, pupil 8, pupil 7, pupil 6, pupil 5, pupil 4, pupil 3, pupil 2] ∧
    (classStore.sortUsersByAccessLevel gnuSorter).users =
      libstdcxx.sort (fun a b => decide (a.getAccessLevel < b.getAccessLevel))
        classStore.users ∧
    (pupil 1).getAccessLevel = (pupil 9).getAccessLevel ∧
    [pupil 1, pupil 9].Sublist classStore.users ∧
    ¬ [pupil 1, pupil 9].Sublist (classStore.sortUsersByAccessLevel gnuSorter).users ∧
    [pupil 9, pupil 1].Sublist (classStore.sortUsersByAccessLevel gnuSorter).users ∧
    (twin 1).getId = (twin 9).getId ∧
    [twin 1, twin 9].Sublist twinStore.users ∧
    ¬ [twin 1, twin 9].Sublist (twinStore.sortUsersById gnuSorter).users ∧
    (twinStore.sortUsersById gnuSorter).users =
      libstdcxx.sort (fun a b => decide (a.getId < b.getId)) twinStore.users := by
  decide

/-- C7, amended. The sorts order users by the key alone: of two held users the
one with the strictly smaller `accessLevel` (resp. `id`) stands before the
other after `sortUsersByAccessLevel` (resp. `sortUsersById`), wherever the two
stood before, and the other never stands before it. -/
theorem sort_orders_by_key_only (sorter : StdSort) (s : AccessControlSystem)
    (a b : User) (ha : a ∈ s.users) (hb : b ∈ s.users) :
    (a.getAccessLevel < b.getAccessLevel →
      [a, b].Sublist (s.sortUsersByAccessLevel sorter).users ∧
      ¬ [b, a].Sublist (s.sortUsersByAccessLevel sorter).users) ∧
    (a.getId < b.getId →
      [a, b].Sublist (s.sortUsersById sorter).users ∧
      ¬ [b, a].Sublist (s.sortUsersById sorter).users) := by
  have key : ∀ (key : User → Int), key a < key b →
      [a, b].Sublist (sorter.sort (fun a b => decide (key a < key b)) s.users) ∧
      ¬ [b, a].Sublist (sorter.sort (fun a b => decide (key a < key b)) s.users) := by
    intro key hlt
    obtain ⟨hp, hsorted⟩ := sort_by_key sorter key s.users
    refine ⟨sublist_pair_of_sorted key _ hsorted a b (hp.mem_iff.mpr ha)
      (hp.mem_iff.mpr hb) hlt, ?_⟩
    intro hsub
    have := hsorted.sublist hsub
    simp only [List.pairwise_cons, List.mem_singleton, forall_eq] at this
    omega
  exact ⟨key User.getAccessLevel, key User.getId⟩

/-- C7 amended, at `tieStore` extended by a level-0 user added last: sorted by
access level with the `std::sort` of libstdc++, that user stands before Ann. -/
theorem sort_orders_by_key_only_witness :
    [User.user "Zed".toList 7 0, User.user "Ann".toList 1 1].Sublist
        ((tieStore.addUser (.user "Zed".toList 7 0)).sortUsersByAccessLevel
          gnuSorter).users ∧
    ¬ [User.user "Ann".toList 1 1, User.user "Zed".toList 7 0].Sublist
        ((tieStore.addUser (.user "Zed".toList 7 0)).sortUsersByAccessLevel
          gnuSorter).users :=
  (sort_orders_by_key_only gnuSorter (tieStore.addUser (.user "Zed".toList 7 0))
    (.user "Zed".toList 7 0) (.user "Ann".toList 1 1) (by decide) (by decide)).1
    (by decide)

/-- A sequence ordered by a key whose values are pairwise distinct is the only
ordered rearrangement of itself. -/
theorem sorted_perm_unique (key : User → Int) (l₁ l₂ : List User) (hp : l₁.Perm l₂)
    (h₁ : l₁.Pairwise (fun a b => key a ≤ key b))
    (h₂ : l₂.Pairwise (fun a b => key a ≤ key b))
    (hnd : (l₂.map key).Nodup) : l₁ = l₂ := by
  have hkeys : l₁.map key = l₂.map key := by
    haveI : IsAntisymm Int (fun x y => x ≤ y) := ⟨fun _ _ h h' => le_antisymm h h'⟩
    exact List.eq_of_perm_of_sorted (r := fun x y : Int => x ≤ y) (hp.map key)
      (List.pairwise_map.mpr h₁) (List.pairwise_map.mpr h₂)
  have hinj : ∀ a ∈ l₁, ∀ b ∈ l₂, key a = key b → a = b := by
    intro a ha b hb hab
    exact List.inj_on_of_nodup_map hnd (hp.mem_iff.mp ha) hb hab
  clear hp h₁ h₂ hnd
  induction l₁ generalizing l₂ with
  | nil =>
    cases l₂ with
    | nil => rfl
    | cons b t => simp at hkeys
  | cons a t ih =>
    cases l₂ with
    | nil => simp at hkeys
    | cons b t₂ =>
      simp only [List.map_cons, List.cons.injEq] at hkeys
      have hab : a = b :=
        hinj a (List.mem_cons_self _ _) b (List.mem_cons_self _ _) hkeys.1
      rw [hab, ih t₂ hkeys.2 (fun x hx y hy =>
        hinj x (List.mem_cons_of_mem _ hx) y (List.mem_cons_of_mem _ hy))]

/-- Any number of `sortUsersByAccessLevel` calls rearranges the users and
leaves the resources alone. -/
theorem iterate_sortUsersByAccessLevel (sorter : StdSort) (s : AccessControlSystem)
    (k : Nat) :
    ((sortUsersByAccessLevel sorter)^[k] s).users.Perm s.users ∧
    ((sortUsersByAccessLevel sorter)^[k] s).resources = s.resources := by
  induction k with
  | zero => exact ⟨List.Perm.refl _, rfl⟩
  | succ k ih =>
    rw [Function.iterate_succ_apply']
    exact ⟨((sortUsersByAccessLevel_spec sorter _).1).trans ih.1, ih.2⟩

/-- Any number of `sortUsersById` calls rearranges the users and leaves the
resources alone; after at least one call the users are ordered by id. -/
theorem iterate_sortUsersById (sorter : StdSort) (s : AccessControlSystem) (k : Nat) :
    ((sortUsersById sorter)^[k] s).users.Perm s.users ∧
    ((sortUsersById sorter)^[k] s).resources = s.resources ∧
    (1 ≤ k → ((sortUsersById sorter)^[k] s).users.Pairwise
      (fun a b => a.getId ≤ b.getId)) := by
  induction k with
  | zero => exact ⟨List.Perm.refl _, rfl, fun h => absurd h (by decide)⟩
  | succ k ih =>
    rw [Function.iterate_succ_apply']
    exact ⟨((sortUsersById_spec sorter _).1).trans ih.1, ih.2.1,
      fun _ => (sortUsersById_spec sorter _).2.1⟩

set_option maxRecDepth 1000000 in
/-- C8, against the claim, with the `std::sort` of libstdc++.  On `classStore`
(seventeen students of access level 1) the first `sortUsersByAccessLevel`
leaves `pupil 9` first and `pupil 1` tenth, and the second one, run on that
sequence, leaves `pupil 10` first and `pupil 1` ninth: the sort is not
idempotent.  On `twinStore` (seventeen users sharing id and access level) a
sort by access level followed by a sort by id leaves the second of these
arrangements, and two sorts by access level followed by a sort by id leave a
third one. -/
theorem repeated_sort_counterexample :
    (sortUsersByAccessLevel gnuSorter classStore).users =
      [pupil 9, pupil 17, pupil 16, pupil 15, pupil 14, pupil 13, pupil 12, pupil 11, pupil 10,
        pupil 1, pupil 8, pupil 7, pupil 6, pupil 5, pupil 4, pupil 3, pupil 2] ∧
    (sortUsersByAccessLevel gnuSorter (sortUsersByAccessLevel gnuSorter classStore)).users =
      [pupil 10, pupil 2, pupil 3, pupil 4, pupil 5, pupil 6, pupil 7, pupil 8, pupil 1,
        pupil 9, pupil 11, pupil 12, pupil 13, pupil 14, pupil 15, pupil 16, pupil 17] ∧
    (sortUsersByAccessLevel gnuSorter (sortUsersByAccessLevel gnuSorter classStore)).users =
      libstdcxx.sort (fun a b => decide (a.getAccessLevel < b.getAccessLevel))
        (libstdcxx.sort (fun a b => decide (a.getAccessLevel < b.getAccessLevel))
          classStore.users) ∧
    (sortUsersByAccessLevel gnuSorter (sortUsersByAccessLevel gnuSorter classStore)).users ≠
      (sortUsersByAccessLevel gnuSorter classStore).users ∧
    (sortUsersById gnuSorter (sortUsersByAccessLevel gnuSorter twinStore)).users =
      [twin 10, twin 2, twin 3, twin 4, twin 5, twin 6, twin 7, twin 8, twin 1, twin 9,
        twin 11, twin 12, twin 13, twin 14, twin 15, twin 16, twin 17] ∧
    ((sortUsersById gnuSorter)^[1] ((sortUsersByAccessLevel gnuSorter)^[2] twinStore)).users =
      [twin 1, twin 17, twin 16, twin 15, twin 14, twin 13, twin 12, twin 11, twin 9, twin 10,
        twin 8, twin 7, twin 6, twin 5, twin 4, twin 3, twin 2] ∧
    ((sortUsersById gnuSorter)^[1] ((sortUsersByAccessLevel gnuSorter)^[2] twinStore)).users ≠
      (sortUsersById gnuSorter (sortUsersByAccessLevel gnuSorter twinStore)).users ∧
    (sortUsersById gnuSorter (sortUsersById gnuSorter twinStore)).users ≠
      (sortUsersById gnuSorter twinStore).users := by
  decide

/-- Two systems with the same resources whose users are rearrangements of the
same sequence, both ordered by a key that is pairwise distinct on it, are
equal. -/
theorem system_eq_of_sorted (key : User → Int) (s t₁ t₂ : AccessControlSystem)
    (hnd : (s.users.map key).Nodup) (h₁ : t₁.users.Perm s.users)
    (h₂ : t₂.users.Perm s.users) (hr : t₁.resources = t₂.resources)
    (hs₁ : t₁.users.Pairwise (fun a b => key a ≤ key b))
    (hs₂ : t₂.users.Pairwise (fun a b => key a ≤ key b)) : t₁ = t₂ := by
  have hnd₂ : (t₂.users.map key).Nodup := ((h₂.map key).nodup_iff).mpr hnd
  have := sorted_perm_unique key _ _ (h₁.trans h₂.symm) hs₁ hs₂ hnd₂
  cases t₁
  cases t₂
  simp only at this hr
  rw [this, hr]

/-- C8, amended. Whatever `std::sort` does with ties: in a store whose users
have pairwise distinct ids, sorting any number of times by access level and
then at least once by id leaves the same system as sorting once by each, and
`sortUsersById` is idempotent; in a store whose users have pairwise distinct
access levels, `sortUsersByAccessLevel` is idempotent. -/
theorem repeated_sort_distinct_keys (sorter : StdSort) (s : AccessControlSystem)
    (m n : Nat) :
    ((s.users.map User.getId).Nodup → 1 ≤ n →
      (sortUsersById sorter)^[n] ((sortUsersByAccessLevel sorter)^[m] s) =
        sortUsersById sorter (sortUsersByAccessLevel sorter s)) ∧
    ((s.users.map User.getId).Nodup →
      sortUsersById sorter (sortUsersById sorter s) = sortUsersById sorter s) ∧
    ((s.users.map User.getAccessLevel).Nodup →
      sortUsersByAccessLevel sorter (sortUsersByAccessLevel sorter s) =
        sortUsersByAccessLevel sorter s) := by
  have hA := iterate_sortUsersById sorter ((sortUsersByAccessLevel sorter)^[m] s) n
  have hB := iterate_sortUsersByAccessLevel sorter s m
  have hC := sortUsersById_spec sorter (sortUsersByAccessLevel sorter s)
  have hD := sortUsersByAccessLevel_spec sorter s
  have hD' := sortUsersById_spec sorter s
  have hE := sortUsersById_spec sorter (sortUsersById sorter s)
  have hF := sortUsersByAccessLevel_spec sorter (sortUsersByAccessLevel sorter s)
  refine ⟨?_, ?_, ?_⟩
  · intro hid hn
    exact system_eq_of_sorted User.getId s _ _ hid (hA.1.trans hB.1) (hC.1.trans hD.1)
      (by rw [hA.2.1, hB.2]; rfl) (hA.2.2 hn) hC.2.1
  · intro hid
    exact system_eq_of_sorted User.getId s _ _ hid (hE.1.trans hD'.1) hD'.1 rfl
      hE.2.1 hD'.2.1
  · intro hal
    exact system_eq_of_sorted User.getAccessLevel s _ _ hal (hF.1.trans hD.1) hD.1 rfl
      hF.2.1 hD.2.1

/-- C8 amended, with the `std::sort` of libstdc++.  On `classStore`, whose ids
are pairwise distinct, three sorts by access level followed by two sorts by id
leave what one sort by each leaves; on the scenario store, whose access levels
1 and 3 are distinct too, a second sort by access level changes nothing. -/
theorem repeated_sort_distinct_keys_witness :
    (sortUsersById gnuSorter)^[2] ((sortUsersByAccessLevel gnuSorter)^[3] classStore) =
      sortUsersById gnuSorter (sortUsersByAccessLevel gnuSorter classStore) ∧
    sortUsersByAccessLevel gnuSorter (sortUsersByAccessLevel gnuSorter labStore) =
      sortUsersByAccessLevel gnuSorter labStore :=
  ⟨(repeated_sort_distinct_keys gnuSorter classStore 3 2).1 (by decide) (by decide),
    (repeated_sort_distinct_keys gnuSorter labStore 0 0).2.2 (by decide)⟩

/-! ## Streams: what is written reads back -/

/-- A decimal digit character is a digit, is neither a sign nor whitespace, and
has the digit as its value. -/
theorem digitChar_facts (d : Nat) (h : d < 10) :
    isdigit (Nat.digitChar d) = true ∧ (Nat.digitChar d).toNat - 48 = d ∧
    isspace (Nat.digitChar d) = false ∧ ((Nat.digitChar d).toNat == 45) = false ∧
    ((Nat.digitChar d).toNat == 43) = false := by
  interval_cases d <;> decide

/-- The digits `Nat.toDigitsCore` puts in front of its accumulator: at least
one, all decimal digits, spelling `n`. -/
theorem toDigitsCore_spec (fuel : Nat) : ∀ (n : Nat) (acc : List Char), n < fuel →
    ∃ ds, Nat.toDigitsCore 10 fuel n acc = ds ++ acc ∧ ds ≠ [] ∧
      (∀ c ∈ ds, isdigit c = true) ∧
      ∀ v, ds.foldl (fun v c => 10 * v + (c.toNat - 48)) v = v * 10 ^ ds.length + n := by
  induction fuel with
  | zero => intro n acc h; omega
  | succ fuel ih =>
    intro n acc h
    obtain ⟨hd, hv, -, -, -⟩ := digitChar_facts (n % 10) (Nat.mod_lt _ (by decide))
    rw [Nat.toDigitsCore]
    by_cases h0 : n / 10 = 0
    · simp only [h0, if_true]
      refine ⟨[Nat.digitChar (n % 10)], rfl, by simp, ?_, ?_⟩
      · intro c hc
        rw [List.mem_singleton.mp hc]
        exact hd
      · intro v
        simp only [List.foldl_cons, List.foldl_nil, List.length_singleton, hv]
        omega
    · simp only [h0, if_false]
      obtain ⟨ds, hds, hne, hdig, hval⟩ :=
        ih (n / 10) (Nat.digitChar (n % 10) :: acc) (by omega)
      refine ⟨ds ++ [Nat.digitChar (n % 10)], by rw [hds]; simp, by simp, ?_, ?_⟩
      · intro c hc
        rcases List.mem_append.mp hc with h1 | h1
        · exact hdig c h1
        · rw [List.mem_singleton.mp h1]
          exact hd
      · intro v
        simp only [List.foldl_append, List.foldl_cons, List.foldl_nil, hval, hv,
          List.length_append, List.length_singleton, pow_succ]
        have := Nat.div_add_mod n 10
        nlinarith [Nat.div_add_mod n 10]

/-- What `out << n` writes: a non-empty run of decimal digits whose value is
`n`. -/
theorem putNat_spec (n : Nat) :
    putNat n ≠ [] ∧ (∀ c ∈ putNat n, isdigit c = true) ∧ digitsValue (putNat n) = n := by
  obtain ⟨ds, hds, hne, hdig, hval⟩ := toDigitsCore_spec (n + 1) n [] (Nat.lt_succ_self n)
  have heq : putNat n = ds := by
    rw [putNat, Nat.toDigits, hds, List.append_nil]
  rw [heq]
  refine ⟨hne, hdig, ?_⟩
  rw [digitsValue, hval 0]
  simp

/-- A digit is neither whitespace nor a sign. -/
theorem isdigit_not_space_or_sign (c : Char) (h : isdigit c = true) :
    isspace c = false ∧ (c.toNat == 45) = false ∧ (c.toNat == 43) = false := by
  simp only [isdigit, Bool.and_eq_true, decide_eq_true_eq] at h
  simp only [isspace, Bool.or_eq_false_iff, Bool.and_eq_false_iff, beq_eq_false_iff_ne,
    decide_eq_false_iff_not, ne_eq]
  omega

/-- Skipping or taking a run of characters that all satisfy `p` stops where the
run ends, when what follows is empty or starts with a character failing `p`. -/
theorem span_run (p : Char → Bool) (w rest : List Char) (hw : ∀ c ∈ w, p c = true)
    (hrest : ∀ c ∈ rest.head?, p c = false) :
    (w ++ rest).takeWhile p = w ∧ (w ++ rest).dropWhile p = rest := by
  induction w with
  | nil =>
    cases rest with
    | nil => simp
    | cons c t =>
      have hc : p c = false := hrest c (by simp)
      simp [List.takeWhile_cons, List.dropWhile_cons, hc]
  | cons a t ih =>
    have ha : p a = true := hw a (List.mem_cons_self _ _)
    have := ih (fun c hc => hw c (List.mem_cons_of_mem _ hc))
    simp [List.takeWhile_cons, List.dropWhile_cons, ha, this.1, this.2]

/-- `in >> str` on a good stream holding whitespace, then a whitespace-free
non-empty word, then nothing or whitespace: the word is read and the stream
stands right after it. -/
theorem getString_word (ws w rest old : Str) (hws : ∀ c ∈ ws, isspace c = true)
    (hne : w ≠ []) (hw : ∀ c ∈ w, isspace c = false)
    (hrest : ∀ c ∈ rest.head?, isspace c = true) :
    IStream.getString ⟨ws ++ (w ++ rest), false⟩ old = (⟨rest, false⟩, w) := by
  cases w with
  | nil => exact absurd rfl hne
  | cons a t =>
    have hdrop : (ws ++ (a :: t ++ rest)).dropWhile isspace = a :: (t ++ rest) := by
      refine (span_run isspace ws (a :: t ++ rest) hws ?_).2
      intro c hc
      simp only [List.cons_append, List.head?_cons, Option.mem_def, Option.some.injEq] at hc
      rw [← hc]
      exact hw a (List.mem_cons_self _ _)
    have hspan := span_run (fun x => !isspace x) (a :: t) rest
      (fun c hc => by simp [hw c hc]) (fun c hc => by simp [hrest c hc])
    simp only [IStream.getString, Bool.false_eq_true, if_false, hdrop]
    rw [← List.cons_append, hspan.1, hspan.2]

/-- `in >> n` on a good stream holding whitespace, then what `out << i` wrote
for an `i` in the range of `int`, then nothing or a non-digit: `i` is read and
the stream stands right after the number. -/
theorem getInt_putInt (ws rest : Str) (old i : Int) (hws : ∀ c ∈ ws, isspace c = true)
    (hlo : INT_MIN ≤ i) (hhi : i ≤ INT_MAX) (hrest : ∀ c ∈ rest.head?, isdigit c = false) :
    IStream.getInt ⟨ws ++ (putInt i ++ rest), false⟩ old = (⟨rest, false⟩, i) := by
  by_cases hneg : i < 0
  · obtain ⟨hne, hdig, hval⟩ := putNat_spec i.natAbs
    have hput : putInt i = Char.ofNat 45 :: putNat i.natAbs := by simp [putInt, hneg]
    have hdrop : (ws ++ (putInt i ++ rest)).dropWhile isspace =
        Char.ofNat 45 :: (putNat i.natAbs ++ rest) := by
      rw [hput]
      refine (span_run isspace ws _ hws ?_).2
      intro c hc
      simp only [List.cons_append, List.head?_cons, Option.mem_def, Option.some.injEq] at hc
      rw [← hc]
      decide
    have hspan := span_run isdigit (putNat i.natAbs) rest hdig hrest
    have hemp : (putNat i.natAbs).isEmpty = false := by
      cases h : putNat i.natAbs with
      | nil => exact absurd h hne
      | cons _ _ => rfl
    have h45 : ((Char.ofNat 45).toNat == 45) = true := by decide
    have hv : -((i.natAbs : Nat) : Int) = i := by omega
    simp only [IStream.getInt, Bool.false_eq_true, if_false, hdrop, h45, Bool.true_or,
      if_true, hspan.1, hspan.2, hemp, hval, hv]
    simp only [INT_MIN, INT_MAX] at hlo hhi ⊢
    rw [if_neg (by omega), if_neg (by omega)]
  · obtain ⟨hne, hdig, hval⟩ := putNat_spec i.toNat
    have hput : putInt i = putNat i.toNat := by simp [putInt, hneg]
    cases hds : putNat i.toNat with
    | nil => exact absurd hds hne
    | cons d ds =>
      rw [hds] at hdig hval
      obtain ⟨hsp, h45, h43⟩ := isdigit_not_space_or_sign d (hdig d (List.mem_cons_self _ _))
      have hdrop : (ws ++ (putInt i ++ rest)).dropWhile isspace = d :: (ds ++ rest) := by
        rw [hput, hds]
        refine (span_run isspace ws _ hws ?_).2
        intro c hc
        simp only [List.cons_append, List.head?_cons, Option.mem_def,
          Option.some.injEq] at hc
        rw [← hc]
        exact hsp
      have hspan := span_run isdigit (d :: ds) rest hdig hrest
      have hv : ((i.toNat : Nat) : Int) = i := by omega
      simp only [IStream.getInt, Bool.false_eq_true, if_false, hdrop, h45, h43,
        Bool.or_self]
      rw [← List.cons_append, hspan.1, hspan.2]
      simp only [List.isEmpty_cons, Bool.false_eq_true, if_false, hval, hv]
      simp only [INT_MIN, INT_MAX] at hlo hhi ⊢
      rw [if_neg (by omega), if_neg (by omega)]

/-! ## Loading keeps the invariant -/

/-- A record the constructor returned satisfies the invariant. -/
theorem valid_of_ctor (name : Str) (id accessLevel group : Int) (department adminKey : Str)
    (r : User)
    (h : User.ctor name id accessLevel = .ok r ∨
      Student.ctor name id accessLevel group = .ok r ∨
      Teacher.ctor name id accessLevel department = .ok r ∨
      Administrator.ctor name id accessLevel adminKey = .ok r) : r.Valid := by
  cases hv : User.validate name id accessLevel with
  | error e =>
    simp [User.ctor, Student.ctor, Teacher.ctor, Administrator.ctor, hv] at h
  | ok x =>
    have hok := (validate_ok_iff name id accessLevel).mp hv
    simp only [User.ctor, Student.ctor, Teacher.ctor, Administrator.ctor, hv,
      Except.ok.injEq] at h
    rcases h with h | h | h | h <;> (rw [← h]; exact hok)

/-- A resource the constructor returned satisfies the invariant. -/
theorem valid_of_resource_ctor (name : Str) (level : Int) (r : Resource)
    (h : Resource.ctor name level = .ok r) : r.Valid := by
  unfold Resource.ctor Resource.validate at h
  cases name with
  | nil => simp at h
  | cons c cs =>
    by_cases hl : level < 0
    · simp [hl] at h
    · simp [hl] at h
      rw [← h]
      exact ⟨by simp, by simpa using hl⟩

/-- Pushing a valid user keeps the system valid. -/
theorem valid_push_user (s : AccessControlSystem) (r : User) (hs : s.Valid) (hr : r.Valid) :
    AccessControlSystem.Valid { s with users := s.users ++ [r] } := by
  refine ⟨?_, hs.2⟩
  intro u hu
  rcases List.mem_append.mp hu with h | h
  · exact hs.1 u h
  · rw [List.mem_singleton.mp h]
    exact hr

/-- Pushing a valid resource keeps the system valid. -/
theorem valid_push_resource (s : AccessControlSystem) (r : Resource) (hs : s.Valid)
    (hr : r.Valid) : AccessControlSystem.Valid { s with resources := s.resources ++ [r] } := by
  refine ⟨hs.1, ?_⟩
  intro u hu
  rcases List.mem_append.mp hu with h | h
  · exact hs.2 u h
  · rw [List.mem_singleton.mp h]
    exact hr

/-- The loading loop keeps the system valid, whatever the text, the number of
iterations and the values of the uninitialised locals, and whether or not it
ends by an exception. -/
theorem loadLoop_valid (u : Uninit) (fuel : Nat) : ∀ (is : IStream) (s : AccessControlSystem),
    s.Valid → (loadLoop u fuel is s).1.Valid := by
  induction fuel with
  | zero => intro is s hs; exact hs
  | succ fuel ih =>
    intro is s hs
    rw [loadLoop]
    simp only
    split_ifs with h1 h2 h3 h4 h5 h6
    · exact hs
    · split
      · exact hs
      · next r hr =>
        exact ih _ _ (valid_push_user s r hs (valid_of_ctor _ _ _ 0 [] [] r (Or.inl hr)))
    · split
      · exact hs
      · next r hr =>
        exact ih _ _ (valid_push_user s r hs
          (valid_of_ctor _ _ _ _ [] [] r (Or.inr (Or.inl hr))))
    · split
      · exact hs
      · next r hr =>
        exact ih _ _ (valid_push_user s r hs
          (valid_of_ctor _ _ _ 0 _ [] r (Or.inr (Or.inr (Or.inl hr)))))
    · split
      · exact hs
      · next r hr =>
        exact ih _ _ (valid_push_user s r hs
          (valid_of_ctor _ _ _ 0 [] _ r (Or.inr (Or.inr (Or.inr hr)))))
    · split
      · exact hs
      · next r hr =>
        exact ih _ _ (valid_push_resource s r hs (valid_of_resource_ctor _ _ r hr))
    · exact ih _ _ hs

/-! ## One line written, one record read -/

/-- The constructor accepts exactly the fields that satisfy the invariant. -/
theorem constructed_iff_valid (r : User) : r.Constructed ↔ r.Valid := by
  cases r with
  | user n i a =>
    unfold User.Constructed User.ctorOf User.ctor User.Valid
    rw [← validate_ok_iff]
    cases h : User.validate n i a <;> simp [User.getName, User.getId, User.getAccessLevel, h]
  | student n i a g =>
    unfold User.Constructed User.ctorOf Student.ctor User.ctor User.Valid
    rw [← validate_ok_iff]
    cases h : User.validate n i a <;> simp [User.getName, User.getId, User.getAccessLevel, h]
  | teacher n i a d =>
    unfold User.Constructed User.ctorOf Teacher.ctor User.ctor User.Valid
    rw [← validate_ok_iff]
    cases h : User.validate n i a <;> simp [User.getName, User.getId, User.getAccessLevel, h]
  | administrator n i a k =>
    unfold User.Constructed User.ctorOf Administrator.ctor User.ctor User.Valid
    rw [← validate_ok_iff]
    cases h : User.validate n i a <;> simp [User.getName, User.getId, User.getAccessLevel, h]

/-- The space and the line feed are whitespace and are not digits. -/
theorem separators :
    isspace (Char.ofNat 32) = true ∧ isspace (Char.ofNat 10) = true ∧
    isdigit (Char.ofNat 32) = false ∧ isdigit (Char.ofNat 10) = false := by
  decide

/-- Reading the tag of a line: after any whitespace, up to the space that
follows the tag. -/
theorem getString_tag (ws tag R old : Str) (hws : ∀ c ∈ ws, isspace c = true)
    (hne : tag ≠ []) (htag : ∀ c ∈ tag, isspace c = false) :
    IStream.getString ⟨ws ++ (tag ++ Char.ofNat 32 :: R), false⟩ old =
      (⟨Char.ofNat 32 :: R, false⟩, tag) :=
  getString_word ws tag (Char.ofNat 32 :: R) old hws hne htag
    (by intro c hc; simp at hc; rw [← hc]; decide)

/-- Reading a string field: the space before it is skipped, the field is read
up to the whitespace `c` that follows it. -/
theorem getString_field (w R old : Str) (c : Char) (hc : isspace c = true) (hne : w ≠ [])
    (hw : NoSpace w) :
    IStream.getString ⟨Char.ofNat 32 :: (w ++ c :: R), false⟩ old = (⟨c :: R, false⟩, w) :=
  getString_word [Char.ofNat 32] w (c :: R) old (by simp; decide) hne hw
    (by intro x hx; simp at hx; rw [← hx]; exact hc)

/-- Reading an `int` field: the space before it is skipped, the number is read
up to the non-digit `c` that follows it. -/
theorem getInt_field (R : Str) (old i : Int) (c : Char) (hc : isdigit c = false)
    (hi : IsInt i) :
    IStream.getInt ⟨Char.ofNat 32 :: (putInt i ++ c :: R), false⟩ old = (⟨c :: R, false⟩, i) :=
  getInt_putInt [Char.ofNat 32] (c :: R) old i (by simp; decide) hi.1 hi.2
    (by intro x hx; simp at hx; rw [← hx]; exact hc)

/-- One iteration of the loop on a good stream that holds whitespace and then
the line `saveToFile` writes for the fields of `r` (name non-empty, strings
whitespace-free, numbers in range, last string present): the constructor of
the class named by the tag runs on exactly those fields; if it throws, the loop
ends with the system untouched, otherwise the record is pushed and the loop
goes on at the line feed. -/
theorem loadLoop_user_line (u : Uninit) (fuel : Nat) (ws rest : Str) (r : User)
    (s : AccessControlSystem) (hws : ∀ c ∈ ws, isspace c = true)
    (hname : r.getName ≠ []) (hi : r.IntFields) (hn : r.NoWhitespace)
    (hl : r.LastFieldPresent) :
    loadLoop u (fuel + 1) ⟨ws ++ (r.saveToFile ++ rest), false⟩ s =
      match r.ctorOf with
      | .error e => (s, some e)
      | .ok r' => loadLoop u fuel ⟨Char.ofNat 10 :: rest, false⟩ (s.addUser r') := by
  obtain ⟨hsp, hnl, hdsp, hdnl⟩ := separators
  cases r with
  | user n i a =>
    have htext : ws ++ ((User.user n i a).saveToFile ++ rest) =
        ws ++ ("User".toList ++ Char.ofNat 32 :: (n ++ Char.ofNat 32 :: (putInt i ++
          Char.ofNat 32 :: (putInt a ++ Char.ofNat 10 :: rest)))) := by
      simp only [User.saveToFile, List.append_assoc]
      rfl
    rw [htext, loadLoop]
    rw [getString_tag ws "User".toList _ [] hws (by decide) (by decide)]
    simp only [Bool.false_eq_true, if_false]
    rw [if_pos trivial]
    rw [getString_field n _ [] _ hsp hname hn]
    simp only
    rw [getInt_field _ u.id i _ hdsp hi.1]
    simp only
    rw [getInt_field _ u.accessLevel a _ hdnl hi.2]
    rfl
  | student n i a g =>
    have htext : ws ++ ((User.student n i a g).saveToFile ++ rest) =
        ws ++ ("Student".toList ++ Char.ofNat 32 :: (n ++ Char.ofNat 32 :: (putInt i ++
          Char.ofNat 32 :: (putInt a ++ Char.ofNat 32 :: (putInt g ++
            Char.ofNat 10 :: rest))))) := by
      simp only [User.saveToFile, List.append_assoc]
      rfl
    rw [htext, loadLoop]
    rw [getString_tag ws "Student".toList _ [] hws (by decide) (by decide)]
    simp only [Bool.false_eq_true, if_false]
    rw [if_neg (by decide), if_pos trivial]
    rw [getString_field n _ [] _ hsp hname hn]
    simp only
    rw [getInt_field _ u.id i _ hdsp hi.1]
    simp only
    rw [getInt_field _ u.accessLevel a _ hdsp hi.2.1]
    simp only
    rw [getInt_field _ u.group g _ hdnl hi.2.2]
    rfl
  | teacher n i a d =>
    have htext : ws ++ ((User.teacher n i a d).saveToFile ++ rest) =
        ws ++ ("Teacher".toList ++ Char.ofNat 32 :: (n ++ Char.ofNat 32 :: (putInt i ++
          Char.ofNat 32 :: (putInt a ++ Char.ofNat 32 :: (d ++
            Char.ofNat 10 :: rest))))) := by
      simp only [User.saveToFile, List.append_assoc]
      rfl
    rw [htext, loadLoop]
    rw [getString_tag ws "Teacher".toList _ [] hws (by decide) (by decide)]
    simp only [Bool.false_eq_true, if_false]
    rw [if_neg (by decide), if_neg (by decide), if_pos trivial]
    rw [getString_field n _ [] _ hsp hname hn.1]
    simp only
    rw [getInt_field _ u.id i _ hdsp hi.1]
    simp only
    rw [getInt_field _ u.accessLevel a _ hdsp hi.2]
    simp only
    rw [getString_field d _ [] _ hnl hl hn.2]
    rfl
  | administrator n i a k =>
    have htext : ws ++ ((User.administrator n i a k).saveToFile ++ rest) =
        ws ++ ("Administrator".toList ++ Char.ofNat 32 :: (n ++ Char.ofNat 32 ::
          (putInt i ++ Char.ofNat 32 :: (putInt a ++ Char.ofNat 32 :: (k ++
            Char.ofNat 10 :: rest))))) := by
      simp only [User.saveToFile, List.append_assoc]
      rfl
    rw [htext, loadLoop]
    rw [getString_tag ws "Administrator".toList _ [] hws (by decide) (by decide)]
    simp only [Bool.false_eq_true, if_false]
    rw [if_neg (by decide), if_neg (by decide), if_neg (by decide), if_pos trivial]
    rw [getString_field n _ [] _ hsp hname hn.1]
    simp only
    rw [getInt_field _ u.id i _ hdsp hi.1]
    simp only
    rw [getInt_field _ u.accessLevel a _ hdsp hi.2]
    simp only
    rw [getString_field k _ [] _ hnl hl hn.2]
    rfl

/-- One iteration of the loop on a good stream that holds whitespace and then
the line `Resource::saveToFile` writes for a whitespace-free non-empty name and
a level in range: the `Resource` constructor runs on those fields; if it throws
the loop ends with the system untouched, otherwise the resource is pushed. -/
theorem loadLoop_resource_line (u : Uninit) (fuel : Nat) (ws rest : Str) (r : Resource)
    (s : AccessControlSystem) (hws : ∀ c ∈ ws, isspace c = true)
    (hname : r.name ≠ []) (hi : IsInt r.requiredAccessLevel) (hn : NoSpace r.name) :
    loadLoop u (fuel + 1) ⟨ws ++ (r.saveToFile ++ rest), false⟩ s =
      match Resource.ctor r.name r.requiredAccessLevel with
      | .error e => (s, some e)
      | .ok r' => loadLoop u fuel ⟨Char.ofNat 10 :: rest, false⟩ (s.addResource r') := by
  obtain ⟨hsp, hnl, hdsp, hdnl⟩ := separators
  have htext : ws ++ (r.saveToFile ++ rest) =
      ws ++ ("Resource".toList ++ Char.ofNat 32 :: (r.name ++ Char.ofNat 32 ::
        (putInt r.requiredAccessLevel ++ Char.ofNat 10 :: rest))) := by
    simp only [Resource.saveToFile, List.append_assoc]
    rfl
  rw [htext, loadLoop]
  rw [getString_tag ws "Resource".toList _ [] hws (by decide) (by decide)]
  simp only [Bool.false_eq_true, if_false]
  rw [if_neg (by decide), if_neg (by decide), if_neg (by decide), if_neg (by decide),
    if_pos trivial]
  rw [getString_field r.name _ [] _ hsp hname hn]
  simp only
  rw [getInt_field _ u.requiredAccessLevel r.requiredAccessLevel _ hdnl hi]
  rfl

/-- On a stream that has failed the loop ends at once. -/
theorem loadLoop_failed (u : Uninit) (fuel : Nat) (buf : Str) (s : AccessControlSystem) :
    loadLoop u fuel ⟨buf, true⟩ s = (s, none) := by
  cases fuel with
  | zero => rfl
  | succ fuel =>
    rw [loadLoop]
    simp [IStream.getString]

/-- With only whitespace left the loop ends, no exception raised. -/
theorem loadLoop_trailing_space (u : Uninit) (fuel : Nat) (ws : Str)
    (s : AccessControlSystem) (hws : ∀ c ∈ ws, isspace c = true) :
    loadLoop u fuel ⟨ws, false⟩ s = (s, none) := by
  cases fuel with
  | zero => rfl
  | succ fuel =>
    have hdrop : ws.dropWhile isspace = [] := by
      have := (span_run isspace ws [] hws (by simp)).2
      simpa using this
    rw [loadLoop]
    simp [IStream.getString, hdrop]

/-- One iteration of the loop on the line of a `Teacher` or `Administrator`
whose last string is empty, at the end of the file: the extraction of the last
string finds nothing, the variable stays empty, and the constructor runs on the
fields as written; the stream has failed, so nothing more is read. -/
theorem loadLoop_last_empty (u : Uninit) (fuel : Nat) (ws n : Str) (i a : Int)
    (s : AccessControlSystem) (hws : ∀ c ∈ ws, isspace c = true)
    (hname : n ≠ []) (hi : IsInt i) (ha : IsInt a) (hn : NoSpace n) :
    (loadLoop u (fuel + 1) ⟨ws ++ (User.teacher n i a []).saveToFile, false⟩ s =
      match Teacher.ctor n i a [] with
      | .error e => (s, some e)
      | .ok r' => (s.addUser r', none)) ∧
    (loadLoop u (fuel + 1) ⟨ws ++ (User.administrator n i a []).saveToFile, false⟩ s =
      match Administrator.ctor n i a [] with
      | .error e => (s, some e)
      | .ok r' => (s.addUser r', none)) := by
  obtain ⟨hsp, hnl, hdsp, hdnl⟩ := separators
  have hlast : ∀ old : Str,
      IStream.getString ⟨[Char.ofNat 32, Char.ofNat 10], false⟩ old = (⟨[], true⟩, old) := by
    intro old
    have hdrop : [Char.ofNat 32, Char.ofNat 10].dropWhile isspace = [] := by decide
    simp only [IStream.getString, Bool.false_eq_true, if_false, hdrop]
  constructor
  · have htext : ws ++ (User.teacher n i a []).saveToFile =
        ws ++ ("Teacher".toList ++ Char.ofNat 32 :: (n ++ Char.ofNat 32 :: (putInt i ++
          Char.ofNat 32 :: (putInt a ++ Char.ofNat 32 :: [Char.ofNat 10])))) := by
      simp only [User.saveToFile, List.append_assoc]
      rfl
    rw [htext, loadLoop]
    rw [getString_tag ws "Teacher".toList _ [] hws (by decide) (by decide)]
    simp only [Bool.false_eq_true, if_false]
    rw [if_neg (by decide), if_neg (by decide), if_pos trivial]
    rw [getString_field n _ [] _ hsp hname hn]
    simp only
    rw [getInt_field _ u.id i _ hdsp hi]
    simp only
    rw [getInt_field _ u.accessLevel a _ hdsp ha]
    simp only
    rw [hlast]
    simp only
    cases Teacher.ctor n i a [] with
    | error e => rfl
    | ok r' => exact loadLoop_failed u fuel [] _
  · have htext : ws ++ (User.administrator n i a []).saveToFile =
        ws ++ ("Administrator".toList ++ Char.ofNat 32 :: (n ++ Char.ofNat 32 ::
          (putInt i ++ Char.ofNat 32 :: (putInt a ++ Char.ofNat 32 ::
            [Char.ofNat 10])))) := by
      simp only [User.saveToFile, List.append_assoc]
      rfl
    rw [htext, loadLoop]
    rw [getString_tag ws "Administrator".toList _ [] hws (by decide) (by decide)]
    simp only [Bool.false_eq_true, if_false]
    rw [if_neg (by decide), if_neg (by decide), if_neg (by decide), if_pos trivial]
    rw [getString_field n _ [] _ hsp hname hn]
    simp only
    rw [getInt_field _ u.id i _ hdsp hi]
    simp only
    rw [getInt_field _ u.accessLevel a _ hdsp ha]
    simp only
    rw [hlast]
    simp only
    cases Administrator.ctor n i a [] with
    | error e => rfl
    | ok r' => exact loadLoop_failed u fuel [] _

/-- The loop on the one line of a record its constructor accepts, with numbers
in range and strings free of whitespace: the record is read back and the loop
ends without an exception, for any number of iterations allowed. -/
theorem loadLoop_one_record (u : Uninit) (fuel : Nat) (r : User) (s : AccessControlSystem)
    (hc : r.Constructed) (hi : r.IntFields) (hn : r.NoWhitespace) :
    loadLoop u (fuel + 1) ⟨r.saveToFile, false⟩ s = (s.addUser r, none) := by
  have hname : r.getName ≠ [] := ((constructed_iff_valid r).mp hc).1
  have hnl : ∀ c ∈ [Char.ofNat 10], isspace c = true := by decide
  by_cases hl : r.LastFieldPresent
  · have h := loadLoop_user_line u fuel [] [] r s (by simp) hname hi hn hl
    simp only [List.nil_append, List.append_nil] at h
    rw [h]
    have hc' : r.ctorOf = .ok r := hc
    rw [hc']
    exact loadLoop_trailing_space u fuel [Char.ofNat 10] _ hnl
  · cases r with
    | user n i a => exact absurd trivial hl
    | student n i a g => exact absurd trivial hl
    | teacher n i a d =>
      have hd : d = [] := by
        by_contra hne
        exact hl hne
      subst hd
      have h := (loadLoop_last_empty u fuel [] n i a s (by simp) hname hi.1 hi.2 hn.1).1
      simp only [List.nil_append] at h
      rw [h]
      have hc' : Teacher.ctor n i a [] = .ok (.teacher n i a []) := hc
      rw [hc']
    | administrator n i a k =>
      have hk : k = [] := by
        by_contra hne
        exact hl hne
      subst hk
      have h := (loadLoop_last_empty u fuel [] n i a s (by simp) hname hi.1 hi.2 hn.1).2
      simp only [List.nil_append] at h
      rw [h]
      have hc' : Administrator.ctor n i a [] = .ok (.administrator n i a []) := hc
      rw [hc']

/-- C1. Round trip of one record: for every `User`, `Student`, `Teacher` or
`Administrator` that its constructor accepts, with `int` fields in the range of
`int` and no whitespace in name, department or adminKey, `saveToFile` on the
system holding just that record writes a text from which `loadFromFile`, on any
system, rebuilds exactly that one record (same class, same fields) and no
resource, without an exception. -/
theorem roundtrip_one_record (u : Uninit) (s0 : AccessControlSystem) (r : User)
    (hc : r.Constructed) (hi : r.IntFields) (hn : r.NoWhitespace) :
    ∃ text, saveToFile true ⟨[r], []⟩ = .ok text ∧
      loadFromFile u (some text) s0 = (⟨[r], []⟩, none) := by
  refine ⟨r.saveToFile, ?_, ?_⟩
  · simp [saveToFile]
  · exact loadLoop_one_record u _ r ⟨[], []⟩ hc hi hn

/-- C1 at the teacher of the scenario, read into a system that held other data
and with arbitrary values in the uninitialised locals. -/
theorem roundtrip_one_record_witness :
    ∃ text, saveToFile true ⟨[.teacher "Brown".toList 2 3 "CS".toList], []⟩ = .ok text ∧
      loadFromFile ⟨-7, -7, -7, -7⟩ (some text) tieStore =
        (⟨[.teacher "Brown".toList 2 3 "CS".toList], []⟩, none) :=
  roundtrip_one_record ⟨-7, -7, -7, -7⟩ tieStore (.teacher "Brown".toList 2 3 "CS".toList)
    (by decide) (by decide) (by decide)

/-! ## A whole file written, a whole system read -/

/-- The text the user loop of `saveToFile` has written is the text written
before it followed by the users' lines. -/
theorem save_users_from (users : List User) (init : Str) :
    users.foldl (fun out user => out ++ user.saveToFile) init = init ++ usersText users := by
  unfold usersText
  induction users generalizing init with
  | nil => simp
  | cons r t ih =>
    rw [List.foldl_cons, ih, List.foldl_cons, ih ([] ++ r.saveToFile)]
    simp

/-- The text the resource loop of `saveToFile` has written is the text written
before it followed by the resources' lines. -/
theorem save_resources_from (resources : List Resource) (init : Str) :
    resources.foldl (fun out res => out ++ res.saveToFile) init =
      init ++ resourcesText resources := by
  unfold resourcesText
  induction resources generalizing init with
  | nil => simp
  | cons r t ih =>
    rw [List.foldl_cons, ih, List.foldl_cons, ih ([] ++ r.saveToFile)]
    simp

/-- `saveToFile` on an opened file writes the users' lines, then the
resources' lines. -/
theorem saveToFile_text (s : AccessControlSystem) :
    saveToFile true s = .ok (usersText s.users ++ resourcesText s.resources) := by
  simp only [saveToFile, Bool.not_true, Bool.false_eq_true, if_false]
  rw [save_resources_from, save_users_from]
  simp

/-- The lines of a non-empty sequence: the first line, then the others. -/
theorem text_cons (r : User) (t : List User) (x : Resource) (xs : List Resource) :
    usersText (r :: t) = r.saveToFile ++ usersText t ∧
    resourcesText (x :: xs) = x.saveToFile ++ resourcesText xs := by
  constructor
  · rw [usersText, List.foldl_cons, save_users_from]
    simp
  · rw [resourcesText, List.foldl_cons, save_resources_from]
    simp

/-- A line is at least two characters long. -/
theorem saveToFile_length (r : User) (x : Resource) :
    2 ≤ r.saveToFile.length ∧ 2 ≤ x.saveToFile.length := by
  constructor
  · cases r <;> (simp [User.saveToFile]; try omega)
  · simp [Resource.saveToFile]
    try omega

/-- The loop on the lines of users that read back as written: all of them are
pushed, in order, and the loop goes on, with iterations to spare, at whitespace
followed by the rest of the text. -/
theorem loadLoop_users (u : Uninit) (rest : Str) : ∀ (users : List User) (ws : Str)
    (s : AccessControlSystem) (fuel : Nat),
    (∀ r ∈ users, r.Storable) → (∀ c ∈ ws, isspace c = true) →
    (ws ++ (usersText users ++ rest)).length < fuel →
    ∃ ws' fuel', (∀ c ∈ ws', isspace c = true) ∧ (ws' ++ rest).length < fuel' ∧
      loadLoop u fuel ⟨ws ++ (usersText users ++ rest), false⟩ s =
        loadLoop u fuel' ⟨ws' ++ rest, false⟩ ⟨s.users ++ users, s.resources⟩ := by
  intro users
  induction users with
  | nil =>
    intro ws s fuel _ hws hlen
    exact ⟨ws, fuel, hws, by simpa [usersText] using hlen, by simp [usersText]⟩
  | cons r t ih =>
    intro ws s fuel hgood hws hlen
    have hr : r.Storable := hgood r (List.mem_cons_self _ _)
    rw [(text_cons r t ⟨[], 0⟩ []).1, List.append_assoc] at hlen ⊢
    have h2 := (saveToFile_length r ⟨[], 0⟩).1
    cases fuel with
    | zero => omega
    | succ fuel =>
      have hname : r.getName ≠ [] := ((constructed_iff_valid r).mp hr.1).1
      rw [loadLoop_user_line u fuel ws _ r s hws hname hr.2.1 hr.2.2.1 hr.2.2.2]
      have hc : r.ctorOf = .ok r := hr.1
      rw [hc]
      obtain ⟨ws', fuel', hws', hlen', heq⟩ := ih [Char.ofNat 10] (s.addUser r) fuel
        (fun x hx => hgood x (List.mem_cons_of_mem _ hx)) (by decide)
        (by simp only [List.length_append, List.length_cons, List.length_nil] at hlen ⊢
            omega)
      refine ⟨ws', fuel', hws', hlen', ?_⟩
      simp only [List.singleton_append] at heq
      show loadLoop u fuel ⟨Char.ofNat 10 :: (usersText t ++ rest), false⟩ (s.addUser r) = _
      rw [heq]
      simp [addUser]

/-- The loop on the lines of resources that read back as written: all of them
are pushed, in order, and the loop goes on, with iterations to spare, at
whitespace followed by the rest of the text. -/
theorem loadLoop_resources (u : Uninit) (rest : Str) : ∀ (resources : List Resource)
    (ws : Str) (s : AccessControlSystem) (fuel : Nat),
    (∀ r ∈ resources, r.Storable) → (∀ c ∈ ws, isspace c = true) →
    (ws ++ (resourcesText resources ++ rest)).length < fuel →
    ∃ ws' fuel', (∀ c ∈ ws', isspace c = true) ∧ (ws' ++ rest).length < fuel' ∧
      loadLoop u fuel ⟨ws ++ (resourcesText resources ++ rest), false⟩ s =
        loadLoop u fuel' ⟨ws' ++ rest, false⟩ ⟨s.users, s.resources ++ resources⟩ := by
  intro resources
  induction resources with
  | nil =>
    intro ws s fuel _ hws hlen
    exact ⟨ws, fuel, hws, by simpa [resourcesText] using hlen, by simp [resourcesText]⟩
  | cons r t ih =>
    intro ws s fuel hgood hws hlen
    have hr : r.Storable := hgood r (List.mem_cons_self _ _)
    rw [(text_cons (.user [] 0 0) [] r t).2, List.append_assoc] at hlen ⊢
    have h2 := (saveToFile_length (.user [] 0 0) r).2
    cases fuel with
    | zero => omega
    | succ fuel =>
      rw [loadLoop_resource_line u fuel ws _ r s hws hr.1.1 hr.2.1 hr.2.2]
      have hc : Resource.ctor r.name r.requiredAccessLevel = .ok r := by
        have hn : r.name.isEmpty = false := by
          cases hname : r.name with
          | nil => exact absurd hname hr.1.1
          | cons _ _ => rfl
        have hl : ¬ r.requiredAccessLevel < 0 := not_lt.mpr hr.1.2
        simp [Resource.ctor, Resource.validate, hn, hl]
      rw [hc]
      obtain ⟨ws', fuel', hws', hlen', heq⟩ := ih [Char.ofNat 10] (s.addResource r) fuel
        (fun x hx => hgood x (List.mem_cons_of_mem _ hx)) (by decide)
        (by simp only [List.length_append, List.length_cons, List.length_nil] at hlen ⊢
            omega)
      refine ⟨ws', fuel', hws', hlen', ?_⟩
      simp only [List.singleton_append] at heq
      show loadLoop u fuel ⟨Char.ofNat 10 :: (resourcesText t ++ rest), false⟩
        (s.addResource r) = _
      rw [heq]
      simp [addResource]

/-- The loop on the text `saveToFile` wrote for a system whose records read
back as written, followed by any text: the system is rebuilt and the loop goes
on, with iterations to spare, at whitespace followed by that text. -/
theorem loadLoop_saved (u : Uninit) (s : AccessControlSystem) (text rest : Str)
    (hs : s.Storable) (htext : saveToFile true s = .ok text) :
    ∃ ws' fuel', (∀ c ∈ ws', isspace c = true) ∧ (ws' ++ rest).length < fuel' ∧
      loadLoop u ((text ++ rest).length + 1) ⟨text ++ rest, false⟩ ⟨[], []⟩ =
        loadLoop u fuel' ⟨ws' ++ rest, false⟩ s := by
  have ht : text = usersText s.users ++ resourcesText s.resources := by
    rw [saveToFile_text] at htext
    cases htext
    rfl
  have hshape : text ++ rest =
      [] ++ (usersText s.users ++ (resourcesText s.resources ++ rest)) := by
    rw [ht]
    simp
  rw [hshape]
  obtain ⟨ws₁, fuel₁, hws₁, hlen₁, heq₁⟩ := loadLoop_users u
    (resourcesText s.resources ++ rest) s.users [] ⟨[], []⟩ _ hs.1 (by simp)
    (Nat.lt_succ_self _)
  obtain ⟨ws₂, fuel₂, hws₂, hlen₂, heq₂⟩ := loadLoop_resources u rest s.resources ws₁
    ⟨[] ++ s.users, []⟩ fuel₁ hs.2 hws₁ hlen₁
  refine ⟨ws₂, fuel₂, hws₂, hlen₂, ?_⟩
  rw [heq₁, heq₂]
  simp

/-! ## The validity invariant -/

/-- On fields that violate the invariant the constructor of the record's class
throws an `InvalidInputException`. -/
theorem ctorOf_invalid (r : User) (h : ¬ r.Valid) :
    ∃ msg, r.ctorOf = .error (.InvalidInputException msg) := by
  have key : ∀ (n : Str) (i a : Int), ¬ (n ≠ [] ∧ 0 ≤ i ∧ 0 ≤ a) →
      ∃ msg, User.validate n i a = .error (.InvalidInputException msg) := by
    intro n i a hbad
    cases n with
    | nil => exact ⟨"User name cannot be empty", by simp [User.validate]⟩
    | cons c cs =>
      by_cases hi : i < 0
      · exact ⟨"User ID cannot be negative", by simp [User.validate, hi]⟩
      · by_cases ha : a < 0
        · exact ⟨"Access level cannot be negative", by simp [User.validate, hi, ha]⟩
        · exact absurd ⟨by simp, not_lt.mp hi, not_lt.mp ha⟩ hbad
  cases r with
  | user n i a =>
    obtain ⟨msg, hm⟩ := key n i a h
    exact ⟨msg, by simp [User.ctorOf, User.ctor, hm]⟩
  | student n i a g =>
    obtain ⟨msg, hm⟩ := key n i a h
    exact ⟨msg, by simp [User.ctorOf, Student.ctor, User.ctor, hm]⟩
  | teacher n i a d =>
    obtain ⟨msg, hm⟩ := key n i a h
    exact ⟨msg, by simp [User.ctorOf, Teacher.ctor, User.ctor, hm]⟩
  | administrator n i a k =>
    obtain ⟨msg, hm⟩ := key n i a h
    exact ⟨msg, by simp [User.ctorOf, Administrator.ctor, User.ctor, hm]⟩

/-- Every call leaves a valid system valid, whether it returns or throws. -/
theorem run_valid (sorter : StdSort) (c : Call) (s : AccessControlSystem) (hs : s.Valid) :
    (c.run sorter s).1.Valid := by
  cases c with
  | addUser n i a =>
    simp only [Call.run]
    cases h : User.ctor n i a with
    | error e => exact hs
    | ok r => exact valid_push_user s r hs (valid_of_ctor n i a 0 [] [] r (Or.inl h))
  | addStudent n i a g =>
    simp only [Call.run]
    cases h : Student.ctor n i a g with
    | error e => exact hs
    | ok r => exact valid_push_user s r hs (valid_of_ctor n i a g [] [] r (Or.inr (Or.inl h)))
  | addTeacher n i a d =>
    simp only [Call.run]
    cases h : Teacher.ctor n i a d with
    | error e => exact hs
    | ok r =>
      exact valid_push_user s r hs (valid_of_ctor n i a 0 d [] r (Or.inr (Or.inr (Or.inl h))))
  | addAdministrator n i a k =>
    simp only [Call.run]
    cases h : Administrator.ctor n i a k with
    | error e => exact hs
    | ok r =>
      exact valid_push_user s r hs (valid_of_ctor n i a 0 [] k r (Or.inr (Or.inr (Or.inr h))))
  | addResource n l =>
    simp only [Call.run]
    cases h : Resource.ctor n l with
    | error e => exact hs
    | ok r => exact valid_push_resource s r hs (valid_of_resource_ctor n l r h)
  | sortUsersByAccessLevel =>
    refine ⟨?_, hs.2⟩
    intro x hx
    exact hs.1 x ((sortUsersByAccessLevel_spec sorter s).1.mem_iff.mp hx)
  | sortUsersById =>
    refine ⟨?_, hs.2⟩
    intro x hx
    exact hs.1 x ((sortUsersById_spec sorter s).1.mem_iff.mp hx)
  | loadFromFile u file =>
    cases file with
    | none => exact hs
    | some text =>
      exact loadLoop_valid u _ _ _ ⟨by simp, by simp⟩

/-- Any sequence of calls leaves a valid system valid. -/
theorem runCalls_valid (sorter : StdSort) (calls : List Call) :
    ∀ s : AccessControlSystem, s.Valid → (runCalls sorter calls s).Valid := by
  induction calls with
  | nil => intro s hs; exact hs
  | cons c t ih =>
    intro s hs
    exact ih _ (run_valid sorter c s hs)

/-- C5. Every system reached from the empty one by any sequence of `addUser`
(of a record the constructor returned), `addResource`, `sortUsersByAccessLevel`,
`sortUsersById` and `loadFromFile` calls, including calls that throw, holds
only users with a non-empty name and non-negative id and access level and only
resources with a non-empty name and non-negative required level.  And a line
whose fields violate the invariant inserts nothing: loading the saved text of a
system `s` followed by such a user line, or such a resource line, and anything
after it, throws `InvalidInputException` and leaves exactly `s`. -/
theorem store_validity_invariant (sorter : StdSort) (calls : List Call) (u : Uninit)
    (s0 s : AccessControlSystem) (text rest : Str) (bad : User) (badRes : Resource) :
    (runCalls sorter calls AccessControlSystem.empty).Valid ∧
    (s.Storable → saveToFile true s = .ok text →
      bad.getName ≠ [] → bad.IntFields → bad.NoWhitespace → bad.LastFieldPresent →
      ¬ bad.Valid →
      ∃ msg, loadFromFile u (some (text ++ (bad.saveToFile ++ rest))) s0 =
        (s, some (.InvalidInputException msg))) ∧
    (s.Storable → saveToFile true s = .ok text →
      badRes.name ≠ [] → NoSpace badRes.name → IsInt badRes.requiredAccessLevel →
      badRes.requiredAccessLevel < 0 →
      ∃ msg, loadFromFile u (some (text ++ (badRes.saveToFile ++ rest))) s0 =
        (s, some (.InvalidInputException msg))) := by
  refine ⟨runCalls_valid sorter calls _ ⟨by simp [AccessControlSystem.empty],
    by simp [AccessControlSystem.empty]⟩, ?_, ?_⟩
  · intro hs htext hname hi hn hl hbad
    obtain ⟨ws', fuel', hws', hlen', heq⟩ :=
      loadLoop_saved u s text (bad.saveToFile ++ rest) hs htext
    obtain ⟨msg, hmsg⟩ := ctorOf_invalid bad hbad
    refine ⟨msg, ?_⟩
    show loadLoop u ((text ++ (bad.saveToFile ++ rest)).length + 1)
      ⟨text ++ (bad.saveToFile ++ rest), false⟩ ⟨[], []⟩ = _
    rw [heq]
    cases fuel' with
    | zero => omega
    | succ fuel' =>
      rw [loadLoop_user_line u fuel' ws' rest bad s hws' hname hi hn hl, hmsg]
  · intro hs htext hname hn hi hneg
    obtain ⟨ws', fuel', hws', hlen', heq⟩ :=
      loadLoop_saved u s text (badRes.saveToFile ++ rest) hs htext
    refine ⟨"Required access level cannot be negative", ?_⟩
    show loadLoop u ((text ++ (badRes.saveToFile ++ rest)).length + 1)
      ⟨text ++ (badRes.saveToFile ++ rest), false⟩ ⟨[], []⟩ = _
    rw [heq]
    cases fuel' with
    | zero => omega
    | succ fuel' =>
      rw [loadLoop_resource_line u fuel' ws' rest badRes s hws' hname hi hn]
      have hne : badRes.name.isEmpty = false := by
        cases h : badRes.name with
        | nil => exact absurd h hname
        | cons _ _ => rfl
      simp [Resource.ctor, Resource.validate, hne, hneg]

/-- C5 on a concrete run: a valid insertion, a rejected one, a sort and a load
that aborts leave a valid system; and loading the saved text of the scenario
store followed by a student line with id -1 throws and leaves the scenario
store, the later line unread. -/
theorem store_validity_invariant_witness :
    (runCalls insertionSorter
      [.addStudent "Nick".toList 1 1 101, .addUser [] 2 2, .sortUsersById,
        .loadFromFile ⟨0, 0, 0, 0⟩ (some "User Ann 1 1\nUser Bob -3 1\n".toList)]
      AccessControlSystem.empty).Valid ∧
    ∃ msg, loadFromFile ⟨0, 0, 0, 0⟩
        (some ("Student Nick 1 1 101\nTeacher Brown 2 3 CS\nResource Lab 3\n".toList ++
          ((User.student "Eve".toList (-1) 2 7).saveToFile ++ "User Zed 1 1\n".toList)))
        AccessControlSystem.empty =
      (labStore, some (.InvalidInputException msg)) :=
  have h := store_validity_invariant insertionSorter
    [.addStudent "Nick".toList 1 1 101, .addUser [] 2 2, .sortUsersById,
      .loadFromFile ⟨0, 0, 0, 0⟩ (some "User Ann 1 1\nUser Bob -3 1\n".toList)]
    ⟨0, 0, 0, 0⟩ AccessControlSystem.empty labStore
    "Student Nick 1 1 101\nTeacher Brown 2 3 CS\nResource Lab 3\n".toList
    "User Zed 1 1\n".toList (.student "Eve".toList (-1) 2 7) ⟨[], 0⟩
  ⟨h.1, h.2.1 (by decide) (by decide) (by decide) (by decide) (by decide) (by decide)
    (by decide)⟩

/-! ## The loop never runs out of iterations -/

/-- Dropping a prefix does not lengthen a list. -/
theorem dropWhile_length_le (p : Char → Bool) (l : List Char) :
    (l.dropWhile p).length ≤ l.length := by
  induction l with
  | nil => simp
  | cons a t ih =>
    rw [List.dropWhile_cons]
    split
    · exact Nat.le_succ_of_le ih
    · exact Nat.le_refl _

/-- An extraction of a string never lengthens what is left to read, and a
successful one shortens it. -/
theorem getString_length (is : IStream) (old : Str) :
    (is.getString old).1.buf.length ≤ is.buf.length ∧
    ((is.getString old).1.fail = false → (is.getString old).1.buf.length < is.buf.length) := by
  unfold IStream.getString
  by_cases hf : is.fail = true
  · simp [hf]
  · simp only [hf, Bool.false_eq_true, if_false]
    have hle := dropWhile_length_le isspace is.buf
    cases hd : is.buf.dropWhile isspace with
    | nil => simp
    | cons c cs =>
      rw [hd] at hle
      have hc : isspace c = false := by
        have := List.head_dropWhile_not isspace is.buf (by rw [hd]; simp)
        simpa [hd] using this
      have hle2 := dropWhile_length_le (fun x => !isspace x) cs
      simp only [List.dropWhile_cons, hc, Bool.not_false, if_true]
      simp only [List.length_cons] at hle
      constructor
      · omega
      · intro _
        omega

/-- An extraction of an `int` never lengthens what is left to read. -/
theorem getInt_length (is : IStream) (old : Int) :
    (is.getInt old).1.buf.length ≤ is.buf.length := by
  unfold IStream.getInt
  by_cases hf : is.fail = true
  · simp [hf]
  · simp only [hf, Bool.false_eq_true, if_false]
    have hle := dropWhile_length_le isspace is.buf
    cases hd : is.buf.dropWhile isspace with
    | nil => simp
    | cons c cs =>
      rw [hd] at hle
      simp only [List.length_cons] at hle
      have hbody : ((if (c.toNat == 45 || c.toNat == 43) = true then cs else c :: cs).dropWhile
          isdigit).length ≤ cs.length + 1 := by
        split
        · exact Nat.le_succ_of_le (dropWhile_length_le isdigit cs)
        · exact dropWhile_length_le isdigit (c :: cs)
      simp only
      generalize (if (c.toNat == 45 || c.toNat == 43) = true then cs else c :: cs) = body
        at hbody ⊢
      split_ifs <;> simp only <;> omega

/-- Once more iterations are allowed than characters are left, allowing still
more changes nothing: the loop ends because the stream does, never because the
iterations run out. -/
theorem loadLoop_fuel_enough (u : Uninit) (f₁ : Nat) : ∀ (f₂ : Nat) (is : IStream)
    (s : AccessControlSystem), is.buf.length < f₁ → is.buf.length < f₂ →
    loadLoop u f₁ is s = loadLoop u f₂ is s := by
  induction f₁ with
  | zero => intro f₂ is s h; omega
  | succ f₁ ih =>
    intro f₂ is s h₁ h₂
    cases f₂ with
    | zero => omega
    | succ f₂ =>
      have hT := getString_length is []
      rw [loadLoop, loadLoop]
      simp only
      by_cases hfail : (is.getString []).1.fail = true
      · simp [hfail]
      · have hfail' : (is.getString []).1.fail = false := by simpa using hfail
        have hlt := hT.2 hfail'
        have hS := fun old => (getString_length (is.getString []).1 old).1
        have hI := fun (x : IStream) old => getInt_length x old
        have hS' := fun (x : IStream) old => (getString_length x old).1
        simp only [hfail', Bool.false_eq_true, if_false]
        split_ifs
        · have a1 := hS []
          have a2 := hI ((is.getString []).1.getString []).1 u.id
          have a3 := hI (((is.getString []).1.getString []).1.getInt u.id).1 u.accessLevel
          split
          · rfl
          · apply ih <;> omega
        · have a1 := hS []
          have a2 := hI ((is.getString []).1.getString []).1 u.id
          have a3 := hI (((is.getString []).1.getString []).1.getInt u.id).1 u.accessLevel
          have a4 := hI ((((is.getString []).1.getString []).1.getInt u.id).1.getInt
            u.accessLevel).1 u.group
          split
          · rfl
          · apply ih <;> omega
        · have a1 := hS []
          have a2 := hI ((is.getString []).1.getString []).1 u.id
          have a3 := hI (((is.getString []).1.getString []).1.getInt u.id).1 u.accessLevel
          have a4 := hS' ((((is.getString []).1.getString []).1.getInt u.id).1.getInt
            u.accessLevel).1 []
          split
          · rfl
          · apply ih <;> omega
        · have a1 := hS []
          have a2 := hI ((is.getString []).1.getString []).1 u.id
          have a3 := hI (((is.getString []).1.getString []).1.getInt u.id).1 u.accessLevel
          have a4 := hS' ((((is.getString []).1.getString []).1.getInt u.id).1.getInt
            u.accessLevel).1 []
          split
          · rfl
          · apply ih <;> omega
        · have a1 := hS []
          have a2 := hI ((is.getString []).1.getString []).1 u.requiredAccessLevel
          split
          · rfl
          · apply ih <;> omega
        · apply ih <;> omega

/-! ## Resources and insertion -/

/-- C17. Constructing a `Resource` fails, with an `InvalidInputException`,
exactly when the name is empty or the required level is negative (the name
checked first); otherwise the object is built and `getName` and
`getRequiredAccessLevel` return the arguments. -/
theorem resource_construction_validates (name : Str) (requiredAccessLevel : Int) :
    ((∃ e, Resource.ctor name requiredAccessLevel = .error e) ↔
      (name = [] ∨ requiredAccessLevel < 0)) ∧
    (∀ e, Resource.ctor name requiredAccessLevel = .error e →
      ∃ msg, e = .InvalidInputException msg) ∧
    (name = [] → Resource.ctor name requiredAccessLevel =
      .error (.InvalidInputException "Resource name cannot be empty")) ∧
    (name ≠ [] → requiredAccessLevel < 0 → Resource.ctor name requiredAccessLevel =
      .error (.InvalidInputException "Required access level cannot be negative")) ∧
    (name ≠ [] → 0 ≤ requiredAccessLevel →
      ∃ r, Resource.ctor name requiredAccessLevel = .ok r ∧ r.getName = name ∧
        r.getRequiredAccessLevel = requiredAccessLevel) := by
  cases name with
  | nil => simp [Resource.ctor, Resource.validate]
  | cons c cs =>
    by_cases hl : requiredAccessLevel < 0
    · simp [Resource.ctor, Resource.validate, hl]
    · have hl' : 0 ≤ requiredAccessLevel := not_lt.mp hl
      simp [Resource.ctor, Resource.validate, hl, hl', Resource.getName,
        Resource.getRequiredAccessLevel]

/-- C17 at concrete arguments: a negative level is rejected, a level of zero is
accepted. -/
theorem resource_construction_validates_witness :
    Resource.ctor "Lab".toList (-1) =
      .error (.InvalidInputException "Required access level cannot be negative") ∧
    ∃ r, Resource.ctor "Lab".toList 0 = .ok r ∧ r.getName = "Lab".toList ∧
      r.getRequiredAccessLevel = 0 :=
  ⟨(resource_construction_validates "Lab".toList (-1)).2.2.2.1 (by decide) (by decide),
    (resource_construction_validates "Lab".toList 0).2.2.2.2 (by decide) (by decide)⟩

/-- C18. `addUser(r)` leaves the user sequence equal to the old one followed by
`r`, whether or not a held user already has `r`'s id, and leaves the resources
as they were; `addResource(x)` leaves the resource sequence equal to the old
one followed by `x` and the users as they were.  A user held before keeps its
place, so a lookup by an id that was held still returns the earlier user. -/
theorem insertion_appends (s : AccessControlSystem) (r : User) (x : Resource) :
    (s.addUser r).users = s.users ++ [r] ∧ (s.addUser r).resources = s.resources ∧
    (s.addResource x).resources = s.resources ++ [x] ∧
    (s.addResource x).users = s.users ∧
    (s.addUser r).users.length = s.users.length + 1 ∧
    (∀ v, s.findUserById r.getId = some v → (s.addUser r).findUserById r.getId = some v) := by
  refine ⟨rfl, rfl, rfl, rfl, by simp [addUser], ?_⟩
  intro v hv
  simp only [findUserById, addUser] at hv ⊢
  rw [List.find?_append, hv]
  rfl

/-- C18 on the scenario store: a second user with id 1 is appended after the
two held users, and the lookup of id 1 still returns Nick. -/
theorem insertion_appends_witness :
    (labStore.addUser (.user "Twin".toList 1 9)).users =
      labStore.users ++ [.user "Twin".toList 1 9] ∧
    (labStore.addUser (.user "Twin".toList 1 9)).findUserById 1 =
      some (.student "Nick".toList 1 1 101) :=
  ⟨(insertion_appends labStore (.user "Twin".toList 1 9) ⟨[], 0⟩).1,
    (insertion_appends labStore (.user "Twin".toList 1 9) ⟨[], 0⟩).2.2.2.2.2 _ (by decide)⟩

/-! ## Lookup by name: exact match, current order -/

/-- C11, the code at the demo's own search: `main` holds the student
"Nick Teran" and asks for "Nick"; the name starts with the query, and
`findUsersByName` returns no one, because it compares whole names with `==`. -/
theorem findUsersByName_demo_search :
    User.student "Nick Teran".toList 1 1 101 ∈ mainStore.users ∧
    "Nick".toList <+: (User.student "Nick Teran".toList 1 1 101).getName ∧
    mainStore.findUsersByName "Nick".toList = [] := by
  decide

/-- Any sequence of sorting calls rearranges the users and leaves the resources
alone. -/
theorem applySorts_perm (sorter : StdSort) (sorts : List SortCall) :
    ∀ s : AccessControlSystem, (applySorts sorter sorts s).users.Perm s.users ∧
      (applySorts sorter sorts s).resources = s.resources := by
  induction sorts with
  | nil => intro s; exact ⟨List.Perm.refl _, rfl⟩
  | cons c t ih =>
    intro s
    cases c with
    | byAccessLevel =>
      have h := ih (s.sortUsersByAccessLevel sorter)
      have hs := sortUsersByAccessLevel_spec sorter s
      exact ⟨h.1.trans hs.1, h.2.trans hs.2.2⟩
    | byId =>
      have h := ih (s.sortUsersById sorter)
      have hs := sortUsersById_spec sorter s
      exact ⟨h.1.trans hs.1, h.2.trans hs.2.2⟩

/-- C12, against the claim: Sam the user (level 5) was inserted before Sam the
student (level 1); after `sortUsersByAccessLevel`, even with a sort that keeps
ties in place, `findUsersByName("Sam")` returns the student first, not the
insertion order. -/
theorem findUsersByName_after_sort_counterexample :
    samStore.findUsersByName "Sam".toList =
      [.user "Sam".toList 9 5, .student "Sam".toList 4 1 7] ∧
    (applySorts insertionSorter [.byAccessLevel] samStore).findUsersByName "Sam".toList =
      [.student "Sam".toList 4 1 7, .user "Sam".toList 9 5] ∧
    (applySorts insertionSorter [.byAccessLevel] samStore).findUsersByName "Sam".toList ≠
      samStore.findUsersByName "Sam".toList := by
  decide

/-- C12, amended. After any sequence of sorting calls `findUsersByName` returns
the matching users in the current order of the user sequence, the order the
sorts left; they are the users the query returned before the sorts, possibly
rearranged. -/
theorem findUsersByName_current_order (sorter : StdSort) (sorts : List SortCall)
    (s : AccessControlSystem) (name : Str) :
    (applySorts sorter sorts s).findUsersByName name =
      (applySorts sorter sorts s).users.filter (fun u => decide (u.getName = name)) ∧
    ((applySorts sorter sorts s).findUsersByName name).Sublist
      (applySorts sorter sorts s).users ∧
    ((applySorts sorter sorts s).findUsersByName name).Perm (s.findUsersByName name) := by
  have hfind : ∀ t : AccessControlSystem, t.findUsersByName name =
      t.users.filter (fun u => decide (u.getName = name)) := by
    intro t
    rw [findUsersByName, findUsersByName_loop]
    simp
  refine ⟨hfind _, ?_, ?_⟩
  · rw [hfind]
    exact List.filter_sublist _
  · rw [hfind, hfind]
    exact (applySorts_perm sorter sorts s).1.filter _

/-! ## The layout of the saved text -/

/-- What `saveToFile(out)` writes for one user or one resource is the spec's
line for it. -/
theorem saveToFile_line (r : User) (x : Resource) :
    r.saveToFile = layoutLine r.layoutTag r.layoutFields ∧
    x.saveToFile = layoutLine "Resource".toList [x.name, putInt x.requiredAccessLevel] := by
  constructor
  · cases r <;>
      simp [User.saveToFile, layoutLine, User.layoutTag, User.layoutFields,
        List.intercalate, List.intersperse]
  · simp [Resource.saveToFile, layoutLine, List.intercalate, List.intersperse]

/-- The lines of a sequence of users, and of a sequence of resources, are the
spec's lines, joined. -/
theorem text_layout (users : List User) (resources : List Resource) :
    usersText users =
      (users.map (fun r => layoutLine r.layoutTag r.layoutFields)).flatten ∧
    resourcesText resources =
      (resources.map (fun x =>
        layoutLine "Resource".toList [x.name, putInt x.requiredAccessLevel])).flatten := by
  constructor
  · induction users with
    | nil => rfl
    | cons r t ih =>
      rw [(text_cons r t ⟨[], 0⟩ []).1, ih, (saveToFile_line r ⟨[], 0⟩).1]
      simp
  · induction resources with
    | nil => rfl
    | cons x t ih =>
      rw [(text_cons (.user [] 0 0) [] x t).2, ih, (saveToFile_line (.user [] 0 0) x).2]
      simp

/-- A written number has no line feed in it. -/
theorem putInt_no_line_feed (i : Int) : Char.ofNat 10 ∉ putInt i := by
  have hnat : ∀ n : Nat, Char.ofNat 10 ∉ putNat n := by
    intro n hmem
    have := (putNat_spec n).2.1 _ hmem
    exact absurd this (by decide)
  unfold putInt
  split
  · intro hmem
    rcases List.mem_cons.mp hmem with h | h
    · exact absurd h (by decide)
    · exact hnat _ h
  · exact hnat _

/-- A line whose strings hold no line feed has exactly one, its last
character. -/
theorem line_feed_count (r : User) (x : Resource)
    (hr : ∀ w ∈ r.stringFields, Char.ofNat 10 ∉ w) (hx : Char.ofNat 10 ∉ x.name) :
    r.saveToFile.count (Char.ofNat 10) = 1 ∧ x.saveToFile.count (Char.ofNat 10) = 1 := by
  have hint : ∀ i : Int, (putInt i).count (Char.ofNat 10) = 0 :=
    fun i => List.count_eq_zero.mpr (putInt_no_line_feed i)
  have hstr : ∀ w : Str, Char.ofNat 10 ∉ w → w.count (Char.ofNat 10) = 0 :=
    fun w h => List.count_eq_zero.mpr h
  have t1 : "User ".toList.count (Char.ofNat 10) = 0 := by decide
  have t2 : "Student ".toList.count (Char.ofNat 10) = 0 := by decide
  have t3 : "Teacher ".toList.count (Char.ofNat 10) = 0 := by decide
  have t4 : "Administrator ".toList.count (Char.ofNat 10) = 0 := by decide
  have t5 : "Resource ".toList.count (Char.ofNat 10) = 0 := by decide
  have t6 : " ".toList.count (Char.ofNat 10) = 0 := by decide
  have t7 : "\n".toList.count (Char.ofNat 10) = 1 := by decide
  constructor
  · cases r with
    | user n i a =>
      have hn := hstr n (hr n (by simp [User.stringFields]))
      simp only [User.saveToFile, List.count_append, hint, hn, t1, t6, t7]
    | student n i a g =>
      have hn := hstr n (hr n (by simp [User.stringFields]))
      simp only [User.saveToFile, List.count_append, hint, hn, t2, t6, t7]
    | teacher n i a d =>
      have hn := hstr n (hr n (by simp [User.stringFields]))
      have hd := hstr d (hr d (by simp [User.stringFields]))
      simp only [User.saveToFile, List.count_append, hint, hn, hd, t3, t6, t7]
    | administrator n i a k =>
      have hn := hstr n (hr n (by simp [User.stringFields]))
      have hk := hstr k (hr k (by simp [User.stringFields]))
      simp only [User.saveToFile, List.count_append, hint, hn, hk, t4, t6, t7]
  · simp only [Resource.saveToFile, List.count_append, hint, hstr _ hx, t5, t6, t7]

/-- C13. On an opened file `saveToFile` writes the concatenation of exactly
`n + m` lines: one per user in store order, then one per resource in store
order, each the tag of the entity's class followed by its fields in the fixed
order, separated by single spaces and closed by a line feed.  When no name,
department or adminKey has a line feed in it, these are the lines of the file:
the text has `n + m` line feeds. -/
theorem saveToFile_layout (s : AccessControlSystem) :
    saveToFile true s = .ok (layoutLines s).flatten ∧
    (layoutLines s).length = s.users.length + s.resources.length ∧
    (∀ text, saveToFile true s = .ok text →
      (∀ r ∈ s.users, ∀ w ∈ r.stringFields, Char.ofNat 10 ∉ w) →
      (∀ x ∈ s.resources, Char.ofNat 10 ∉ x.name) →
      text.count (Char.ofNat 10) = s.users.length + s.resources.length) := by
  refine ⟨?_, by simp [layoutLines], ?_⟩
  · rw [saveToFile_text, (text_layout s.users s.resources).1,
      (text_layout s.users s.resources).2, layoutLines, List.flatten_append]
  · intro text htext hu hx
    rw [saveToFile_text] at htext
    cases htext
    have hus : ∀ users : List User, (∀ r ∈ users, ∀ w ∈ r.stringFields, Char.ofNat 10 ∉ w) →
        (usersText users).count (Char.ofNat 10) = users.length := by
      intro users
      induction users with
      | nil => intro _; rfl
      | cons r t ih =>
        intro h
        rw [(text_cons r t ⟨[], 0⟩ []).1, List.count_append,
          (line_feed_count r ⟨[], 0⟩ (h r (List.mem_cons_self _ _)) (by simp)).1,
          ih (fun y hy => h y (List.mem_cons_of_mem _ hy))]
        simp only [List.length_cons]
        omega
    have hrs : ∀ resources : List Resource, (∀ x ∈ resources, Char.ofNat 10 ∉ x.name) →
        (resourcesText resources).count (Char.ofNat 10) = resources.length := by
      intro resources
      induction resources with
      | nil => intro _; rfl
      | cons x t ih =>
        intro h
        rw [(text_cons (.user [] 0 0) [] x t).2, List.count_append,
          (line_feed_count (.user [] 0 0) x (by simp [User.stringFields])
            (h x (List.mem_cons_self _ _))).2,
          ih (fun y hy => h y (List.mem_cons_of_mem _ hy))]
        simp only [List.length_cons]
        omega
    rw [List.count_append, hus s.users hu, hrs s.resources hx]

/-- C13 on the scenario store: the three lines and the three line feeds. -/
theorem saveToFile_layout_witness :
    saveToFile true labStore =
      .ok "Student Nick 1 1 101\nTeacher Brown 2 3 CS\nResource Lab 3\n".toList ∧
    (layoutLines labStore).length = 3 ∧
    "Student Nick 1 1 101\nTeacher Brown 2 3 CS\nResource Lab 3\n".toList.count
      (Char.ofNat 10) = labStore.users.length + labStore.resources.length :=
  ⟨by decide, (saveToFile_layout labStore).2.1,
    (saveToFile_layout labStore).2.2 _ (by decide) (by decide) (by decide)⟩

/-! ## Unknown tags -/

/-- Whitespace in front of the text does not change what the loop does. -/
theorem loadLoop_leading_space (u : Uninit) (fuel : Nat) (ws rest : Str)
    (s : AccessControlSystem) (hws : ∀ c ∈ ws, isspace c = true) :
    loadLoop u fuel ⟨ws ++ rest, false⟩ s = loadLoop u fuel ⟨rest, false⟩ s := by
  have hdrop : (ws ++ rest).dropWhile isspace = rest.dropWhile isspace := by
    induction ws with
    | nil => rfl
    | cons a t ih =>
      have ha : isspace a = true := hws a (List.mem_cons_self _ _)
      rw [List.cons_append, List.dropWhile_cons, if_pos ha]
      exact ih (fun c hc => hws c (List.mem_cons_of_mem _ hc))
  have hget : ∀ old, IStream.getString ⟨ws ++ rest, false⟩ old =
      IStream.getString ⟨rest, false⟩ old := by
    intro old
    simp only [IStream.getString, hdrop, Bool.false_eq_true, if_false]
  cases fuel with
  | zero => rfl
  | succ fuel => rw [loadLoop, loadLoop, hget]

/-- One iteration of the loop on a token that is none of the five tags: the
token alone is consumed, nothing is pushed, nothing is thrown, and the loop
goes on right after the token. -/
theorem loadLoop_unknown_token (u : Uninit) (fuel : Nat) (ws t rest : Str)
    (s : AccessControlSystem) (hws : ∀ c ∈ ws, isspace c = true) (hne : t ≠ [])
    (hns : NoSpace t) (hunk : t ∉ tags) (hrest : ∀ c ∈ rest.head?, isspace c = true) :
    loadLoop u (fuel + 1) ⟨ws ++ (t ++ rest), false⟩ s = loadLoop u fuel ⟨rest, false⟩ s := by
  simp only [tags, List.mem_cons, List.mem_singleton, List.not_mem_nil, or_false,
    not_or] at hunk
  obtain ⟨h1, h2, h3, h4, h5⟩ := hunk
  rw [loadLoop, getString_word ws t rest [] hws hne hns hrest]
  simp only [Bool.false_eq_true, if_false]
  rw [if_neg h1, if_neg h2, if_neg h3, if_neg h4, if_neg h5]

/-- C14, against the claim: the line "Guest User bob 1 1" is not skipped as a
whole.  Only the token "Guest" is; "User" is then read as a tag and the user
bob is added, while the input without that line adds nothing. -/
theorem unknown_tag_line_counterexample :
    "Guest".toList ∉ tags ∧
    loadFromFile ⟨0, 0, 0, 0⟩ (some "Guest User bob 1 1\n".toList) AccessControlSystem.empty =
      (⟨[.user "bob".toList 1 1], []⟩, none) ∧
    loadFromFile ⟨0, 0, 0, 0⟩ (some "".toList) AccessControlSystem.empty =
      (⟨[], []⟩, none) := by
  decide

/-- C14, amended. A token that stands where a tag is expected and is none of
the five tags is skipped alone, without error: `loadFromFile` gives what it
gives for the input without that token, at the start of the text and after the
saved lines of any system that reads back as written; in the loop, whatever the
system read so far, the token is consumed and nothing else changes.  The
tokens after it on its line are read in turn as tags and fields. -/
theorem unknown_token_skipped (u : Uninit) (s0 s pre : AccessControlSystem) (fuel : Nat)
    (ws t rest text : Str) (hws : ∀ c ∈ ws, isspace c = true) (hne : t ≠ [])
    (hns : NoSpace t) (hunk : t ∉ tags) (hrest : ∀ c ∈ rest.head?, isspace c = true) :
    loadFromFile u (some (ws ++ (t ++ rest))) s0 = loadFromFile u (some (ws ++ rest)) s0 ∧
    loadLoop u (fuel + 1) ⟨ws ++ (t ++ rest), false⟩ s = loadLoop u fuel ⟨rest, false⟩ s ∧
    (pre.Storable → saveToFile true pre = .ok text →
      loadFromFile u (some (text ++ (t ++ rest))) s0 =
        loadFromFile u (some (text ++ rest)) s0) := by
  refine ⟨?_, loadLoop_unknown_token u fuel ws t rest s hws hne hns hunk hrest, ?_⟩
  · show loadLoop u ((ws ++ (t ++ rest)).length + 1) ⟨ws ++ (t ++ rest), false⟩ ⟨[], []⟩ =
      loadLoop u ((ws ++ rest).length + 1) ⟨ws ++ rest, false⟩ ⟨[], []⟩
    rw [loadLoop_unknown_token u _ ws t rest _ hws hne hns hunk hrest,
      loadLoop_leading_space u _ ws rest _ hws]
    apply loadLoop_fuel_enough
    · simp only [List.length_append]
      have : 0 < t.length := List.length_pos.mpr hne
      omega
    · simp only [List.length_append]
      omega
  · intro hpre htext
    obtain ⟨ws₁, f₁, hws₁, hlen₁, heq₁⟩ := loadLoop_saved u pre text (t ++ rest) hpre htext
    obtain ⟨ws₂, f₂, hws₂, hlen₂, heq₂⟩ := loadLoop_saved u pre text rest hpre htext
    show loadLoop u ((text ++ (t ++ rest)).length + 1) ⟨text ++ (t ++ rest), false⟩ ⟨[], []⟩ =
      loadLoop u ((text ++ rest).length + 1) ⟨text ++ rest, false⟩ ⟨[], []⟩
    rw [heq₁, heq₂]
    cases f₁ with
    | zero => omega
    | succ f₁ =>
      rw [loadLoop_unknown_token u f₁ ws₁ t rest _ hws₁ hne hns hunk hrest,
        loadLoop_leading_space u f₂ ws₂ rest _ hws₂]
      apply loadLoop_fuel_enough
      · simp only [List.length_append, List.length_cons] at hlen₁ ⊢
        have : 0 < t.length := List.length_pos.mpr hne
        omega
      · simp only [List.length_append] at hlen₂ ⊢
        omega

/-- C14 amended, on a file: after the saved lines of the scenario store the
token "Guest" is skipped, and the text loads as it does without it, bob
included. -/
theorem unknown_token_skipped_witness :
    loadFromFile ⟨0, 0, 0, 0⟩
        (some ("Student Nick 1 1 101\nTeacher Brown 2 3 CS\nResource Lab 3\n".toList ++
          ("Guest".toList ++ " User bob 1 1\n".toList))) AccessControlSystem.empty =
      loadFromFile ⟨0, 0, 0, 0⟩
        (some ("Student Nick 1 1 101\nTeacher Brown 2 3 CS\nResource Lab 3\n".toList ++
          " User bob 1 1\n".toList)) AccessControlSystem.empty :=
  (unknown_token_skipped ⟨0, 0, 0, 0⟩ AccessControlSystem.empty AccessControlSystem.empty
    labStore 0 [] "Guest".toList " User bob 1 1\n".toList
    "Student Nick 1 1 101\nTeacher Brown 2 3 CS\nResource Lab 3\n".toList
    (by decide) (by decide) (by decide) (by decide) (by decide)).2.2 (by decide) (by decide)

/-! ## Loading replaces the contents; the whole-store round trip -/

/-- Loading the text `saveToFile` wrote for a system whose records read back as
written rebuilds that system, whatever the target held and whatever the
uninitialised locals hold, and throws nothing. -/
theorem loadFromFile_saved (u : Uninit) (s0 s : AccessControlSystem) (text : Str)
    (hs : s.Storable) (htext : saveToFile true s = .ok text) :
    loadFromFile u (some text) s0 = (s, none) := by
  obtain ⟨ws', fuel', hws', -, heq⟩ := loadLoop_saved u s text [] hs htext
  simp only [List.append_nil] at heq
  show loadLoop u (text.length + 1) ⟨text, false⟩ ⟨[], []⟩ = (s, none)
  rw [heq]
  exact loadLoop_trailing_space u fuel' ws' s hws'

/-- A valid system whose strings are tokens and whose numbers are in range reads
back as written. -/
theorem storable_of_tokens (s : AccessControlSystem) (hv : s.Valid) (ht : s.TokenStrings)
    (hi : s.IntRange) : s.Storable := by
  constructor
  · intro r hr
    have hvr := hv.1 r hr
    have htr := ht.1 r hr
    refine ⟨(constructed_iff_valid r).mpr hvr, hi.1 r hr, ?_, ?_⟩
    · cases r with
      | user n i a => exact (htr n (by simp [User.stringFields])).2
      | student n i a g => exact (htr n (by simp [User.stringFields])).2
      | teacher n i a d =>
        exact ⟨(htr n (by simp [User.stringFields])).2,
          (htr d (by simp [User.stringFields])).2⟩
      | administrator n i a k =>
        exact ⟨(htr n (by simp [User.stringFields])).2,
          (htr k (by simp [User.stringFields])).2⟩
    · cases r with
      | user n i a => trivial
      | student n i a g => trivial
      | teacher n i a d => exact (htr d (by simp [User.stringFields])).1
      | administrator n i a k => exact (htr k (by simp [User.stringFields])).1
  · intro x hx
    exact ⟨hv.2 x hx, hi.2 x hx, (ht.2 x hx).2⟩

/-- C16. Whole-store round trip: for every system that satisfies the store
invariant (as every reachable system does), whose names, departments and
adminKeys are all non-empty and free of whitespace and whose `int` members are
in the range of `int`, `loadFromFile` applied to what `saveToFile` wrote yields
the same users (same classes, same fields) in the same order and the same
resources in the same order, without an exception, whatever the target held
before. -/
theorem whole_store_roundtrip (u : Uninit) (s0 s : AccessControlSystem)
    (hv : s.Valid) (ht : s.TokenStrings) (hi : s.IntRange) :
    ∃ text, saveToFile true s = .ok text ∧ loadFromFile u (some text) s0 = (s, none) :=
  ⟨_, saveToFile_text s,
    loadFromFile_saved u s0 s _ (storable_of_tokens s hv ht hi) (saveToFile_text s)⟩

/-- C16 on the persistence scenario: `Administrator("Smith", 3, 5, "k1")` and
`Resource("Server", 5)` reload to a single record with access level 5 and
adminKey "k1" and the single resource Server/5. -/
theorem whole_store_roundtrip_witness :
    ∃ text, saveToFile true smithStore = .ok text ∧
      loadFromFile ⟨-1, -1, -1, -1⟩ (some text) labStore =
        (⟨[.administrator "Smith".toList 3 5 "k1".toList], [⟨"Server".toList, 5⟩]⟩, none) :=
  whole_store_roundtrip ⟨-1, -1, -1, -1⟩ labStore smithStore (by decide) (by decide)
    (by decide)

/-! ## Names with whitespace -/

/-- A string extracted into an empty variable has no whitespace in it. -/
theorem getString_noSpace (is : IStream) : NoSpace (is.getString []).2 := by
  unfold IStream.getString
  split_ifs
  · intro c hc
    cases hc
  · split
    · intro c hc
      cases hc
    · intro c hc
      have := List.mem_takeWhile_imp hc
      simpa using this

/-- A record a constructor returned has the name the constructor was given. -/
theorem ctor_getName (name : Str) (id accessLevel group : Int) (department adminKey : Str)
    (r : User)
    (h : User.ctor name id accessLevel = .ok r ∨
      Student.ctor name id accessLevel group = .ok r ∨
      Teacher.ctor name id accessLevel department = .ok r ∨
      Administrator.ctor name id accessLevel adminKey = .ok r) : r.getName = name := by
  cases hv : User.validate name id accessLevel with
  | error e =>
    simp [User.ctor, Student.ctor, Teacher.ctor, Administrator.ctor, hv] at h
  | ok x =>
    simp only [User.ctor, Student.ctor, Teacher.ctor, Administrator.ctor, hv,
      Except.ok.injEq] at h
    rcases h with h | h | h | h <;> (rw [← h]; rfl)

/-- Every user the loading loop pushes has a name without whitespace: the name
is one token of the text. -/
theorem loadLoop_names_noSpace (u : Uninit) (fuel : Nat) :
    ∀ (is : IStream) (s : AccessControlSystem), (∀ x ∈ s.users, NoSpace x.getName) →
      ∀ x ∈ (loadLoop u fuel is s).1.users, NoSpace x.getName := by
  induction fuel with
  | zero => intro is s hs; exact hs
  | succ fuel ih =>
    intro is s hs
    have hpush : ∀ (is' : IStream) (r : User), r.getName = ((is.getString []).1.getString []).2 →
        ∀ x ∈ (loadLoop u fuel is' { s with users := s.users ++ [r] }).1.users,
          NoSpace x.getName := by
      intro is' r hr
      apply ih
      intro x hx
      rcases List.mem_append.mp hx with h | h
      · exact hs x h
      · rw [List.mem_singleton.mp h, hr]
        exact getString_noSpace _
    rw [loadLoop]
    simp only
    split_ifs
    · exact hs
    · split
      · exact hs
      · next r hr => exact hpush _ r (ctor_getName _ _ _ 0 [] [] r (Or.inl hr))
    · split
      · exact hs
      · next r hr => exact hpush _ r (ctor_getName _ _ _ _ [] [] r (Or.inr (Or.inl hr)))
    · split
      · exact hs
      · next r hr =>
        exact hpush _ r (ctor_getName _ _ _ 0 _ [] r (Or.inr (Or.inr (Or.inl hr))))
    · split
      · exact hs
      · next r hr =>
        exact hpush _ r (ctor_getName _ _ _ 0 [] _ r (Or.inr (Or.inr (Or.inr hr))))
    · split
      · exact hs
      · next r hr => exact ih _ _ hs
    · exact ih _ _ hs

/-- C19. Names with whitespace in them do not survive a save and reload: for
every user whose name has a whitespace character (a space in particular) and
every system holding it, the system `loadFromFile` builds from what
`saveToFile` wrote holds no record equal to that user, and so is not the system
that was saved; every reloaded name is a single whitespace-free token. -/
theorem spaced_name_not_reloaded (u : Uninit) (s0 s : AccessControlSystem) (r : User)
    (hsp : ∃ c ∈ r.getName, isspace c = true) (hr : r ∈ s.users) :
    ∃ text, saveToFile true s = .ok text ∧
      r ∉ (loadFromFile u (some text) s0).1.users ∧
      (loadFromFile u (some text) s0).1 ≠ s ∧
      (∀ x ∈ (loadFromFile u (some text) s0).1.users, NoSpace x.getName) := by
  refine ⟨_, saveToFile_text s, ?_⟩
  generalize usersText s.users ++ resourcesText s.resources = text
  have hall : ∀ x ∈ (loadFromFile u (some text) s0).1.users, NoSpace x.getName :=
    loadLoop_names_noSpace u _ _ _ (by simp)
  have hnot : r ∉ (loadFromFile u (some text) s0).1.users := by
    intro hmem
    obtain ⟨c, hc, hcs⟩ := hsp
    have := hall r hmem c hc
    rw [hcs] at this
    exact absurd this (by decide)
  refine ⟨hnot, ?_, hall⟩
  intro heq
  rw [heq] at hnot
  exact hnot hr

set_option maxRecDepth 100000 in
/-- C19 on the store `main` saves and reloads: "Nick Teran" is not among the
reloaded users and the reloaded system is not the saved one.  The reload reads
the name "Nick", fails on "Teran" where the id is expected, and leaves one
student with id 0 and the uninitialised access level and group, or throws when
that access level is negative. -/
theorem spaced_name_not_reloaded_witness :
    (∃ text, saveToFile true mainStore = .ok text ∧
      User.student "Nick Teran".toList 1 1 101 ∉
        (loadFromFile ⟨0, 0, 0, 0⟩ (some text) AccessControlSystem.empty).1.users ∧
      (loadFromFile ⟨0, 0, 0, 0⟩ (some text) AccessControlSystem.empty).1 ≠ mainStore ∧
      (∀ x ∈ (loadFromFile ⟨0, 0, 0, 0⟩ (some text) AccessControlSystem.empty).1.users,
        NoSpace x.getName)) ∧
    loadFromFile ⟨0, 0, 0, 0⟩
        (some (usersText mainStore.users ++ resourcesText mainStore.resources))
        AccessControlSystem.empty =
      (⟨[.student "Nick".toList 0 0 0], []⟩, none) ∧
    loadFromFile ⟨0, -1, 0, 0⟩
        (some (usersText mainStore.users ++ resourcesText mainStore.resources))
        AccessControlSystem.empty =
      (⟨[], []⟩, some (.InvalidInputException "Access level cannot be negative")) :=
  ⟨spaced_name_not_reloaded ⟨0, 0, 0, 0⟩ AccessControlSystem.empty mainStore
      (.student "Nick Teran".toList 1 1 101) ⟨Char.ofNat 32, by decide, by decide⟩
      (by decide),
    by decide, by decide⟩

/-! ## Access checks and the order of the users -/

/-- In two rearrangements of a sequence whose ids are pairwise distinct, the
first user with a given id is the same. -/
theorem find?_id_perm (l₁ l₂ : List User) (hp : l₁.Perm l₂)
    (hnd : (l₁.map User.getId).Nodup) (userId : Int) :
    l₁.find? (fun user => decide (user.getId = userId)) =
      l₂.find? (fun user => decide (user.getId = userId)) := by
  cases h₁ : l₁.find? (fun user => decide (user.getId = userId)) with
  | none =>
    rw [List.find?_eq_none] at h₁
    symm
    rw [List.find?_eq_none]
    intro x hx
    exact h₁ x (hp.mem_iff.mpr hx)
  | some v₁ =>
    have hm₁ : v₁ ∈ l₁ := List.mem_of_find?_eq_some h₁
    have hid₁ : v₁.getId = userId := by simpa using List.find?_some h₁
    cases h₂ : l₂.find? (fun user => decide (user.getId = userId)) with
    | none =>
      rw [List.find?_eq_none] at h₂
      exact absurd (by simpa using hid₁) (h₂ v₁ (hp.mem_iff.mp hm₁))
    | some v₂ =>
      have hm₂ : v₂ ∈ l₁ := hp.mem_iff.mpr (List.mem_of_find?_eq_some h₂)
      have hid₂ : v₂.getId = userId := by simpa using List.find?_some h₂
      rw [List.inj_on_of_nodup_map hnd hm₁ hm₂ (hid₁.trans hid₂.symm)]

/-- C23. In a store whose user ids are pairwise distinct, `checkAccess` gives
the same outcome, the same boolean or the same exception, before and after any
sequence of `sortUsersByAccessLevel` and `sortUsersById` calls, whatever
`std::sort` does with ties; the sorts leave the resource sequence as it was. -/
theorem checkAccess_independent_of_sorts (sorter : StdSort) (sorts : List SortCall)
    (s : AccessControlSystem) (hid : (s.users.map User.getId).Nodup) (userId : Int)
    (resourceName : Str) :
    (applySorts sorter sorts s).checkAccess userId resourceName =
      s.checkAccess userId resourceName ∧
    (applySorts sorter sorts s).resources = s.resources := by
  obtain ⟨hp, hr⟩ := applySorts_perm sorter sorts s
  refine ⟨?_, hr⟩
  simp only [checkAccess, hr, find?_id_perm s.users _ hp.symm hid userId]

/-- C23 on the scenario store, sorted three times with a sort that reverses
ties: user 1 is still denied the lab, user 2 still granted it, user 99 still
unknown. -/
theorem checkAccess_independent_of_sorts_witness :
    (applySorts insertionSorter [.byAccessLevel, .byId, .byAccessLevel] labStore).checkAccess
        1 "Lab".toList = .ok false ∧
    (applySorts insertionSorter [.byAccessLevel, .byId, .byAccessLevel] labStore).checkAccess
        2 "Lab".toList = labStore.checkAccess 2 "Lab".toList ∧
    (applySorts insertionSorter [.byAccessLevel, .byId, .byAccessLevel] labStore).checkAccess
        99 "Lab".toList = .error (.runtime_error "User not found") :=
  ⟨by decide,
    (checkAccess_independent_of_sorts insertionSorter [.byAccessLevel, .byId, .byAccessLevel]
      labStore (by decide) 2 "Lab".toList).1,
    by decide⟩

/-! ## 32-bit arithmetic -/

/-- An arithmetic result inside the range of `int` is stored as it is. -/
theorem wrapInt_of_isInt (x : Int) (h : IsInt x) : wrapInt x = x := by
  unfold IsInt INT_MIN INT_MAX at h
  unfold wrapInt
  omega

/-- What an `int` holds after an operation is in the range of `int`. -/
theorem isInt_wrapInt (x : Int) : IsInt (wrapInt x) := by
  unfold IsInt INT_MIN INT_MAX wrapInt
  omega

end Lb10

namespace Lb9

open Lb10 Game

/-! # Theorems on the save file of lb9 -/

/-- The hero `main` saves is the hero `main` built: constructed, raised to
level 2 by the two experience gains, hit three times for 24. -/
theorem heroAtSave_trace :
    (((((Character.ctor "Sir Lancelot".toList 120 25 15).gainExperience 75).gainExperience
      50).takeDamage 24).1.takeDamage 24).1.takeDamage 24 = (heroAtSave, none) := by
  decide

/-- C20, the code at the hero `main` saves and loads back: the file holds the
hero's seven values, and `loadGame` returns a character with attack 29, defense
17 and health 140/140 where the saved hero had attack 27, defense 16 and health
58/130.  The `gainExperience(100)` that `loadGame` replays for level 2 adds the
level-up bonuses to statistics that already include them and refills the
health restored just before. -/
theorem loadGame_saved_hero :
    saveGame true heroAtSave = .ok "Sir Lancelot\n58\n130\n27\n16\n2\n25\n".toList ∧
    loadGame ⟨0, 0, 0, 0, 0, 0⟩ (some "Sir Lancelot\n58\n130\n27\n16\n2\n25\n".toList) =
      .ok { name := "Sir Lancelot".toList, maxHealth := 140, health := 140, attack := 29,
            defense := 17, level := 2, experience := 25 } ∧
    loadGame ⟨0, 0, 0, 0, 0, 0⟩ (some "Sir Lancelot\n58\n130\n27\n16\n2\n25\n".toList) ≠
      .ok heroAtSave := by
  decide

/-! ## What `loadGame` returns for a saved character -/

/-- `std::getline` on a good stream that holds a line without a line feed in
it, the line feed, and the rest: the line is read and the stream stands after
the line feed. -/
theorem getline_line (line R old : Str) (h : Char.ofNat 10 ∉ line) :
    getline ⟨line ++ Char.ofNat 10 :: R, false⟩ old = (⟨R, false⟩, line) := by
  have hspan := span_run (fun x => x != Char.ofNat 10) line (Char.ofNat 10 :: R)
    (fun c hc => by
      have : c ≠ Char.ofNat 10 := fun heq => h (heq ▸ hc)
      simpa using this)
    (fun c hc => by
      simp only [List.head?_cons, Option.mem_def, Option.some.injEq] at hc
      rw [← hc]
      decide)
  unfold getline
  simp only [Bool.false_eq_true, if_false]
  cases hbuf : line ++ Char.ofNat 10 :: R with
  | nil => simp at hbuf
  | cons c cs =>
    simp only
    rw [← hbuf, hspan.1, hspan.2]
    rfl

/-- Reading the first number of the save file, and each following one: the
number written is read back and the stream stands at the line feed after it. -/
theorem getInt_line (R : Str) (old i : Int) (hi : IsInt i) :
    IStream.getInt ⟨putInt i ++ Char.ofNat 10 :: R, false⟩ old =
      (⟨Char.ofNat 10 :: R, false⟩, i) ∧
    IStream.getInt ⟨Char.ofNat 10 :: (putInt i ++ Char.ofNat 10 :: R), false⟩ old =
      (⟨Char.ofNat 10 :: R, false⟩, i) := by
  have hrest : ∀ c ∈ (Char.ofNat 10 :: R).head?, isdigit c = false := by
    intro c hc
    simp only [List.head?_cons, Option.mem_def, Option.some.injEq] at hc
    rw [← hc]
    decide
  constructor
  · have := getInt_putInt [] (Char.ofNat 10 :: R) old i (by simp) hi.1 hi.2 hrest
    simpa using this
  · have := getInt_putInt [Char.ofNat 10] (Char.ofNat 10 :: R) old i (by decide) hi.1 hi.2
      hrest
    simpa using this

/-- Replaying `gainExperience(100)` on a character without experience, as long
as the raised statistics stay in the range of `int`: every replay raises the
level by one, adds the level-up bonuses and leaves the experience at 0; after
at least one replay the health is the new maximum. -/
theorem replay_levels (k : Nat) (c : Character) (hexp : c.experience = 0)
    (hm : IsInt c.maxHealth) (hmk : IsInt (c.maxHealth + 10 * k))
    (ha : IsInt c.attack) (hak : IsInt (c.attack + 2 * k))
    (hd : IsInt c.defense) (hdk : IsInt (c.defense + k))
    (hl : IsInt c.level) (hlk : IsInt (c.level + k)) :
    (fun c => Character.gainExperience c 100)^[k] c =
      { name := c.name
        maxHealth := c.maxHealth + 10 * k
        health := if k = 0 then c.health else c.maxHealth + 10 * k
        attack := c.attack + 2 * k
        defense := c.defense + k
        level := c.level + k
        experience := 0 } := by
  induction k with
  | zero =>
    cases c with
    | mk e l x =>
      cases e
      simp only at hexp
      simp [hexp]
  | succ k ih =>
    unfold IsInt INT_MIN INT_MAX at hm hmk ha hak hd hdk hl hlk
    push_cast at hmk hak hdk hlk
    have hmk' : IsInt (c.maxHealth + 10 * (k : Int)) := by
      unfold IsInt INT_MIN INT_MAX
      omega
    have hak' : IsInt (c.attack + 2 * (k : Int)) := by
      unfold IsInt INT_MIN INT_MAX
      omega
    have hdk' : IsInt (c.defense + (k : Int)) := by
      unfold IsInt INT_MIN INT_MAX
      omega
    have hlk' : IsInt (c.level + (k : Int)) := by
      unfold IsInt INT_MIN INT_MAX
      omega
    rw [Function.iterate_succ_apply',
      ih hmk' hak' hdk' hlk']
    have e0 : wrapInt ((0 : Int) + 100) = 100 := by decide
    have e1 : wrapInt (c.maxHealth + 10 * (k : Int) + 10) = c.maxHealth + 10 * ((k : Int) + 1) := by
      unfold wrapInt
      omega
    have e2 : wrapInt (c.attack + 2 * (k : Int) + 2) = c.attack + 2 * ((k : Int) + 1) := by
      unfold wrapInt
      omega
    have e3 : wrapInt (c.defense + (k : Int) + 1) = c.defense + ((k : Int) + 1) := by
      unfold wrapInt
      omega
    have e4 : wrapInt (c.level + (k : Int) + 1) = c.level + ((k : Int) + 1) := by
      unfold wrapInt
      omega
    have e5 : wrapInt ((100 : Int) - 100) = 0 := by decide
    simp only [Character.gainExperience, e0, e1, e2, e3, e4, e5, ge_iff_le, le_refl, if_true,
      Nat.cast_succ]
    have hk : (k + 1 = 0) = False := by simp
    simp only [hk, if_false]

/-- What `loadGame` returns for the file `saveGame` wrote, for every character
with a name free of line feeds, members in the range of `int`, a health between
0 and the maximum, a level of at least 1, experience in `[0, 100)` and
statistics that the replayed level-ups keep in the range of `int`: the name,
the level and the experience are the saved ones, and the level-up bonuses are
added once more for every level above the first, `2` to the attack, `1` to the
defense, `10` to the maximum health, with the health at that maximum; only at
level 1 is the health the saved one. -/
theorem loadGame_saveGame (u : Uninit) (c : Character) (hname : Char.ofNat 10 ∉ c.name)
    (hh : IsInt c.health) (hm : IsInt c.maxHealth) (ha : IsInt c.attack)
    (hd : IsInt c.defense) (hl : IsInt c.level) (hx : IsInt c.experience)
    (h0 : 0 ≤ c.health) (hle : c.health ≤ c.maxHealth) (hlevel : 1 ≤ c.level)
    (hexp : 0 ≤ c.experience ∧ c.experience < 100)
    (hmk : IsInt (c.maxHealth + 10 * (c.level - 1)))
    (hak : IsInt (c.attack + 2 * (c.level - 1)))
    (hdk : IsInt (c.defense + (c.level - 1))) :
    ∃ text, saveGame true c = .ok text ∧
      loadGame u (some text) =
        .ok { name := c.name
              maxHealth := c.maxHealth + 10 * (c.level - 1)
              health := if c.level = 1 then c.health else c.maxHealth + 10 * (c.level - 1)
              attack := c.attack + 2 * (c.level - 1)
              defense := c.defense + (c.level - 1)
              level := c.level
              experience := c.experience } := by
  refine ⟨c.name ++ Char.ofNat 10 :: (putInt c.health ++ Char.ofNat 10 ::
    (putInt c.maxHealth ++ Char.ofNat 10 :: (putInt c.attack ++ Char.ofNat 10 ::
    (putInt c.defense ++ Char.ofNat 10 :: (putInt c.level ++ Char.ofNat 10 ::
    (putInt c.experience ++ Char.ofNat 10 :: [])))))), ?_, ?_⟩
  · simp only [saveGame, Bool.not_true, Bool.false_eq_true, if_false, List.append_assoc]
    rfl
  · simp only [loadGame]
    rw [getline_line c.name _ [] hname]
    simp only
    rw [(getInt_line _ u.health c.health hh).1]
    simp only
    rw [(getInt_line _ u.maxHealth c.maxHealth hm).2]
    simp only
    rw [(getInt_line _ u.attack c.attack ha).2]
    simp only
    rw [(getInt_line _ u.defense c.defense hd).2]
    simp only
    rw [(getInt_line _ u.level c.level hl).2]
    simp only
    rw [(getInt_line _ u.experience c.experience hx).2]
    simp only
    have hk : (((c.level - 1).toNat : Nat) : Int) = c.level - 1 := by omega
    have hheal : (Character.ctor c.name c.maxHealth c.attack c.defense).heal
        (wrapInt (c.health - (Character.ctor c.name c.maxHealth c.attack c.defense).health)) =
        { name := c.name, maxHealth := c.maxHealth, health := c.health, attack := c.attack,
          defense := c.defense, level := 1, experience := 0 } := by
      simp only [Character.heal, Character.ctor, Entity.ctor, Entity.heal]
      have hw : wrapInt (c.maxHealth + wrapInt (c.health - c.maxHealth)) = c.health := by
        unfold IsInt INT_MIN INT_MAX at hh hm
        unfold wrapInt
        omega
      have : ¬ (c.health > c.maxHealth) := by omega
      simp only [hw, this, if_false]
    rw [hheal, replay_levels (c.level - 1).toNat
      { name := c.name, maxHealth := c.maxHealth, health := c.health, attack := c.attack,
        defense := c.defense, level := 1, experience := 0 } rfl hm (by rw [hk]; exact hmk) ha
      (by rw [hk]; exact hak) hd (by rw [hk]; exact hdk) (show IsInt (1 : Int) by decide)
      (by rw [hk]; simpa using hl)]
    simp only [Character.gainExperience, hk]
    have hwx : wrapInt (0 + c.experience) = c.experience := by
      rw [zero_add]
      exact wrapInt_of_isInt _ hx
    have hno : ¬ (c.experience ≥ 100) := by omega
    simp only [hwx, hno, if_false]
    have hk0 : ((c.level - 1).toNat = 0) = (c.level = 1) := by
      apply propext
      omega
    simp only [hk0]
    have e1 : 1 + (c.level - 1) = c.level := by ring
    rw [e1]

/-! ## Damage, healing and experience -/

/-- C22, against the claim: the hero at level 1 with experience 99 has
`experience + exp = 2147483746 ≥ 100` for `exp = INT_MAX`, yet the addition
wraps to `-2147483550`: `gainExperience(INT_MAX)` leaves the level at 1, the
statistics as they were, and the experience at `-2147483550`. -/
theorem gainExperience_wraps_counterexample :
    ((Character.ctor "Sir Lancelot".toList 120 25 15).gainExperience 99).level = 1 ∧
    ((Character.ctor "Sir Lancelot".toList 120 25 15).gainExperience 99).experience = 99 ∧
    ((Character.ctor "Sir Lancelot".toList 120 25 15).gainExperience 99).experience +
      INT_MAX ≥ 100 ∧
    (((Character.ctor "Sir Lancelot".toList 120 25 15).gainExperience 99).gainExperience
      INT_MAX).level = 1 ∧
    (((Character.ctor "Sir Lancelot".toList 120 25 15).gainExperience 99).gainExperience
      INT_MAX).experience = -2147483550 ∧
    (((Character.ctor "Sir Lancelot".toList 120 25 15).gainExperience 99).gainExperience
      INT_MAX).attack = 25 ∧
    (((Character.ctor "Sir Lancelot".toList 120 25 15).gainExperience 99).gainExperience
      INT_MAX).maxHealth = 120 := by
  decide

/-- C22, amended. For every `Character` and `exp` for which `experience + exp`
is in the range of `int`: with `experience + exp ≥ 100`, and the raised level,
attack, defense and maximum health in the range of `int` too,
`gainExperience(exp)` raises the level by exactly 1, sets the experience to
`experience + exp - 100`, adds 2 to the attack, 1 to the defense and 10 to the
maximum health, and sets the health to the new maximum; with `experience + exp
< 100` it only adds `exp` to the experience. -/
theorem gainExperience_rule (c : Character) (exp : Int)
    (hsum : IsInt (c.experience + exp)) :
    (c.experience + exp ≥ 100 → IsInt (c.level + 1) → IsInt (c.attack + 2) →
      IsInt (c.defense + 1) → IsInt (c.maxHealth + 10) →
      (c.gainExperience exp).level = c.level + 1 ∧
      (c.gainExperience exp).experience = c.experience + exp - 100 ∧
      (c.gainExperience exp).attack = c.attack + 2 ∧
      (c.gainExperience exp).defense = c.defense + 1 ∧
      (c.gainExperience exp).maxHealth = c.maxHealth + 10 ∧
      (c.gainExperience exp).health = c.maxHealth + 10 ∧
      (c.gainExperience exp).name = c.name) ∧
    (c.experience + exp < 100 →
      c.gainExperience exp = { c with experience := c.experience + exp }) := by
  have hw := wrapInt_of_isInt _ hsum
  constructor
  · intro h hl ha hd hm
    have hx : wrapInt (c.experience + exp - 100) = c.experience + exp - 100 := by
      unfold IsInt INT_MIN INT_MAX at hsum
      unfold wrapInt
      omega
    simp [Character.gainExperience, hw, h, hx, wrapInt_of_isInt _ hl, wrapInt_of_isInt _ ha,
      wrapInt_of_isInt _ hd, wrapInt_of_isInt _ hm]
  · intro h
    have h' : ¬ (c.experience + exp ≥ 100) := by omega
    simp [Character.gainExperience, hw, h']

/-- C22, amended, on the hero of `main`: from level 1 and experience 0,
`gainExperience(75)` leaves level 1 and experience 75, and `gainExperience(50)`
then gives level 2 and experience 25. -/
theorem gainExperience_rule_witness :
    ((Character.ctor "Sir Lancelot".toList 120 25 15).gainExperience 75).level = 1 ∧
    ((Character.ctor "Sir Lancelot".toList 120 25 15).gainExperience 75).experience = 75 ∧
    (((Character.ctor "Sir Lancelot".toList 120 25 15).gainExperience 75).gainExperience
      50).level = 2 ∧
    (((Character.ctor "Sir Lancelot".toList 120 25 15).gainExperience 75).gainExperience
      50).experience = 25 :=
  ⟨by decide, by decide,
    ((gainExperience_rule ((Character.ctor "Sir Lancelot".toList 120 25 15).gainExperience 75)
      50 (by decide)).1 (by decide) (by decide) (by decide) (by decide) (by decide)).1,
    ((gainExperience_rule ((Character.ctor "Sir Lancelot".toList 120 25 15).gainExperience 75)
      50 (by decide)).1 (by decide) (by decide) (by decide) (by decide) (by decide)).2.1⟩

/-- `Entity::takeDamage` with an `int` damage that is not negative keeps the
health bounds, whether or not it throws. -/
theorem takeDamage_inBounds (e : Entity) (d : Int) (he : e.InBounds) (hh : IsInt e.health)
    (hd : 0 ≤ d) (hdi : IsInt d) : (e.takeDamage d).1.InBounds := by
  unfold Entity.InBounds at he ⊢
  have hw : wrapInt (e.health - d) = e.health - d := by
    unfold IsInt INT_MIN INT_MAX at hh hdi
    unfold wrapInt
    omega
  by_cases h : e.health - d ≤ 0
  · simp only [Entity.takeDamage, hw, h, if_true]
    omega
  · simp only [Entity.takeDamage, hw, h, if_false]
    omega

/-- C24, against the claim: the goblin of `main` after a hit for 20 stands at
health 10 of 30, inside the bounds; `heal(INT_MAX)` has an amount that is not
negative, the sum `10 + INT_MAX` wraps to `-2147483639`, which is not above the
maximum, and the health is `-2147483639` after the call, below 0. -/
theorem heal_wraps_counterexample :
    ((Entity.ctor "Goblin".toList 30 10 2).takeDamage 20).1.health = 10 ∧
    ((Entity.ctor "Goblin".toList 30 10 2).takeDamage 20).1.maxHealth = 30 ∧
    ((Entity.ctor "Goblin".toList 30 10 2).takeDamage 20).1.InBounds ∧
    0 ≤ INT_MAX ∧
    (((Entity.ctor "Goblin".toList 30 10 2).takeDamage 20).1.heal INT_MAX).health =
      -2147483639 ∧
    ¬ (((Entity.ctor "Goblin".toList 30 10 2).takeDamage 20).1.heal INT_MAX).InBounds := by
  decide

/-- C24, amended. With `0 ≤ health ≤ maxHealth` before the call and every value
an `int`, the bounds hold after `Entity::takeDamage(d)` and after
`Skeleton::takeDamage(d)`, resistant or not, for `d ≥ 0`, whether or not the
call throws the defeat error; after `Entity::heal(a)` for `a ≥ 0` (also as
`Character::heal` runs it) when `health + a` does not exceed `INT_MAX`; and
after `Character::gainExperience(x)`, for every `x`, when `maxHealth + 10` does
not exceed `INT_MAX`. -/
theorem health_bounds_invariant (e : Entity) (k : Skeleton) (c : Character) (d a x : Int)
    (hd : IsInt d) :
    (e.InBounds → IsInt e.health → 0 ≤ d → (e.takeDamage d).1.InBounds) ∧
    (k.toEntity.InBounds → IsInt k.health → 0 ≤ d → (k.takeDamage d).1.toEntity.InBounds) ∧
    (c.toEntity.InBounds → IsInt c.health → 0 ≤ d → (c.takeDamage d).1.toEntity.InBounds) ∧
    (e.InBounds → 0 ≤ a → e.health + a ≤ INT_MAX → (e.heal a).InBounds) ∧
    (c.toEntity.InBounds → 0 ≤ a → c.health + a ≤ INT_MAX → (c.heal a).toEntity.InBounds) ∧
    (c.toEntity.InBounds → c.maxHealth + 10 ≤ INT_MAX →
      (c.gainExperience x).toEntity.InBounds) := by
  have hheal : ∀ e : Entity, e.InBounds → 0 ≤ a → e.health + a ≤ INT_MAX →
      (e.heal a).InBounds := by
    intro e he ha hsum
    unfold Entity.InBounds at he ⊢
    have hw : wrapInt (e.health + a) = e.health + a := by
      unfold INT_MAX at hsum
      unfold wrapInt
      omega
    by_cases h : e.health + a > e.maxHealth
    · simp only [Entity.heal, hw, h, if_true]
      omega
    · simp only [Entity.heal, hw, h, if_false]
      omega
  refine ⟨fun he hh h0 => takeDamage_inBounds e d he hh h0 hd, ?_, ?_, hheal e, ?_, ?_⟩
  · intro hk hh h0
    cases hres : k.isResistant with
    | true =>
      simp only [Skeleton.takeDamage, hres, if_true]
      have hhalf : IsInt (Int.tdiv d 2) := by
        rw [Int.tdiv_eq_ediv h0 (by decide)]
        unfold IsInt INT_MIN INT_MAX at hd ⊢
        omega
      exact takeDamage_inBounds k.toEntity _ hk hh (Int.tdiv_nonneg h0 (by decide)) hhalf
    | false =>
      simp only [Skeleton.takeDamage, hres, Bool.false_eq_true, if_false]
      exact takeDamage_inBounds k.toEntity _ hk hh h0 hd
  · intro hc hh h0
    exact takeDamage_inBounds c.toEntity d hc hh h0 hd
  · intro hc ha hsum
    exact hheal c.toEntity hc ha hsum
  · intro hc hmax
    unfold Entity.InBounds at hc ⊢
    have hw : wrapInt (c.maxHealth + 10) = c.maxHealth + 10 := by
      unfold INT_MAX at hmax
      unfold wrapInt
      omega
    by_cases h : wrapInt (c.experience + x) ≥ 100
    · simp only [Character.gainExperience, h, if_true, hw]
      omega
    · simp only [Character.gainExperience, h, if_false]
      exact hc

/-- C24, amended, on the skeleton of `main`, `Skeleton("Bony", 60, 12, 8,
true)`: a hit for 17 is halved to 8 and leaves 52/60; a hit for 500 defeats it
and leaves 0/60. -/
theorem health_bounds_invariant_witness :
    ((Skeleton.ctor "Bony".toList 60 12 8 true).takeDamage 17).1.health = 52 ∧
    ((Skeleton.ctor "Bony".toList 60 12 8 true).takeDamage 17).1.toEntity.InBounds ∧
    ((Skeleton.ctor "Bony".toList 60 12 8 true).takeDamage 500).1.toEntity.InBounds ∧
    ((Skeleton.ctor "Bony".toList 60 12 8 true).takeDamage 500).2 =
      some (.runtime_error "Bony has been defeated!") :=
  ⟨by decide,
    (health_bounds_invariant (Entity.ctor [] 0 0 0) (Skeleton.ctor "Bony".toList 60 12 8 true)
      (Character.ctor [] 0 0 0) 17 0 0 (by decide)).2.1 (by decide) (by decide) (by decide),
    (health_bounds_invariant (Entity.ctor [] 0 0 0) (Skeleton.ctor "Bony".toList 60 12 8 true)
      (Character.ctor [] 0 0 0) 500 0 0 (by decide)).2.1 (by decide) (by decide) (by decide),
    by decide⟩

end Lb9

namespace Lb1_1

open Lb10

/-! # Theorems on the health range of lb1.1 -/

/-- With all values `int`s: `takeDamage` with an argument that is not negative
keeps the health in `[0, 100]`, and so does `heal` as long as `heal_value +
health` does not exceed `INT_MAX`; `attackEnemy` never raises the enemy's
health, and keeps it in range exactly when the damage dealt does not exceed
it. -/
theorem heal_takeDamage_inRange (c self : Character) (v d : Int) (hc : c.InRange) :
    (0 ≤ v → v + c.health ≤ INT_MAX → (c.heal v).InRange) ∧
    (0 ≤ d → IsInt d → (c.takeDamage d).InRange) ∧
    (0 ≤ self.attack → IsInt self.attack → 0 ≤ c.defense → IsInt c.defense →
      (self.attackEnemy c).health ≤ 100 ∧
      ((self.attackEnemy c).InRange ↔ self.attack - c.defense ≤ c.health)) := by
  unfold Character.InRange at hc ⊢
  refine ⟨?_, ?_, ?_⟩
  · intro hv hsum
    have hw : wrapInt (v + c.health) = v + c.health := by
      unfold INT_MAX at hsum
      unfold wrapInt
      omega
    have hw' : wrapInt (c.health + v) = c.health + v := by
      unfold INT_MAX at hsum
      unfold wrapInt
      omega
    by_cases h : v + c.health > 100
    · simp only [Character.heal, hw, h, if_true]
      omega
    · simp only [Character.heal, hw, hw', h, if_false]
      omega
  · intro hd hdi
    have hw : wrapInt (c.health - d) = c.health - d := by
      unfold IsInt INT_MIN INT_MAX at hdi
      unfold wrapInt
      omega
    by_cases h : c.health - d < 0
    · simp only [Character.takeDamage, hw, h, if_true]
      omega
    · simp only [Character.takeDamage, hw, h, if_false]
      omega
  · intro ha hai hd hdi
    unfold IsInt INT_MIN INT_MAX at hai hdi
    have hw : wrapInt (self.attack - c.defense) = self.attack - c.defense := by
      unfold wrapInt
      omega
    by_cases h : self.attack - c.defense > 0
    · have hw' : wrapInt (c.health - (self.attack - c.defense)) =
          c.health - (self.attack - c.defense) := by
        unfold wrapInt
        omega
      simp only [Character.attackEnemy, hw, hw', h, if_true]
      constructor
      · omega
      · constructor
        · intro hr
          omega
        · intro hr
          omega
    · simp only [Character.attackEnemy, hw, h, if_false]
      constructor
      · omega
      · constructor
        · intro _
          omega
        · intro _
          exact hc

/-- C25, the code on the characters of `main`: the values of the demo come out
as claimed (the goblin at 35 after one attack; the hero at 80, 100 and 0), but
the hero attacking the goblin four times in a row leaves the goblin's health at
-10, outside `[0, 100]`, although both characters started in range with
non-negative attack and defense: `attackEnemy` subtracts the damage without the
clamp at 0 that `takeDamage` has. -/
theorem attackEnemy_leaves_range :
    (hero.attackEnemy monster).health = 35 ∧
    (hero.takeDamage 20).health = 80 ∧
    ((hero.takeDamage 20).heal 30).health = 100 ∧
    (((hero.takeDamage 20).heal 30).takeDamage 200).health = 0 ∧
    hero.InRange ∧ monster.InRange ∧
    0 ≤ hero.attack ∧ 0 ≤ hero.defense ∧ 0 ≤ monster.attack ∧ 0 ≤ monster.defense ∧
    (hero.attackEnemy (hero.attackEnemy (hero.attackEnemy monster))).InRange ∧
    (hero.attackEnemy (hero.attackEnemy (hero.attackEnemy
      (hero.attackEnemy monster)))).health = -10 ∧
    ¬ (hero.attackEnemy (hero.attackEnemy (hero.attackEnemy
      (hero.attackEnemy monster)))).InRange := by
  decide

end Lb1_1
